import Mathlib

/-!
Verification of the `meta-composition` function-graph engine and composer.

The Python sources (`composer.py`, `primitives.py`, `generators.py`, `utils.py`)
are shallowly embedded below.  Python vertices are compared by object identity;
every Lean `Vertex` carries a `vid : Nat` playing the role of that identity, and
every Python structure keyed by a vertex object is keyed by `vid` here.  Python
dictionaries preserve insertion order, so they are modelled by association lists
together with order-preserving insert; Python sets of naturals are `Finset Nat`.
Python exceptions are modelled by `Except GErr`.
-/

namespace MetaComp

/-- Python primitive types appearing in the repository (int, str, float, NoneType). -/
inductive PyType where
  | int
  | str
  | float
  | noneType
deriving DecidableEq

instance : Inhabited PyType := ⟨PyType.int⟩

/-- Python runtime values flowing through function graphs.  Floats are carried as
rationals; no verified claim computes with float arithmetic. -/
inductive PyVal where
  | int (n : Int)
  | str (s : String)
  | float (q : Rat)
  | none
deriving DecidableEq

/-- `type(value)` for the primitive values above. -/
def typeOf : PyVal → PyType
  | .int _ => .int
  | .str _ => .str
  | .float _ => .float
  | .none => .noneType

/-- Display form of a value, used only for the `name` field of constant vertices
(Python `str(value)`); float rendering is display-only and never inspected. -/
def pyStr : PyVal → String
  | .int n => toString n
  | .str s => s
  | .float _ => "float"
  | .none => "None"

/-- The value stored in a vertex's `out_type` field.  `FuncVertex.__init__` and
`OutVertex.__init__` store a tuple of types, but `ConstVertex.__init__` stores the
bare type object `type(value)` and `SinkVertex.__init__` stores `type(None)`. -/
inductive TyVal where
  | single (t : PyType)
  | tup (ts : List PyType)
deriving DecidableEq

/-- Python `out_type[j]`: subscripting a bare type object raises `TypeError`,
subscripting a tuple past its length raises `IndexError`. -/
inductive GErr where
  | cyclic
  | noOutput
  | keyError
  | indexError
  | typeError
  | callError
  | fuelOut
deriving DecidableEq

/-- The four vertex classes of `composer.py`. -/
inductive VKind where
  | func
  | const
  | sink
  | out
deriving DecidableEq

/-- A vertex.  `inpType` is the ordered `inp_type` dictionary, `outTypeF` the
`out_type` field, `arity` the value of `__len__`, and `impl` the behaviour of
`__call__` on a keyword dictionary: `Option.none` models an exception escaping the
call, and the returned list models the result sequence that `FuncGraph.__call__`
subsequently indexes. -/
structure Vertex where
  vid : Nat
  name : String
  kind : VKind
  inpType : List (String × PyType)
  outTypeF : TyVal
  impl : (String → Option PyVal) → Option (List PyVal)
  arity : Nat

def SINK_KWD : String := "_"

def OUT_KWD : String := "out"

/-- `FuncVertex` wrapping a callable annotated with a single (non-tuple) return
type: `__call__` wraps the raw result in a one-element tuple and `__len__` is the
length of the one-element `out_type` tuple.  The `(inp, outT)` signature is the
output of the external type-extraction collaborator (`utils.get_types`). -/
def mkFuncVertexSingle (vid : Nat) (name : String) (inp : List (String × PyType))
    (outT : PyType) (f : (String → Option PyVal) → Option PyVal) : Vertex :=
  { vid := vid, name := name, kind := VKind.func, inpType := inp,
    outTypeF := TyVal.tup [outT],
    impl := fun kw => (f kw).map (fun v => [v]),
    arity := 1 }

/-- `FuncVertex` wrapping a callable annotated with a tuple return type: the raw
result sequence is returned unchanged, and `__len__` is the length of the declared
tuple of output types (which the runtime result may disagree with). -/
def mkFuncVertexMulti (vid : Nat) (name : String) (inp : List (String × PyType))
    (outTs : List PyType) (f : (String → Option PyVal) → Option (List PyVal)) : Vertex :=
  { vid := vid, name := name, kind := VKind.func, inpType := inp,
    outTypeF := TyVal.tup outTs,
    impl := f, arity := outTs.length }

/-- `ConstVertex.__init__`: no inputs, `out_type = type(value)` (a bare type, not
a tuple — the source has no tuple-forming comma here), `__len__` returns 1, and
`__call__` returns the one-element tuple `(value,)`. -/
def mkConstVertex (vid : Nat) (value : PyVal) : Vertex :=
  { vid := vid, name := pyStr value, kind := VKind.const, inpType := [],
    outTypeF := TyVal.single (typeOf value),
    impl := fun _ => Option.some [value],
    arity := 1 }

/-- `SinkVertex.__init__`: one input keyword `SINK_KWD`, `out_type = type(None)`,
`__len__` returns 0.  `__call__` returns Python `None`; since the arity is 0 the
result is never indexed, so it is modelled as the empty sequence. -/
def mkSinkVertex (vid : Nat) (dtype : PyType) : Vertex :=
  { vid := vid, name := SINK_KWD, kind := VKind.sink, inpType := [(SINK_KWD, dtype)],
    outTypeF := TyVal.single PyType.noneType,
    impl := fun _ => Option.some [],
    arity := 0 }

/-- `OutVertex.__init__`: one input keyword `OUT_KWD`, `out_type = (dtype,)`,
`__len__` returns 1; `__call__` (invoked with keywords only by the engine) returns
`(kwargs[OUT_KWD],)`, raising `KeyError` when the keyword is missing. -/
def mkOutVertex (vid : Nat) (dtype : PyType) : Vertex :=
  { vid := vid, name := "~ret", kind := VKind.out, inpType := [(OUT_KWD, dtype)],
    outTypeF := TyVal.tup [dtype],
    impl := fun kw => (kw OUT_KWD).map (fun v => [v]),
    arity := 1 }

/-- Decimal digits of `n`, most significant first, with an explicit budget
(`n` itself suffices since `n / 10 < n`). -/
def natStrAux : Nat → Nat → List Char
  | 0, _ => []
  | _, 0 => []
  | fuel + 1, n => natStrAux fuel (n / 10) ++ [Nat.digitChar (n % 10)]

/-- Python `str(n)` for a natural number: its decimal rendering. -/
def natStr (n : Nat) : String :=
  if n = 0 then "0" else { data := natStrAux n n }

/-- Ordered-dictionary lookup. -/
def dictFind {α β : Type} [DecidableEq α] (l : List (α × β)) (k : α) : Option β :=
  (l.find? (fun p => decide (p.1 = k))).map (fun p => p.2)

/-- Ordered-dictionary insert: overwriting an existing key keeps its position
(Python dict semantics); a fresh key is appended. -/
def dictInsert {α β : Type} [DecidableEq α] (l : List (α × β)) (k : α) (v : β) :
    List (α × β) :=
  if l.any (fun p => decide (p.1 = k)) then
    l.map (fun p => if p.1 = k then (k, v) else p)
  else l ++ [(k, v)]

/-- `FuncGraph`.  `verts` doubles as the iteration order of the Python vertex set
(which is unspecified, so theorems quantify over it); `adjacency` and `argdeps`
are total over `vid`s, defaulting to the empty entry. -/
structure FuncGraph where
  verts : List Vertex
  adjacency : Nat → List (Option (List (Nat × String)))
  argdeps : Nat → List (String × Option (Nat × Nat))
  inputOrder : Option (List PyType)
  outputOrder : Option (List PyType)

/-- `FuncGraph.__init__`. -/
def FuncGraph.empty : FuncGraph :=
  { verts := [],
    adjacency := fun _ => [],
    argdeps := fun _ => [],
    inputOrder := Option.none,
    outputOrder := Option.none }

/-- `FuncGraph.add`: register the vertex, all output slots open (`None`), all
input keywords unbound. -/
def FuncGraph.add (g : FuncGraph) (v : Vertex) : FuncGraph :=
  { g with
    verts := g.verts ++ [v],
    adjacency := fun i =>
      if i = v.vid then List.replicate v.arity Option.none else g.adjacency i,
    argdeps := fun i =>
      if i = v.vid then v.inpType.map (fun p => (p.1, Option.none)) else g.argdeps i }

/-- `FuncGraph.feed`: append `(dst, kwd)` to the fan-out list of `src`'s slot
`idx` (creating it when the slot was open) and overwrite `argdeps[dst][kwd]`. -/
def FuncGraph.feed (g : FuncGraph) (src : Nat) (idx : Nat) (dst : Nat) (kwd : String) :
    FuncGraph :=
  { g with
    adjacency := fun i =>
      if i = src then
        (g.adjacency src).set idx
          (Option.some ((((g.adjacency src).get? idx).join.getD []) ++ [(dst, kwd)]))
      else g.adjacency i,
    argdeps := fun i =>
      if i = dst then
        (g.argdeps dst).map (fun p =>
          if p.1 = kwd then (p.1, Option.some (src, idx)) else p)
      else g.argdeps i }

/-- `FuncGraph._get_out_indices`: output indices of `vid` with no consumer. -/
def FuncGraph.getOutIndices (g : FuncGraph) (vid : Nat) : List Nat :=
  (g.adjacency vid).enum.filterMap (fun p => if p.2.isNone then Option.some p.1 else Option.none)

/-- The `outs` list of `_get_outputs`: non-sink vertices with an open slot, in
vertex-collection order. -/
def FuncGraph.openOuts (g : FuncGraph) : List Vertex :=
  g.verts.filter (fun v =>
    !(v.kind == VKind.sink) && (g.adjacency v.vid).any (fun s => s.isNone))

/-- Python `out_type[j]` on a vertex's `out_type` field. -/
def outTypeAt : TyVal → Nat → Except GErr PyType
  | .single _, _ => .error .typeError
  | .tup ts, j =>
    match ts.get? j with
    | Option.some t => .ok t
    | Option.none => .error .indexError

/-- The `(type, (vertex, index))` entries contributed by one vertex of `outs`. -/
def slotsAux (vid : Nat) (tv : TyVal) : List Nat → Except GErr (List (PyType × Nat × Nat))
  | [] => .ok []
  | j :: rest =>
    match outTypeAt tv j with
    | .error e => .error e
    | .ok t =>
      match slotsAux vid tv rest with
      | .error e => .error e
      | .ok l => .ok ((t, vid, j) :: l)

/-- The discovered `(out_type, out_map)` pairs of `_get_outputs`, before any
requested reordering, in vertex-collection order. -/
def discoveredAux (g : FuncGraph) : List Vertex → Except GErr (List (PyType × Nat × Nat))
  | [] => .ok []
  | v :: rest =>
    match slotsAux v.vid v.outTypeF (g.getOutIndices v.vid) with
    | .error e => .error e
    | .ok l =>
      match discoveredAux g rest with
      | .error e => .error e
      | .ok l2 => .ok (l ++ l2)

/-- The inner scan of the greedy reordering, with the running `enumerate`
counter explicit: the first discovered slot with the requested type whose
position is not yet used. -/
def pickFirstAux (typ : PyType) (used : Finset Nat) :
    Nat → List (PyType × Nat × Nat) → Option (Nat × (PyType × Nat × Nat))
  | _, [] => Option.none
  | e, p :: rest =>
    if p.1 = typ ∧ e ∉ used then Option.some (e, p)
    else pickFirstAux typ used (e + 1) rest

/-- The inner scan of the greedy reordering: first discovered slot with the
requested type whose position is not yet used (`enumerate` + `break`). -/
def pickFirst (typ : PyType) (pairs : List (PyType × Nat × Nat)) (used : Finset Nat) :
    Option (Nat × (PyType × Nat × Nat)) :=
  pickFirstAux typ used 0 pairs

/-- The greedy reordering loop of `_get_outputs`: for each requested type in
order, take the first not-yet-used discovered slot of that type. -/
def greedyLoop (pairs : List (PyType × Nat × Nat)) :
    List PyType → Finset Nat → List (PyType × Nat × Nat)
  | [], _ => []
  | typ :: rest, used =>
    match pickFirst typ pairs used with
    | Option.some (e, p) => p :: greedyLoop pairs rest (insert e used)
    | Option.none => greedyLoop pairs rest used

/-- `FuncGraph._get_outputs`. -/
def FuncGraph.getOutputs (g : FuncGraph) (typeOrdering : Option (List PyType)) :
    Except GErr (List PyType × List (Nat × Nat)) :=
  if g.openOuts.isEmpty then .error .noOutput
  else
    match discoveredAux g g.openOuts with
    | .error e => .error e
    | .ok pairs =>
      let ordering := match typeOrdering with
        | Option.none => g.outputOrder
        | Option.some o => Option.some o
      match ordering with
      | Option.none => .ok (pairs.map Prod.fst, pairs.map (fun p => p.2))
      | Option.some ord =>
        if (↑(pairs.map Prod.fst) : Multiset PyType) = (↑ord : Multiset PyType) then
          .ok ((greedyLoop pairs ord ∅).map Prod.fst, (greedyLoop pairs ord ∅).map (fun p => p.2))
        else .ok (pairs.map Prod.fst, pairs.map (fun p => p.2))

/-- `FuncGraph.get_out_type`. -/
def FuncGraph.getOutType (g : FuncGraph) : Except GErr (List PyType) :=
  (g.getOutputs Option.none).map Prod.fst

/-- State of the `_get_arguments` accumulation loop: per-keyword occurrence
counters, the ordered `inp_type` dictionary, and the `arg_map` dictionary. -/
structure ArgSt where
  counters : String → Option Nat
  inpT : List (String × PyType)
  argMap : List ((Nat × String) × String)

/-- One vertex's pass of the `_get_arguments` loop: every unbound keyword becomes
an external argument named `kwd` followed by its per-keyword occurrence counter. -/
def argScanKwds (g : FuncGraph) (vid : Nat) :
    List (String × PyType) → ArgSt → Except GErr ArgSt
  | [], st => .ok st
  | (kwd, ty) :: rest, st =>
    match dictFind (g.argdeps vid) kwd with
    | Option.none => .error .keyError
    | Option.some (Option.some _) => argScanKwds g vid rest st
    | Option.some Option.none =>
      match st.counters kwd with
      | Option.none =>
        argScanKwds g vid rest
          { counters := fun k => if k = kwd then Option.some 0 else st.counters k,
            inpT := dictInsert st.inpT (kwd ++ natStr 0) ty,
            argMap := dictInsert st.argMap (vid, kwd) (kwd ++ natStr 0) }
      | Option.some n =>
        argScanKwds g vid rest
          { counters := fun k => if k = kwd then Option.some (n + 1) else st.counters k,
            inpT := dictInsert st.inpT (kwd ++ natStr (n + 1)) ty,
            argMap := dictInsert st.argMap (vid, kwd) (kwd ++ natStr (n + 1)) }

/-- The outer vertex loop of `_get_arguments`. -/
def argScanVerts (g : FuncGraph) : List Vertex → ArgSt → Except GErr ArgSt
  | [], st => .ok st
  | v :: rest, st =>
    match argScanKwds g v.vid v.inpType st with
    | .error e => .error e
    | .ok st2 => argScanVerts g rest st2

/-- The inner scan of the greedy input reordering: first dictionary entry with
the requested type whose key is not yet used. -/
def pickFirstKV (typ : PyType) (l : List (String × PyType)) (used : Finset String) :
    Option (String × PyType) :=
  l.find? (fun p => decide (p.2 = typ) && decide (p.1 ∉ used))

/-- The greedy input reordering loop of `_get_arguments`. -/
def greedyKV (l : List (String × PyType)) : List PyType → Finset String → List (String × PyType)
  | [], _ => []
  | typ :: rest, used =>
    match pickFirstKV typ l used with
    | Option.some (k, v) => (k, v) :: greedyKV l rest (insert k used)
    | Option.none => greedyKV l rest used

/-- `FuncGraph._get_arguments`. -/
def FuncGraph.getArguments (g : FuncGraph) (typeOrdering : Option (List PyType)) :
    Except GErr (List (String × PyType) × List ((Nat × String) × String)) :=
  match argScanVerts g g.verts ⟨fun _ => Option.none, [], []⟩ with
  | .error e => .error e
  | .ok st =>
    let ordering := match typeOrdering with
      | Option.none => g.inputOrder
      | Option.some o => Option.some o
    match ordering with
    | Option.none => .ok (st.inpT, st.argMap)
    | Option.some ord =>
      if (↑(st.inpT.map Prod.snd) : Multiset PyType) = (↑ord : Multiset PyType) then
        .ok (greedyKV st.inpT ord ∅, st.argMap)
      else .ok (st.inpT, st.argMap)

/-- `FuncGraph.get_inp_type`. -/
def FuncGraph.getInpType (g : FuncGraph) : Except GErr (List (String × PyType)) :=
  (g.getArguments Option.none).map Prod.fst

/-- Mutable state of `_get_topo_order`: the `visited` set, the `recursing` set and
the accumulating order (of vertex identities). -/
structure DfsSt where
  visited : Finset Nat
  recursing : Finset Nat
  topo : List Nat

/-- The dependency loop of `dfs`: `None` entries are skipped, a back edge raises
the cyclic-graph error, unvisited producers are searched recursively by the
supplied continuation (the recursive `dfs` call at the next stack depth). -/
def dfsDeps (f : Nat → DfsSt → Except GErr DfsSt) :
    List (String × Option (Nat × Nat)) → DfsSt → Except GErr DfsSt
  | [], st => .ok st
  | (_, Option.none) :: rest, st => dfsDeps f rest st
  | (_, Option.some (dst, _)) :: rest, st =>
    if dst ∈ st.recursing then .error .cyclic
    else if dst ∈ st.visited then dfsDeps f rest st
    else
      match f dst st with
      | .error e => .error e
      | .ok st2 => dfsDeps f rest st2

/-- One call of the inner `dfs` of `_get_topo_order`, on the reversed
(consumer-to-producer) edges, with an explicit stack budget standing for the
Python call stack (each nested call consumes one unit). -/
def dfsVertex (g : FuncGraph) : Nat → Nat → DfsSt → Except GErr DfsSt
  | 0, _, _ => .error .fuelOut
  | fuel + 1, v, st =>
    match dfsDeps (dfsVertex g fuel) (g.argdeps v)
        ⟨insert v st.visited, insert v st.recursing, st.topo⟩ with
    | .error e => .error e
    | .ok st2 =>
      if 0 < (g.adjacency v).length then
        .ok ⟨st2.visited, st2.recursing.erase v, st2.topo ++ [v]⟩
      else
        .ok ⟨st2.visited, st2.recursing.erase v, st2.topo⟩

/-- The outer vertex loop of `_get_topo_order`. -/
def topoFold (g : FuncGraph) : List Vertex → DfsSt → Except GErr DfsSt
  | [], st => .ok st
  | v :: rest, st =>
    if v.vid ∈ st.visited then topoFold g rest st
    else
      match dfsVertex g (g.verts.length + 1) v.vid st with
      | .error e => .error e
      | .ok st2 => topoFold g rest st2

/-- `FuncGraph._get_topo_order`, returning the linear order of vertex identities. -/
def FuncGraph.getTopoOrder (g : FuncGraph) : Except GErr (List Nat) :=
  match topoFold g g.verts ⟨∅, ∅, []⟩ with
  | .error e => .error e
  | .ok st => .ok st.topo

/-- The positional-binding prologue of `FuncGraph.__call__`:
`for name, value in zip(inp_type, args): kwargs[name] = value`. -/
def bindPositional (names : List String) (args : List PyVal)
    (kwargs : String → Option PyVal) : String → Option PyVal :=
  (names.zip args).foldl (fun kw p => fun k => if k = p.1 then Option.some p.2 else kw k) kwargs

/-- Keyword-dictionary update. -/
def kwUpdate (kw : String → Option PyVal) (k : String) (v : PyVal) : String → Option PyVal :=
  fun k' => if k' = k then Option.some v else kw k'

/-- Resolution of one vertex's keyword set inside `__call__`: external arguments
come from the caller's keyword dictionary, bound keywords from the intermediates
table; a keyword that is neither is simply left unset. -/
def resolveKwds (g : FuncGraph) (argMap : List ((Nat × String) × String))
    (kwargs : String → Option PyVal) (inter : List ((Nat × Nat) × PyVal)) (vid : Nat) :
    List (String × PyType) → (String → Option PyVal) → Except GErr (String → Option PyVal)
  | [], acc => .ok acc
  | (kwd, _) :: rest, acc =>
    match dictFind argMap (vid, kwd) with
    | Option.some argName =>
      match kwargs argName with
      | Option.some val => resolveKwds g argMap kwargs inter vid rest (kwUpdate acc kwd val)
      | Option.none => .error .keyError
    | Option.none =>
      match dictFind (g.argdeps vid) kwd with
      | Option.none => .error .keyError
      | Option.some Option.none => resolveKwds g argMap kwargs inter vid rest acc
      | Option.some (Option.some dep) =>
        match dictFind inter dep with
        | Option.some val => resolveKwds g argMap kwargs inter vid rest (kwUpdate acc kwd val)
        | Option.none => .error .keyError

/-- The recording loop of `__call__`:
`for idx in range(len(vertex)): intermediates[(vertex, idx)] = result[idx]`.
Indexing past the end of the result raises `IndexError`. -/
def storeResults (vid : Nat) (result : List PyVal) :
    List Nat → List ((Nat × Nat) × PyVal) → Except GErr (List ((Nat × Nat) × PyVal))
  | [], inter => .ok inter
  | idx :: rest, inter =>
    match result.get? idx with
    | Option.none => .error .indexError
    | Option.some val => storeResults vid result rest (dictInsert inter (vid, idx) val)

/-- The vertex-execution loop of `__call__`, walking the topological order. -/
def execAll (g : FuncGraph) (argMap : List ((Nat × String) × String))
    (kwargs : String → Option PyVal) :
    List Nat → List ((Nat × Nat) × PyVal) → Except GErr (List ((Nat × Nat) × PyVal))
  | [], inter => .ok inter
  | vid :: rest, inter =>
    match g.verts.find? (fun u => decide (u.vid = vid)) with
    | Option.none => .error .keyError
    | Option.some v =>
      match resolveKwds g argMap kwargs inter vid v.inpType (fun _ => Option.none) with
      | .error e => .error e
      | .ok ckw =>
        match v.impl ckw with
        | Option.none => .error .callError
        | Option.some result =>
          match storeResults vid result (List.range v.arity) inter with
          | .error e => .error e
          | .ok inter2 => execAll g argMap kwargs rest inter2

/-- Assembly of the result tuple from the recorded intermediates. -/
def collectOuts (inter : List ((Nat × Nat) × PyVal)) :
    List (Nat × Nat) → Except GErr (List PyVal)
  | [] => .ok []
  | om :: rest =>
    match dictFind inter om with
    | Option.none => .error .keyError
    | Option.some val =>
      match collectOuts inter rest with
      | .error e => .error e
      | .ok l => .ok (val :: l)

/-- `FuncGraph.__call__`. -/
def FuncGraph.call (g : FuncGraph) (args : List PyVal)
    (kwargs0 : String → Option PyVal) : Except GErr (List PyVal) :=
  match g.getArguments Option.none with
  | .error e => .error e
  | .ok (inpT, argMap) =>
    match g.getOutputs Option.none with
    | .error e => .error e
    | .ok (_, outMap) =>
      match g.getTopoOrder with
      | .error e => .error e
      | .ok order =>
        match execAll g argMap (bindPositional (inpT.map Prod.fst) args kwargs0) order [] with
        | .error e => .error e
        | .ok inter => collectOuts inter outMap

/-- Python string repetition `s * n` (empty for a non-positive count). -/
def strRep (s : String) (n : Int) : String :=
  String.join (List.replicate n.toNat s)

/-- `primitives.int_add`. -/
def int_add : (String → Option PyVal) → Option PyVal := fun kw =>
  match kw "x", kw "y" with
  | Option.some (PyVal.int a), Option.some (PyVal.int b) => Option.some (PyVal.int (a + b))
  | _, _ => Option.none

/-- `primitives.str_repeat`. -/
def str_repeat : (String → Option PyVal) → Option PyVal := fun kw =>
  match kw "s", kw "n" with
  | Option.some (PyVal.str s), Option.some (PyVal.int n) => Option.some (PyVal.str (strRep s n))
  | _, _ => Option.none

/-- Vertex A of the end-to-end scenario: `FuncVertex('int_add', int_add)`. -/
def vertexA : Vertex :=
  mkFuncVertexSingle 1 "int_add" [("x", PyType.int), ("y", PyType.int)] PyType.int int_add

/-- Vertex B of the end-to-end scenario: `FuncVertex('str_repeat', str_repeat)`. -/
def vertexB : Vertex :=
  mkFuncVertexSingle 2 "str_repeat" [("s", PyType.str), ("n", PyType.int)] PyType.str str_repeat

/-- The end-to-end scenario graph: add A and B, feed A's output slot 0 into B's
keyword `n`. -/
def gC6 : FuncGraph :=
  ((FuncGraph.empty.add vertexA).add vertexB).feed 1 0 2 "n"

/-- The keyword dictionary `{s0: "a", x0: 2, y0: 3}`. -/
def kwC6 : String → Option PyVal := fun k =>
  if k = "s0" then Option.some (PyVal.str "a")
  else if k = "x0" then Option.some (PyVal.int 2)
  else if k = "y0" then Option.some (PyVal.int 3)
  else Option.none

/-- The keyword dictionary `{s: "a", x: 2, y: 3}` used by the claimed scenario. -/
def kwC6bad : String → Option PyVal := fun k =>
  if k = "s" then Option.some (PyVal.str "a")
  else if k = "x" then Option.some (PyVal.int 2)
  else if k = "y" then Option.some (PyVal.int 3)
  else Option.none

/-- A function vertex whose declared return annotation is the one-element tuple
`tuple[int]` (arity 1) but whose runtime result is a two-element tuple — legal in
Python, where annotations are not enforced. -/
def vertexLong : Vertex :=
  mkFuncVertexMulti 7 "two_of_them" [] [PyType.int]
    (fun _ => Option.some [PyVal.int 1, PyVal.int 2])

/-- A graph holding only `vertexLong`; its slot 0 is open, so it is the output. -/
def gC7 : FuncGraph := FuncGraph.empty.add vertexLong

/-!  ## Topological validation: invariants of the depth-first search  -/

/-- The producer relation read off `argdeps`: `depEdge g c p` holds when some
input keyword of the vertex with identity `c` is fed by an output of the vertex
with identity `p`. -/
def depEdge (g : FuncGraph) (c p : Nat) : Prop :=
  ∃ kwd idx, (kwd, Option.some (p, idx)) ∈ g.argdeps c

/-- Acyclicity of the producer/consumer relation. -/
def Acyclic (g : FuncGraph) : Prop :=
  ∀ x, ¬ Relation.TransGen (depEdge g) x x

/-- The set of vertex identities of a graph. -/
def vidSet (g : FuncGraph) : Finset Nat :=
  (g.verts.map Vertex.vid).toFinset

/-- A dependency entry points at a registered vertex within its arity. -/
def depTargetOk (g : FuncGraph) : Option (Nat × Nat) → Prop
  | Option.none => True
  | Option.some (p, idx) => ∃ u ∈ g.verts, u.vid = p ∧ idx < u.arity

instance (g : FuncGraph) : (o : Option (Nat × Nat)) → Decidable (depTargetOk g o)
  | Option.none => isTrue trivial
  | Option.some (p, idx) =>
    inferInstanceAs (Decidable (∃ u ∈ g.verts, u.vid = p ∧ idx < u.arity))

/-- Well-formedness of a graph state, as guaranteed by correct `add`/`feed`
usage: distinct vertex identities, adjacency rows of the declared length,
dependency rows keyed by the declared keywords, and dependency entries pointing
at registered vertices within their arity. -/
def FuncGraph.WF (g : FuncGraph) : Prop :=
  (g.verts.map Vertex.vid).Nodup ∧
  (∀ v ∈ g.verts, (g.adjacency v.vid).length = v.arity) ∧
  (∀ v ∈ g.verts, (g.argdeps v.vid).map Prod.fst = v.inpType.map Prod.fst) ∧
  (∀ v ∈ g.verts, ∀ e ∈ g.argdeps v.vid, depTargetOk g e.2)

/-- Closure of a vid set under the producer relation. -/
def Closed (g : FuncGraph) (U : Finset Nat) : Prop :=
  ∀ c ∈ U, ∀ kwd p idx, (kwd, Option.some (p, idx)) ∈ g.argdeps c → p ∈ U

/-- The invariant maintained between `dfs` calls: the recursion stack is part of
the visited set; the accumulated order is duplicate-free, holds exactly the
finished (visited and off-stack) identities with nonzero adjacency length, and
lists every producer of one of its members before that member. -/
def Inv (g : FuncGraph) (st : DfsSt) : Prop :=
  st.recursing ⊆ st.visited ∧
  st.topo.Nodup ∧
  (∀ x ∈ st.topo, x ∈ st.visited ∧ x ∉ st.recursing ∧ 0 < (g.adjacency x).length) ∧
  (∀ x, x ∈ st.visited → x ∉ st.recursing → 0 < (g.adjacency x).length → x ∈ st.topo) ∧
  (∀ c ∈ st.topo, ∀ p, depEdge g c p →
    p ∈ st.visited ∧ p ∉ st.recursing ∧
    (0 < (g.adjacency p).length → st.topo.indexOf p < st.topo.indexOf c))

/-- How one `dfs` call relates its entry and exit states: the visited set grows,
the recursion stack is restored, the order only receives appends. -/
def DfsPost (st st' : DfsSt) : Prop :=
  st.visited ⊆ st'.visited ∧ st'.recursing = st.recursing ∧ ∃ t, st'.topo = st.topo ++ t

theorem Inv_insert (g : FuncGraph) (st : DfsSt) (v : Nat) (hInv : Inv g st)
    (hv : v ∉ st.visited) :
    Inv g ⟨insert v st.visited, insert v st.recursing, st.topo⟩ := by
  obtain ⟨h1, h2, h3, h4, h5⟩ := hInv
  refine ⟨Finset.insert_subset_insert _ h1, h2, ?_, ?_, ?_⟩
  · intro x hx
    obtain ⟨hxv, hxr, hxa⟩ := h3 x hx
    refine ⟨Finset.mem_insert_of_mem hxv, ?_, hxa⟩
    intro hmem
    rcases Finset.mem_insert.mp hmem with h | h
    · exact hv (h ▸ hxv)
    · exact hxr h
  · intro x hxv hxr hxa
    rcases Finset.mem_insert.mp hxv with h | h
    · subst h
      exact absurd (Finset.mem_insert_self x st.recursing) hxr
    · exact h4 x h (fun hh => hxr (Finset.mem_insert_of_mem hh)) hxa
  · intro c hc p hedge
    obtain ⟨hpv, hpr, hpi⟩ := h5 c hc p hedge
    refine ⟨Finset.mem_insert_of_mem hpv, ?_, hpi⟩
    intro hmem
    rcases Finset.mem_insert.mp hmem with h | h
    · exact hv (h ▸ hpv)
    · exact hpr h

theorem Inv_finish_pos (g : FuncGraph) (st st2 : DfsSt) (v : Nat)
    (hInv : Inv g st) (hv : v ∉ st.visited) (hInv2 : Inv g st2)
    (hvis : insert v st.visited ⊆ st2.visited)
    (hrec2 : st2.recursing = insert v st.recursing)
    (hdeps : ∀ kwd p idx, (kwd, Option.some (p, idx)) ∈ g.argdeps v →
      p ∈ st2.visited ∧ p ∉ st2.recursing)
    (ha : 0 < (g.adjacency v).length) :
    Inv g ⟨st2.visited, st.recursing, st2.topo ++ [v]⟩ := by
  obtain ⟨i1, i2, i3, i4, i5⟩ := hInv
  obtain ⟨j1, j2, j3, j4, j5⟩ := hInv2
  have hvnr : v ∉ st.recursing := fun hr => hv (i1 hr)
  have hvtop : v ∉ st2.topo := by
    intro hvt
    exact (j3 v hvt).2.1 (hrec2 ▸ Finset.mem_insert_self v st.recursing)
  have hsubrec : st.recursing ⊆ st2.recursing := by
    rw [hrec2]; exact Finset.subset_insert _ _
  refine ⟨?_, ?_, ?_, ?_, ?_⟩
  · exact fun x hx => hvis (Finset.mem_insert_of_mem (i1 hx))
  · simp only [List.nodup_append, List.nodup_cons, List.not_mem_nil, not_false_iff,
      List.nodup_nil, and_true, List.disjoint_singleton]
    exact ⟨j2, trivial, hvtop⟩
  · intro x hx
    rcases List.mem_append.mp hx with hx | hx
    · obtain ⟨hxv, hxr, hxa⟩ := j3 x hx
      exact ⟨hxv, fun hh => hxr (hsubrec hh), hxa⟩
    · have : x = v := by simpa using hx
      subst this
      exact ⟨hvis (Finset.mem_insert_self _ _), hvnr, ha⟩
  · intro x hxv hxr hxa
    by_cases hxveq : x = v
    · subst hxveq
      exact List.mem_append_right _ (by simp)
    · have hxr2 : x ∉ st2.recursing := by
        rw [hrec2]
        intro hh
        rcases Finset.mem_insert.mp hh with h | h
        · exact hxveq h
        · exact hxr h
      exact List.mem_append_left _ (j4 x hxv hxr2 hxa)
  · intro c hc p hedge
    rcases List.mem_append.mp hc with hc2 | hc2
    · obtain ⟨hpv, hpr, hpi⟩ := j5 c hc2 p hedge
      refine ⟨hpv, fun hh => hpr (hsubrec hh), ?_⟩
      intro hpa
      have hidx := hpi hpa
      have hclen : st2.topo.indexOf c < st2.topo.length := List.indexOf_lt_length.mpr hc2
      have hplen : st2.topo.indexOf p < st2.topo.length := lt_trans hidx hclen
      have hp2 : p ∈ st2.topo := List.indexOf_lt_length.mp hplen
      rw [List.indexOf_append_of_mem hp2, List.indexOf_append_of_mem hc2]
      exact hidx
    · have : c = v := by simpa using hc2
      subst this
      obtain ⟨kwd, idx, hmem⟩ := hedge
      obtain ⟨hpv, hpr2⟩ := hdeps kwd p idx hmem
      have hpnr : p ∉ st.recursing := fun hh => hpr2 (hsubrec hh)
      refine ⟨hpv, hpnr, ?_⟩
      intro hpa
      have hp2 : p ∈ st2.topo := j4 p hpv hpr2 hpa
      rw [List.indexOf_append_of_mem hp2, List.indexOf_append_of_not_mem hvtop]
      simp only [List.indexOf_cons_self, Nat.add_zero]
      exact List.indexOf_lt_length.mpr hp2

theorem Inv_finish_zero (g : FuncGraph) (st st2 : DfsSt) (v : Nat)
    (hInv : Inv g st) (hInv2 : Inv g st2)
    (hrec2 : st2.recursing = insert v st.recursing)
    (ha : ¬ 0 < (g.adjacency v).length) :
    Inv g ⟨st2.visited, st.recursing, st2.topo⟩ := by
  obtain ⟨i1, _, _, _, _⟩ := hInv
  obtain ⟨j1, j2, j3, j4, j5⟩ := hInv2
  have hsubrec : st.recursing ⊆ st2.recursing := by
    rw [hrec2]; exact Finset.subset_insert _ _
  refine ⟨fun x hx => j1 (hsubrec hx), j2, ?_, ?_, ?_⟩
  · intro x hx
    obtain ⟨hxv, hxr, hxa⟩ := j3 x hx
    exact ⟨hxv, fun hh => hxr (hsubrec hh), hxa⟩
  · intro x hxv hxr hxa
    by_cases hxveq : x = v
    · subst hxveq
      exact absurd hxa ha
    · refine j4 x hxv ?_ hxa
      rw [hrec2]
      intro hh
      rcases Finset.mem_insert.mp hh with h | h
      · exact hxveq h
      · exact hxr h
  · intro c hc p hedge
    obtain ⟨hpv, hpr, hpi⟩ := j5 c hc p hedge
    exact ⟨hpv, fun hh => hpr (hsubrec hh), hpi⟩

theorem dfsDeps_main (g : FuncGraph) (f : Nat → DfsSt → Except GErr DfsSt)
    (hf : ∀ v st st', Inv g st → v ∉ st.visited → f v st = .ok st' →
      Inv g st' ∧ DfsPost st st' ∧ v ∈ st'.visited) :
    ∀ deps st st', Inv g st → dfsDeps f deps st = .ok st' →
      Inv g st' ∧ DfsPost st st' ∧
      ∀ kwd p idx, (kwd, Option.some (p, idx)) ∈ deps →
        p ∈ st'.visited ∧ p ∉ st'.recursing := by
  intro deps
  induction deps with
  | nil =>
    intro st st' hInv h
    simp only [dfsDeps] at h
    injection h with h
    subst h
    refine ⟨hInv, ⟨Finset.Subset.refl _, rfl, ⟨[], by simp⟩⟩, ?_⟩
    intro kwd p idx hmem
    exact absurd hmem (List.not_mem_nil _)
  | cons hd rest ih =>
    obtain ⟨kwd0, into⟩ := hd
    cases into with
    | none =>
      intro st st' hInv h
      simp only [dfsDeps] at h
      obtain ⟨hInv', hpost, hrest⟩ := ih st st' hInv h
      refine ⟨hInv', hpost, ?_⟩
      intro kwd p idx hmem
      rcases List.mem_cons.mp hmem with he | he
      · exact absurd (congrArg Prod.snd he) (by simp)
      · exact hrest kwd p idx he
    | some dst_pair =>
      obtain ⟨dst, oidx⟩ := dst_pair
      intro st st' hInv h
      simp only [dfsDeps] at h
      by_cases h1 : dst ∈ st.recursing
      · rw [if_pos h1] at h
        exact Except.noConfusion h
      · rw [if_neg h1] at h
        by_cases h2 : dst ∈ st.visited
        · rw [if_pos h2] at h
          obtain ⟨hInv', hpost, hrest⟩ := ih st st' hInv h
          refine ⟨hInv', hpost, ?_⟩
          intro kwd p idx hmem
          rcases List.mem_cons.mp hmem with he | he
          · have hpd : p = dst := by
              have := congrArg Prod.snd he
              simp only at this
              injection this with h3
              exact (Prod.mk.injEq _ _ _ _).mp h3 |>.1
            subst hpd
            exact ⟨hpost.1 h2, hpost.2.1 ▸ h1⟩
          · exact hrest kwd p idx he
        · rw [if_neg h2] at h
          cases hf0 : f dst st with
          | error e =>
            rw [hf0] at h
            exact Except.noConfusion h
          | ok st2 =>
            rw [hf0] at h
            obtain ⟨hInv2, hpost2, hdst⟩ := hf dst st st2 hInv h2 hf0
            obtain ⟨hInv', hpost, hrest⟩ := ih st2 st' hInv2 h
            obtain ⟨t2, ht2⟩ := hpost2.2.2
            obtain ⟨t3, ht3⟩ := hpost.2.2
            refine ⟨hInv', ⟨hpost2.1.trans hpost.1, hpost.2.1.trans hpost2.2.1,
              ⟨t2 ++ t3, by rw [ht3, ht2, List.append_assoc]⟩⟩, ?_⟩
            intro kwd p idx hmem
            rcases List.mem_cons.mp hmem with he | he
            · have hpd : p = dst := by
                have := congrArg Prod.snd he
                simp only at this
                injection this with h3
                exact (Prod.mk.injEq _ _ _ _).mp h3 |>.1
              subst hpd
              refine ⟨hpost.1 hdst, ?_⟩
              rw [hpost.2.1, hpost2.2.1]
              exact h1
            · exact hrest kwd p idx he

theorem dfsVertex_main (g : FuncGraph) :
    ∀ fuel v st st', Inv g st → v ∉ st.visited → dfsVertex g fuel v st = .ok st' →
      Inv g st' ∧ DfsPost st st' ∧ v ∈ st'.visited := by
  intro fuel
  induction fuel with
  | zero =>
    intro v st st' _ _ h
    simp only [dfsVertex] at h
    exact Except.noConfusion h
  | succ fuel ih =>
    intro v st st' hInv hv h
    simp only [dfsVertex] at h
    have hInv1 := Inv_insert g st v hInv hv
    cases hdd : dfsDeps (dfsVertex g fuel) (g.argdeps v)
        ⟨insert v st.visited, insert v st.recursing, st.topo⟩ with
    | error e =>
      rw [hdd] at h
      exact Except.noConfusion h
    | ok st2 =>
      rw [hdd] at h
      dsimp only at h
      obtain ⟨hInv2, hpost2, hdeps⟩ :=
        dfsDeps_main g (dfsVertex g fuel) ih (g.argdeps v) _ st2 hInv1 hdd
      have hvnr : v ∉ st.recursing := fun hr => hv (hInv.1 hr)
      have hrec2 : st2.recursing = insert v st.recursing := hpost2.2.1
      have hvis2 : insert v st.visited ⊆ st2.visited := hpost2.1
      have hRer : st2.recursing.erase v = st.recursing := by
        rw [hrec2]
        exact Finset.erase_insert hvnr
      obtain ⟨t2, ht2⟩ := hpost2.2.2
      by_cases ha : 0 < (g.adjacency v).length
      · rw [if_pos ha] at h
        injection h with h
        subst h
        have := Inv_finish_pos g st st2 v hInv hv hInv2 hvis2 hrec2 hdeps ha
        rw [← hRer] at this
        refine ⟨this, ⟨?_, ?_, ?_⟩, ?_⟩
        · exact fun x hx => hvis2 (Finset.mem_insert_of_mem hx)
        · exact hRer
        · exact ⟨t2 ++ [v], by simp [ht2]⟩
        · exact hvis2 (Finset.mem_insert_self _ _)
      · rw [if_neg ha] at h
        injection h with h
        subst h
        have := Inv_finish_zero g st st2 v hInv hInv2 hrec2 ha
        rw [← hRer] at this
        refine ⟨this, ⟨?_, ?_, ?_⟩, ?_⟩
        · exact fun x hx => hvis2 (Finset.mem_insert_of_mem hx)
        · exact hRer
        · exact ⟨t2, ht2⟩
        · exact hvis2 (Finset.mem_insert_self _ _)

theorem dfsDeps_err (f : Nat → DfsSt → Except GErr DfsSt)
    (hf : ∀ v st e, f v st = .error e → e = .fuelOut ∨ e = .cyclic) :
    ∀ deps st e, dfsDeps f deps st = .error e → e = .fuelOut ∨ e = .cyclic := by
  intro deps
  induction deps with
  | nil =>
    intro st e h
    simp only [dfsDeps] at h
    exact Except.noConfusion h
  | cons hd rest ih =>
    obtain ⟨kwd0, into⟩ := hd
    cases into with
    | none =>
      intro st e h
      simp only [dfsDeps] at h
      exact ih st e h
    | some dst_pair =>
      obtain ⟨dst, oidx⟩ := dst_pair
      intro st e h
      simp only [dfsDeps] at h
      by_cases h1 : dst ∈ st.recursing
      · rw [if_pos h1] at h
        injection h with h
        exact Or.inr h.symm
      · rw [if_neg h1] at h
        by_cases h2 : dst ∈ st.visited
        · rw [if_pos h2] at h
          exact ih st e h
        · rw [if_neg h2] at h
          cases hf0 : f dst st with
          | error e2 =>
            rw [hf0] at h
            dsimp only at h
            injection h with h
            exact h ▸ hf dst st e2 hf0
          | ok st2 =>
            rw [hf0] at h
            dsimp only at h
            exact ih st2 e h

theorem dfsVertex_err (g : FuncGraph) :
    ∀ fuel v st e, dfsVertex g fuel v st = .error e → e = .fuelOut ∨ e = .cyclic := by
  intro fuel
  induction fuel with
  | zero =>
    intro v st e h
    simp only [dfsVertex] at h
    injection h with h
    exact Or.inl h.symm
  | succ fuel ih =>
    intro v st e h
    simp only [dfsVertex] at h
    cases hdd : dfsDeps (dfsVertex g fuel) (g.argdeps v)
        ⟨insert v st.visited, insert v st.recursing, st.topo⟩ with
    | error e2 =>
      rw [hdd] at h
      dsimp only at h
      injection h with h
      exact h ▸ dfsDeps_err (dfsVertex g fuel) ih (g.argdeps v) _ e2 hdd
    | ok st2 =>
      rw [hdd] at h
      dsimp only at h
      by_cases ha : 0 < (g.adjacency v).length
      · rw [if_pos ha] at h
        exact Except.noConfusion h
      · rw [if_neg ha] at h
        exact Except.noConfusion h

theorem dfsDeps_fuel (g : FuncGraph) (U : Finset Nat)
    (f : Nat → DfsSt → Except GErr DfsSt) (fuel : Nat)
    (hfM : ∀ v st st', Inv g st → v ∉ st.visited → f v st = .ok st' →
      Inv g st' ∧ DfsPost st st' ∧ v ∈ st'.visited)
    (hfF : ∀ v st, Inv g st → v ∉ st.visited → v ∈ U → st.visited ⊆ U →
      U.card - st.visited.card ≤ fuel →
      f v st ≠ .error .fuelOut ∧ (∀ st', f v st = .ok st' → st'.visited ⊆ U)) :
    ∀ deps st, Inv g st → st.visited ⊆ U →
      (∀ kwd p idx, (kwd, Option.some (p, idx)) ∈ deps → p ∈ U) →
      U.card - st.visited.card ≤ fuel →
      dfsDeps f deps st ≠ .error .fuelOut ∧
      (∀ st', dfsDeps f deps st = .ok st' → st'.visited ⊆ U) := by
  intro deps
  induction deps with
  | nil =>
    intro st _ hsub _ _
    simp only [dfsDeps]
    refine ⟨fun h => Except.noConfusion h, ?_⟩
    intro st' h
    injection h with h
    exact h ▸ hsub
  | cons hd rest ih =>
    obtain ⟨kwd0, into⟩ := hd
    cases into with
    | none =>
      intro st hInv hsub hdeps hcard
      simp only [dfsDeps]
      exact ih st hInv hsub
        (fun kwd p idx hm => hdeps kwd p idx (List.mem_cons_of_mem _ hm)) hcard
    | some dst_pair =>
      obtain ⟨dst, oidx⟩ := dst_pair
      intro st hInv hsub hdeps hcard
      simp only [dfsDeps]
      by_cases h1 : dst ∈ st.recursing
      · rw [if_pos h1]
        exact ⟨fun h => by injection h with h; exact GErr.noConfusion h, fun st' h => Except.noConfusion h⟩
      · rw [if_neg h1]
        by_cases h2 : dst ∈ st.visited
        · rw [if_pos h2]
          exact ih st hInv hsub
            (fun kwd p idx hm => hdeps kwd p idx (List.mem_cons_of_mem _ hm)) hcard
        · rw [if_neg h2]
          have hdstU : dst ∈ U := hdeps kwd0 dst oidx (List.mem_cons_self _ _)
          obtain ⟨hne, hok⟩ := hfF dst st hInv h2 hdstU hsub hcard
          cases hf0 : f dst st with
          | error e2 =>
            refine ⟨fun h => ?_, fun st' h => Except.noConfusion h⟩
            injection h with h
            exact hne (hf0.trans (congrArg Except.error h))
          | ok st2 =>
            obtain ⟨hInv2, hpost2, _⟩ := hfM dst st st2 hInv h2 hf0
            have hsub2 : st2.visited ⊆ U := hok st2 hf0
            have hcard2 : U.card - st2.visited.card ≤ fuel :=
              le_trans (Nat.sub_le_sub_left (Finset.card_le_card hpost2.1) U.card) hcard
            exact ih st2 hInv2 hsub2
              (fun kwd p idx hm => hdeps kwd p idx (List.mem_cons_of_mem _ hm)) hcard2

theorem dfsVertex_fuel (g : FuncGraph) (U : Finset Nat) (hC : Closed g U) :
    ∀ fuel v st, Inv g st → v ∉ st.visited → v ∈ U → st.visited ⊆ U →
      U.card - st.visited.card ≤ fuel →
      dfsVertex g fuel v st ≠ .error .fuelOut ∧
      (∀ st', dfsVertex g fuel v st = .ok st' → st'.visited ⊆ U) := by
  intro fuel
  induction fuel with
  | zero =>
    intro v st _ hv hvU hsub hcard
    have hss : st.visited ⊂ U := (Finset.ssubset_iff_of_subset hsub).mpr ⟨v, hvU, hv⟩
    have := Finset.card_lt_card hss
    omega
  | succ fuel ih =>
    intro v st hInv hv hvU hsub hcard
    simp only [dfsVertex]
    have hInv1 := Inv_insert g st v hInv hv
    have hsub1 : insert v st.visited ⊆ U := Finset.insert_subset_iff.mpr ⟨hvU, hsub⟩
    have hcard1 : U.card - (insert v st.visited).card ≤ fuel := by
      rw [Finset.card_insert_of_not_mem hv]
      omega
    have hdepsU : ∀ kwd p idx, (kwd, Option.some (p, idx)) ∈ g.argdeps v → p ∈ U :=
      fun kwd p idx hm => hC v hvU kwd p idx hm
    obtain ⟨hne, hok⟩ := dfsDeps_fuel g U (dfsVertex g fuel) fuel
      (fun v' st0 st0' => dfsVertex_main g fuel v' st0 st0') ih (g.argdeps v)
      ⟨insert v st.visited, insert v st.recursing, st.topo⟩ hInv1 hsub1 hdepsU hcard1
    cases hdd : dfsDeps (dfsVertex g fuel) (g.argdeps v)
        ⟨insert v st.visited, insert v st.recursing, st.topo⟩ with
    | error e2 =>
      dsimp only
      refine ⟨fun h => ?_, fun st' h => Except.noConfusion h⟩
      injection h with h
      exact hne (hdd.trans (congrArg Except.error h))
    | ok st2 =>
      have hsub2 : st2.visited ⊆ U := hok st2 hdd
      dsimp only
      by_cases ha : 0 < (g.adjacency v).length
      · rw [if_pos ha]
        refine ⟨fun h => Except.noConfusion h, ?_⟩
        intro st' h
        injection h with h
        exact h ▸ hsub2
      · rw [if_neg ha]
        refine ⟨fun h => Except.noConfusion h, ?_⟩
        intro st' h
        injection h with h
        exact h ▸ hsub2

theorem dfsDeps_nocycle (g : FuncGraph) (hA : Acyclic g)
    (f : Nat → DfsSt → Except GErr DfsSt)
    (hfM : ∀ v st st', Inv g st → v ∉ st.visited → f v st = .ok st' →
      Inv g st' ∧ DfsPost st st' ∧ v ∈ st'.visited)
    (hfC : ∀ v st, Inv g st → v ∉ st.visited →
      (∀ r ∈ st.recursing, Relation.ReflTransGen (depEdge g) r v) →
      f v st ≠ .error .cyclic) :
    ∀ deps v st, Inv g st →
      (∀ r ∈ st.recursing, Relation.ReflTransGen (depEdge g) r v) →
      (∀ kwd p idx, (kwd, Option.some (p, idx)) ∈ deps → depEdge g v p) →
      dfsDeps f deps st ≠ .error .cyclic := by
  intro deps
  induction deps with
  | nil =>
    intro v st _ _ _ h
    simp only [dfsDeps] at h
    exact Except.noConfusion h
  | cons hd rest ih =>
    obtain ⟨kwd0, into⟩ := hd
    cases into with
    | none =>
      intro v st hInv hpath hdeps h
      simp only [dfsDeps] at h
      exact ih v st hInv hpath
        (fun kwd p idx hm => hdeps kwd p idx (List.mem_cons_of_mem _ hm)) h
    | some dst_pair =>
      obtain ⟨dst, oidx⟩ := dst_pair
      intro v st hInv hpath hdeps h
      simp only [dfsDeps] at h
      by_cases h1 : dst ∈ st.recursing
      · have hedge : depEdge g v dst := hdeps kwd0 dst oidx (List.mem_cons_self _ _)
        have hrtg : Relation.ReflTransGen (depEdge g) dst v := hpath dst h1
        exact hA dst (Relation.TransGen.tail' hrtg hedge)
      · rw [if_neg h1] at h
        by_cases h2 : dst ∈ st.visited
        · rw [if_pos h2] at h
          exact ih v st hInv hpath
            (fun kwd p idx hm => hdeps kwd p idx (List.mem_cons_of_mem _ hm)) h
        · rw [if_neg h2] at h
          have hedge : depEdge g v dst := hdeps kwd0 dst oidx (List.mem_cons_self _ _)
          have hpathdst : ∀ r ∈ st.recursing, Relation.ReflTransGen (depEdge g) r dst :=
            fun r hr => Relation.ReflTransGen.tail (hpath r hr) hedge
          cases hf0 : f dst st with
          | error e2 =>
            rw [hf0] at h
            dsimp only at h
            injection h with h
            exact hfC dst st hInv h2 hpathdst (hf0.trans (congrArg Except.error h))
          | ok st2 =>
            rw [hf0] at h
            dsimp only at h
            obtain ⟨hInv2, hpost2, _⟩ := hfM dst st st2 hInv h2 hf0
            refine ih v st2 hInv2 ?_
              (fun kwd p idx hm => hdeps kwd p idx (List.mem_cons_of_mem _ hm)) h
            rw [hpost2.2.1]
            exact hpath

theorem dfsVertex_nocycle (g : FuncGraph) (hA : Acyclic g) :
    ∀ fuel v st, Inv g st → v ∉ st.visited →
      (∀ r ∈ st.recursing, Relation.ReflTransGen (depEdge g) r v) →
      dfsVertex g fuel v st ≠ .error .cyclic := by
  intro fuel
  induction fuel with
  | zero =>
    intro v st _ _ _ h
    simp only [dfsVertex] at h
    injection h with h
    exact GErr.noConfusion h
  | succ fuel ih =>
    intro v st hInv hv hpath h
    simp only [dfsVertex] at h
    have hInv1 := Inv_insert g st v hInv hv
    have hpath1 : ∀ r ∈ (insert v st.recursing : Finset Nat),
        Relation.ReflTransGen (depEdge g) r v := by
      intro r hr
      rcases Finset.mem_insert.mp hr with hr | hr
      · exact hr ▸ Relation.ReflTransGen.refl
      · exact hpath r hr
    have hdeps : ∀ kwd p idx, (kwd, Option.some (p, idx)) ∈ g.argdeps v → depEdge g v p :=
      fun kwd p idx hm => ⟨kwd, idx, hm⟩
    cases hdd : dfsDeps (dfsVertex g fuel) (g.argdeps v)
        ⟨insert v st.visited, insert v st.recursing, st.topo⟩ with
    | error e2 =>
      rw [hdd] at h
      dsimp only at h
      injection h with h
      refine dfsDeps_nocycle g hA (dfsVertex g fuel)
        (fun v' st0 st0' => dfsVertex_main g fuel v' st0 st0') ih (g.argdeps v) v
        ⟨insert v st.visited, insert v st.recursing, st.topo⟩ hInv1 hpath1 hdeps ?_
      exact hdd.trans (congrArg Except.error h)
    | ok st2 =>
      rw [hdd] at h
      dsimp only at h
      by_cases ha : 0 < (g.adjacency v).length
      · rw [if_pos ha] at h
        exact Except.noConfusion h
      · rw [if_neg ha] at h
        exact Except.noConfusion h

theorem Inv_init (g : FuncGraph) : Inv g ⟨∅, ∅, []⟩ := by
  refine ⟨Finset.Subset.refl _, List.nodup_nil, ?_, ?_, ?_⟩
  · intro x hx
    exact absurd hx (List.not_mem_nil _)
  · intro x hx _ _
    exact absurd hx (Finset.not_mem_empty _)
  · intro c hc
    exact absurd hc (List.not_mem_nil _)

theorem topoFold_main (g : FuncGraph) :
    ∀ vl st st', Inv g st → topoFold g vl st = .ok st' →
      Inv g st' ∧ st.visited ⊆ st'.visited ∧ st'.recursing = st.recursing ∧
        ∀ v ∈ vl, v.vid ∈ st'.visited := by
  intro vl
  induction vl with
  | nil =>
    intro st st' hInv h
    simp only [topoFold] at h
    injection h with h
    subst h
    exact ⟨hInv, Finset.Subset.refl _, rfl, fun v hv => absurd hv (List.not_mem_nil _)⟩
  | cons v rest ih =>
    intro st st' hInv h
    simp only [topoFold] at h
    by_cases h1 : v.vid ∈ st.visited
    · rw [if_pos h1] at h
      obtain ⟨hInv', hsub, hrec, hall⟩ := ih st st' hInv h
      refine ⟨hInv', hsub, hrec, ?_⟩
      intro u hu
      rcases List.mem_cons.mp hu with hu | hu
      · exact hu ▸ hsub h1
      · exact hall u hu
    · rw [if_neg h1] at h
      cases hdv : dfsVertex g (g.verts.length + 1) v.vid st with
      | error e =>
        rw [hdv] at h
        exact Except.noConfusion h
      | ok st2 =>
        rw [hdv] at h
        dsimp only at h
        obtain ⟨hInv2, hpost2, hvv⟩ := dfsVertex_main g _ v.vid st st2 hInv h1 hdv
        obtain ⟨hInv', hsub, hrec, hall⟩ := ih st2 st' hInv2 h
        refine ⟨hInv', hpost2.1.trans hsub, hrec.trans hpost2.2.1, ?_⟩
        intro u hu
        rcases List.mem_cons.mp hu with hu | hu
        · exact hu ▸ hsub hvv
        · exact hall u hu

theorem topoFold_err (g : FuncGraph) :
    ∀ vl st e, topoFold g vl st = .error e → e = .fuelOut ∨ e = .cyclic := by
  intro vl
  induction vl with
  | nil =>
    intro st e h
    simp only [topoFold] at h
    exact Except.noConfusion h
  | cons v rest ih =>
    intro st e h
    simp only [topoFold] at h
    by_cases h1 : v.vid ∈ st.visited
    · rw [if_pos h1] at h
      exact ih st e h
    · rw [if_neg h1] at h
      cases hdv : dfsVertex g (g.verts.length + 1) v.vid st with
      | error e2 =>
        rw [hdv] at h
        dsimp only at h
        injection h with h
        exact h ▸ dfsVertex_err g _ v.vid st e2 hdv
      | ok st2 =>
        rw [hdv] at h
        dsimp only at h
        exact ih st2 e h

theorem topoFold_fuel (g : FuncGraph) (U : Finset Nat) (hC : Closed g U)
    (hUcard : U.card ≤ g.verts.length) :
    ∀ vl st, Inv g st → st.visited ⊆ U → (∀ v ∈ vl, v.vid ∈ U) →
      topoFold g vl st ≠ .error .fuelOut ∧
      (∀ st', topoFold g vl st = .ok st' → st'.visited ⊆ U) := by
  intro vl
  induction vl with
  | nil =>
    intro st _ hsub _
    simp only [topoFold]
    refine ⟨fun h => Except.noConfusion h, ?_⟩
    intro st' h
    injection h with h
    exact h ▸ hsub
  | cons v rest ih =>
    intro st hInv hsub hall
    simp only [topoFold]
    by_cases h1 : v.vid ∈ st.visited
    · rw [if_pos h1]
      exact ih st hInv hsub (fun u hu => hall u (List.mem_cons_of_mem _ hu))
    · rw [if_neg h1]
      have hcard : U.card - st.visited.card ≤ g.verts.length + 1 := by omega
      obtain ⟨hne, hok⟩ := dfsVertex_fuel g U hC (g.verts.length + 1) v.vid st hInv h1
        (hall v (List.mem_cons_self _ _)) hsub hcard
      cases hdv : dfsVertex g (g.verts.length + 1) v.vid st with
      | error e2 =>
        dsimp only
        refine ⟨fun h => ?_, fun st' h => Except.noConfusion h⟩
        injection h with h
        exact hne (hdv.trans (congrArg Except.error h))
      | ok st2 =>
        dsimp only
        obtain ⟨hInv2, hpost2, _⟩ := dfsVertex_main g _ v.vid st st2 hInv h1 hdv
        exact ih st2 hInv2 (hok st2 hdv) (fun u hu => hall u (List.mem_cons_of_mem _ hu))

theorem topoFold_nocycle (g : FuncGraph) (hA : Acyclic g) :
    ∀ vl st, Inv g st → st.recursing = ∅ → topoFold g vl st ≠ .error .cyclic := by
  intro vl
  induction vl with
  | nil =>
    intro st _ _ h
    simp only [topoFold] at h
    exact Except.noConfusion h
  | cons v rest ih =>
    intro st hInv hrec h
    simp only [topoFold] at h
    by_cases h1 : v.vid ∈ st.visited
    · rw [if_pos h1] at h
      exact ih st hInv hrec h
    · rw [if_neg h1] at h
      have hpath : ∀ r ∈ st.recursing, Relation.ReflTransGen (depEdge g) r v.vid := by
        intro r hr
        rw [hrec] at hr
        exact absurd hr (Finset.not_mem_empty _)
      cases hdv : dfsVertex g (g.verts.length + 1) v.vid st with
      | error e2 =>
        rw [hdv] at h
        dsimp only at h
        injection h with h
        exact dfsVertex_nocycle g hA _ v.vid st hInv h1 hpath
          (hdv.trans (congrArg Except.error h))
      | ok st2 =>
        rw [hdv] at h
        dsimp only at h
        obtain ⟨hInv2, hpost2, _⟩ := dfsVertex_main g _ v.vid st st2 hInv h1 hdv
        exact ih st2 hInv2 (hpost2.2.1.trans hrec) h

theorem FuncGraph.WF.vid_inj {g : FuncGraph} (hWF : g.WF) {u w : Vertex}
    (hu : u ∈ g.verts) (hw : w ∈ g.verts) (h : u.vid = w.vid) : u = w :=
  List.inj_on_of_nodup_map hWF.1 hu hw h

theorem FuncGraph.WF.closed {g : FuncGraph} (hWF : g.WF) : Closed g (vidSet g) := by
  intro c hc kwd p idx hm
  rcases List.mem_toFinset.mp hc with hc2
  rcases List.mem_map.mp hc2 with ⟨v, hv, hvc⟩
  have h4 := hWF.2.2.2 v hv (kwd, Option.some (p, idx)) (hvc ▸ hm)
  obtain ⟨u, hu, hup, _⟩ := h4
  exact List.mem_toFinset.mpr (List.mem_map.mpr ⟨u, hu, hup⟩)

theorem FuncGraph.WF.producer_arity {g : FuncGraph} (hWF : g.WF) {c p : Nat}
    (hc : c ∈ vidSet g) (hedge : depEdge g c p) :
    ∃ u ∈ g.verts, u.vid = p ∧ 0 < u.arity ∧ 0 < (g.adjacency p).length := by
  obtain ⟨kwd, idx, hm⟩ := hedge
  rcases List.mem_map.mp (List.mem_toFinset.mp hc) with ⟨v, hv, hvc⟩
  have h4 := hWF.2.2.2 v hv (kwd, Option.some (p, idx)) (hvc ▸ hm)
  obtain ⟨u, hu, hup, hidx⟩ := h4
  refine ⟨u, hu, hup, by omega, ?_⟩
  have := hWF.2.1 u hu
  rw [hup] at this
  omega

theorem vidSet_card_le (g : FuncGraph) : (vidSet g).card ≤ g.verts.length := by
  have := List.toFinset_card_le (g.verts.map Vertex.vid)
  simpa using this

/-- Full characterisation of `_get_topo_order` on a well-formed acyclic graph:
it succeeds, and the returned order is duplicate-free, contains exactly the
identities of nonzero-arity vertices, and places every producer before each of
its nonzero-arity consumers. -/
theorem getTopoOrder_spec (g : FuncGraph) (hWF : g.WF) (hA : Acyclic g) :
    ∃ topo, g.getTopoOrder = .ok topo ∧
      topo.Nodup ∧
      (∀ x, x ∈ topo ↔ ∃ v ∈ g.verts, v.vid = x ∧ 0 < v.arity) ∧
      (∀ u w, u ∈ g.verts → w ∈ g.verts → 0 < u.arity → depEdge g u.vid w.vid →
        topo.indexOf w.vid < topo.indexOf u.vid) := by
  have hC := hWF.closed
  have hcard := vidSet_card_le g
  have hinit : (⟨∅, ∅, []⟩ : DfsSt).visited ⊆ vidSet g := Finset.empty_subset _
  have hall : ∀ v ∈ g.verts, v.vid ∈ vidSet g :=
    fun v hv => List.mem_toFinset.mpr (List.mem_map.mpr ⟨v, hv, rfl⟩)
  obtain ⟨hnf, hok⟩ := topoFold_fuel g (vidSet g) hC hcard g.verts ⟨∅, ∅, []⟩
    (Inv_init g) hinit hall
  have hnc := topoFold_nocycle g hA g.verts ⟨∅, ∅, []⟩ (Inv_init g) rfl
  cases hres : topoFold g g.verts (⟨∅, ∅, []⟩ : DfsSt) with
  | error e =>
    rcases topoFold_err g g.verts _ e hres with he | he
    · exact absurd (he ▸ hres) hnf
    · exact absurd (he ▸ hres) hnc
  | ok st' =>
    obtain ⟨hInv', hsub, hrec, hvis⟩ := topoFold_main g g.verts _ st' (Inv_init g) hres
    obtain ⟨i1, i2, i3, i4, i5⟩ := hInv'
    have hsubU : st'.visited ⊆ vidSet g := hok st' hres
    refine ⟨st'.topo, ?_, i2, ?_, ?_⟩
    · simp only [FuncGraph.getTopoOrder, hres]
    · intro x
      constructor
      · intro hx
        obtain ⟨hxv, _, hxa⟩ := i3 x hx
        rcases List.mem_map.mp (List.mem_toFinset.mp (hsubU hxv)) with ⟨v, hv, hvx⟩
        refine ⟨v, hv, hvx, ?_⟩
        have := hWF.2.1 v hv
        rw [hvx] at this
        omega
      · intro ⟨v, hv, hvx, hva⟩
        have hvvis : x ∈ st'.visited := hvx ▸ hvis v hv
        have hvnr : x ∉ st'.recursing := by
          rw [hrec]
          exact Finset.not_mem_empty _
        have hlen : 0 < (g.adjacency x).length := by
          have := hWF.2.1 v hv
          rw [hvx] at this
          omega
        exact i4 x hvvis hvnr hlen
    · intro u w hu hw hua hedge
      have huin : u.vid ∈ st'.topo := by
        have hvvis : u.vid ∈ st'.visited := hvis u hu
        have hvnr : u.vid ∉ st'.recursing := by
          rw [hrec]
          exact Finset.not_mem_empty _
        have hlen : 0 < (g.adjacency u.vid).length := by
          have := hWF.2.1 u hu
          omega
        exact i4 u.vid hvvis hvnr hlen
      obtain ⟨_, _, hpi⟩ := i5 u.vid huin w.vid hedge
      refine hpi ?_
      obtain ⟨u2, hu2, hu2p, _, hlen⟩ := hWF.producer_arity (hall u hu) hedge
      exact hlen

/-- On a well-formed graph with a producer/consumer cycle through its vertex
set, `_get_topo_order` raises the cyclic-graph error, whatever the iteration
order of the vertex collection. -/
theorem getTopoOrder_cyclic (g : FuncGraph) (hWF : g.WF)
    (hcyc : ∃ x ∈ vidSet g, Relation.TransGen (depEdge g) x x) :
    g.getTopoOrder = .error .cyclic := by
  have hC := hWF.closed
  have hcard := vidSet_card_le g
  have hall : ∀ v ∈ g.verts, v.vid ∈ vidSet g :=
    fun v hv => List.mem_toFinset.mpr (List.mem_map.mpr ⟨v, hv, rfl⟩)
  obtain ⟨hnf, _⟩ := topoFold_fuel g (vidSet g) hC hcard g.verts ⟨∅, ∅, []⟩
    (Inv_init g) (Finset.empty_subset _) hall
  obtain ⟨x, hxU, hx⟩ := hcyc
  cases hres : topoFold g g.verts (⟨∅, ∅, []⟩ : DfsSt) with
  | error e =>
    rcases topoFold_err g g.verts _ e hres with he | he
    · exact absurd (he ▸ hres) hnf
    · subst he
      simp only [FuncGraph.getTopoOrder, hres]
  | ok st' =>
    exfalso
    obtain ⟨hInv', _, hrec, hvis⟩ := topoFold_main g g.verts _ st' (Inv_init g) hres
    obtain ⟨i1, i2, i3, i4, i5⟩ := hInv'
    have hreach : ∀ a b, Relation.TransGen (depEdge g) a b → a ∈ vidSet g →
        b ∈ vidSet g := by
      intro a b hab
      induction hab with
      | single h1 =>
        intro ha
        obtain ⟨kwd, idx, hm⟩ := h1
        exact hC a ha kwd _ idx hm
      | tail h1 h2 ih =>
        intro ha
        obtain ⟨kwd, idx, hm⟩ := h2
        exact hC _ (ih ha) kwd _ idx hm
    have hmemtopo : ∀ c p, c ∈ st'.topo → c ∈ vidSet g → depEdge g c p →
        p ∈ st'.topo ∧ st'.topo.indexOf p < st'.topo.indexOf c := by
      intro c p hc hcU hedge
      obtain ⟨hpv, hpr, hpi⟩ := i5 c hc p hedge
      obtain ⟨u2, hu2, hu2p, _, hlen⟩ := hWF.producer_arity hcU hedge
      exact ⟨i4 p hpv hpr hlen, hpi hlen⟩
    have hvisU : ∀ y, y ∈ vidSet g → y ∈ st'.visited := by
      intro y hy
      rcases List.mem_map.mp (List.mem_toFinset.mp hy) with ⟨v, hv, hvy⟩
      exact hvy ▸ hvis v hv
    have hxtopo : x ∈ st'.topo := by
      obtain ⟨c, hcU, hcx⟩ : ∃ c, c ∈ vidSet g ∧ depEdge g c x := by
        cases hx with
        | single h1 => exact ⟨x, hxU, h1⟩
        | tail h1 h2 => exact ⟨_, hreach _ _ h1 hxU, h2⟩
      obtain ⟨u2, hu2, hu2p, _, hlen⟩ := hWF.producer_arity hcU hcx
      refine i4 x (hvisU x hxU) ?_ hlen
      rw [hrec]
      exact Finset.not_mem_empty _
    have hdescent : ∀ a b, Relation.TransGen (depEdge g) a b →
        a ∈ st'.topo → a ∈ vidSet g →
        b ∈ st'.topo ∧ st'.topo.indexOf b < st'.topo.indexOf a := by
      intro a b hab
      induction hab with
      | single h1 =>
        intro ha haU
        exact hmemtopo _ _ ha haU h1
      | tail h1 h2 ih =>
        intro ha haU
        obtain ⟨hb', hib'⟩ := ih ha haU
        have hb'U := hreach _ _ h1 haU
        obtain ⟨hb, hib⟩ := hmemtopo _ _ hb' hb'U h2
        exact ⟨hb, lt_trans hib hib'⟩
    obtain ⟨_, hxx⟩ := hdescent x x hx hxtopo hxU
    exact lt_irrefl _ hxx

/-- A rank function that strictly decreases along the producer relation
certifies acyclicity. -/
theorem acyclic_of_rank (g : FuncGraph) (f : Nat → Nat)
    (h : ∀ c p, depEdge g c p → f p < f c) : Acyclic g := by
  intro x hx
  have hmono : ∀ a b, Relation.TransGen (depEdge g) a b → f b < f a := by
    intro a b hab
    induction hab with
    | single h1 => exact h _ _ h1
    | tail _ h2 ih => exact lt_trans (h _ _ h2) ih
  exact lt_irrefl _ (hmono x x hx)

theorem gC6_acyclic : Acyclic gC6 := by
  refine acyclic_of_rank gC6 (fun n => if n = 2 then 1 else 0) ?_
  intro c p hedge
  obtain ⟨kwd, idx, hm⟩ := hedge
  by_cases hc2 : c = 2
  · subst hc2
    have hrow : gC6.argdeps 2 =
        [("s", Option.none), ("n", Option.some (1, 0))] := rfl
    rw [hrow] at hm
    rcases List.mem_cons.mp hm with he | he
    · exact absurd (congrArg Prod.snd he) (by simp)
    · rcases List.mem_cons.mp he with he2 | he2
      · have hp : p = 1 := by
          have := congrArg Prod.snd he2
          simp only at this
          injection this with h3
          exact (Prod.mk.injEq _ _ _ _).mp h3 |>.1
        subst hp
        simp
      · exact absurd he2 (List.not_mem_nil _)
  · by_cases hc1 : c = 1
    · subst hc1
      have hrow : gC6.argdeps 1 = [("x", Option.none), ("y", Option.none)] := rfl
      rw [hrow] at hm
      rcases List.mem_cons.mp hm with he | he
      · exact absurd (congrArg Prod.snd he) (by simp)
      · rcases List.mem_cons.mp he with he2 | he2
        · exact absurd (congrArg Prod.snd he2) (by simp)
        · exact absurd he2 (List.not_mem_nil _)
    · have hrow : gC6.argdeps c = [] := by
        simp only [gC6, FuncGraph.feed, FuncGraph.add, FuncGraph.empty,
          vertexA, vertexB, mkFuncVertexSingle]
        simp [hc1, hc2]
      rw [hrow] at hm
      exact absurd hm (List.not_mem_nil _)

/-- C1.  For every well-formed graph whose producer/consumer relation is
acyclic and that has at least one open non-sink output slot, `_get_topo_order`
succeeds, returning a duplicate-free order that contains exactly the vertices
of nonzero arity — every producer before each of its nonzero-arity consumers —
and from which the zero-arity (sink) vertices are excluded. -/
theorem claim_C1_topo_validation (g : FuncGraph) (hWF : g.WF) (hA : Acyclic g)
    (_hout : ∃ v ∈ g.verts, v.kind ≠ VKind.sink ∧ Option.none ∈ g.adjacency v.vid) :
    ∃ topo, g.getTopoOrder = .ok topo ∧
      topo.Nodup ∧
      (∀ x, x ∈ topo ↔ ∃ v ∈ g.verts, v.vid = x ∧ 0 < v.arity) ∧
      (∀ u w, u ∈ g.verts → w ∈ g.verts → 0 < u.arity → depEdge g u.vid w.vid →
        topo.indexOf w.vid < topo.indexOf u.vid) ∧
      (∀ v ∈ g.verts, v.arity = 0 → v.vid ∉ topo) := by
  obtain ⟨topo, h1, h2, h3, h4⟩ := getTopoOrder_spec g hWF hA
  refine ⟨topo, h1, h2, h3, h4, ?_⟩
  intro v hv hva hvt
  obtain ⟨u, hu, huv, hua⟩ := (h3 v.vid).mp hvt
  have := hWF.vid_inj hu hv huv
  subst this
  omega

theorem claim_C1_witness :
    ∃ topo, gC6.getTopoOrder = .ok topo ∧
      topo.Nodup ∧
      (∀ x, x ∈ topo ↔ ∃ v ∈ gC6.verts, v.vid = x ∧ 0 < v.arity) ∧
      (∀ u w, u ∈ gC6.verts → w ∈ gC6.verts → 0 < u.arity →
        depEdge gC6 u.vid w.vid → topo.indexOf w.vid < topo.indexOf u.vid) ∧
      (∀ v ∈ gC6.verts, v.arity = 0 → v.vid ∉ topo) :=
  claim_C1_topo_validation gC6
    (⟨by decide, by decide, by decide, by decide⟩ : gC6.WF) gC6_acyclic (by decide)

/-- The identity function on ints, used to build a two-vertex cycle. -/
def int_id : (String → Option PyVal) → Option PyVal := fun kw => kw "x"

def vertexP : Vertex := mkFuncVertexSingle 1 "int_id" [("x", PyType.int)] PyType.int int_id

def vertexQ : Vertex := mkFuncVertexSingle 2 "int_id" [("x", PyType.int)] PyType.int int_id

/-- A graph in which two nonzero-arity vertices feed each other, closing a
producer/consumer cycle. -/
def gCyc : FuncGraph :=
  (((FuncGraph.empty.add vertexP).add vertexQ).feed 1 0 2 "x").feed 2 0 1 "x"

/-- C2.  On a well-formed graph containing a producer/consumer cycle through
its vertex set, `_get_topo_order` raises the cyclic-graph error, and it does so
for every iteration order of the vertex collection (the Python vertex set is
unordered; `verts` is the iteration order, and the statement quantifies over
all permutations of it). -/
theorem claim_C2_cycle_error (g : FuncGraph) (vl : List Vertex) (hWF : g.WF)
    (hperm : vl.Perm g.verts)
    (hcyc : ∃ x ∈ vidSet g, Relation.TransGen (depEdge g) x x) :
    ({ g with verts := vl } : FuncGraph).getTopoOrder = .error .cyclic := by
  have hWF' : ({ g with verts := vl } : FuncGraph).WF := by
    refine ⟨?_, ?_, ?_, ?_⟩
    · exact (List.Perm.nodup_iff (hperm.map Vertex.vid)).mpr hWF.1
    · intro v hv
      exact hWF.2.1 v (hperm.mem_iff.mp hv)
    · intro v hv
      exact hWF.2.2.1 v (hperm.mem_iff.mp hv)
    · intro v hv e he
      have hok := hWF.2.2.2 v (hperm.mem_iff.mp hv) e he
      cases he2 : e.2 with
      | none => trivial
      | some pr =>
        obtain ⟨p, idx⟩ := pr
        rw [he2] at hok
        obtain ⟨u, hu, hup, hua⟩ := hok
        exact ⟨u, hperm.mem_iff.mpr hu, hup, hua⟩
  have hvid : vidSet ({ g with verts := vl } : FuncGraph) = vidSet g :=
    List.toFinset_eq_of_perm _ _ (hperm.map Vertex.vid)
  refine getTopoOrder_cyclic _ hWF' ?_
  rw [hvid]
  exact hcyc

theorem claim_C2_witness : gCyc.getTopoOrder = .error .cyclic := by
  have h12 : depEdge gCyc 1 2 := ⟨"x", 0, by decide⟩
  have h21 : depEdge gCyc 2 1 := ⟨"x", 0, by decide⟩
  exact claim_C2_cycle_error gCyc gCyc.verts
    (⟨by decide, by decide, by decide, by decide⟩ : gCyc.WF) (List.Perm.refl _)
    ⟨1, by decide, Relation.TransGen.tail (Relation.TransGen.single h12) h21⟩

/-- C6 counterexample.  In the end-to-end scenario graph the discovered external
argument names are `x0`, `y0`, `s0` — not `x`, `y`, `s` as claimed — and calling
with keywords `s`, `x`, `y` raises `KeyError` instead of returning. -/
theorem claim_C6_counterexample :
    (gC6.getInpType =
      .ok [("x0", PyType.int), ("y0", PyType.int), ("s0", PyType.str)] ∧
      ["x0", "y0", "s0"] ≠ ["x", "y", "s"]) ∧
    gC6.call [] kwC6bad = .error .keyError :=
  ⟨⟨rfl, by decide⟩, rfl⟩

/-- C6 amended.  The discovered external arguments of the scenario graph are
`x0 : int`, `y0 : int`, `s0 : str` (the keyword name with its occurrence
counter appended); vertex A precedes vertex B in the topological order, and
calling with `s0 = "a"`, `x0 = 2`, `y0 = 3` returns the one-element tuple
`("aaaaa",)`. -/
theorem claim_C6_amended :
    gC6.getInpType =
      .ok [("x0", PyType.int), ("y0", PyType.int), ("s0", PyType.str)] ∧
    gC6.getTopoOrder = .ok [vertexA.vid, vertexB.vid] ∧
    gC6.call [] kwC6 = .ok [PyVal.str "aaaaa"] :=
  ⟨rfl, rfl, rfl⟩

/-- C7 counterexample.  A vertex of declared arity 1 whose invocation returns a
two-element result executes silently: the extra element is dropped and the call
returns normally instead of raising. -/
theorem claim_C7_counterexample :
    vertexLong.arity = 1 ∧
    vertexLong.impl (fun _ => Option.none) = Option.some [PyVal.int 1, PyVal.int 2] ∧
    gC7.call [] (fun _ => Option.none) = .ok [PyVal.int 1] :=
  ⟨rfl, rfl, rfl⟩

theorem storeResults_ok_of_lt (vid : Nat) (result : List PyVal) :
    ∀ ixs inter, (∀ i ∈ ixs, i < result.length) →
      ∃ inter2, storeResults vid result ixs inter = .ok inter2 := by
  intro ixs
  induction ixs with
  | nil =>
    intro inter _
    exact ⟨inter, rfl⟩
  | cons i rest ih =>
    intro inter hall
    have hi : i < result.length := hall i (List.mem_cons_self _ _)
    have hget : result.get? i = Option.some (result.get ⟨i, hi⟩) := List.get?_eq_get hi
    simp only [storeResults, hget]
    exact ih _ (fun j hj => hall j (List.mem_cons_of_mem _ hj))

theorem storeResults_err_of_mem (vid : Nat) (result : List PyVal) :
    ∀ ixs inter, (∃ i ∈ ixs, result.length ≤ i) →
      storeResults vid result ixs inter = .error .indexError := by
  intro ixs
  induction ixs with
  | nil =>
    intro inter h
    obtain ⟨i, hi, _⟩ := h
    exact absurd hi (List.not_mem_nil _)
  | cons i rest ih =>
    intro inter h
    by_cases hi : i < result.length
    · have hget : result.get? i = Option.some (result.get ⟨i, hi⟩) := List.get?_eq_get hi
      simp only [storeResults, hget]
      obtain ⟨j, hj, hjlen⟩ := h
      rcases List.mem_cons.mp hj with hj | hj
      · subst hj
        omega
      · exact ih _ ⟨j, hj, hjlen⟩
    · have hget : result.get? i = Option.none := List.get?_eq_none.mpr (by omega)
      simp only [storeResults, hget]

/-- C7 amended.  During execution a vertex result shorter than the declared
arity raises `IndexError` (surfaced to the caller), while a result longer than
the declared arity is silently truncated to the declared arity — there is no
arity-mismatch check, as the `gC7` call shows end to end. -/
theorem claim_C7_amended :
    (∀ vid result n inter, (result : List PyVal).length < n →
      storeResults vid result (List.range n) inter = .error .indexError) ∧
    (∀ vid result n inter, n ≤ (result : List PyVal).length →
      ∃ inter2, storeResults vid result (List.range n) inter = .ok inter2) ∧
    gC7.call [] (fun _ => Option.none) = .ok [PyVal.int 1] := by
  refine ⟨?_, ?_, rfl⟩
  · intro vid result n inter hlen
    exact storeResults_err_of_mem vid result _ inter
      ⟨result.length, List.mem_range.mpr hlen, le_refl _⟩
  · intro vid result n inter hlen
    exact storeResults_ok_of_lt vid result _ inter
      (fun i hi => lt_of_lt_of_le (List.mem_range.mp hi) hlen)

theorem claim_C7_witness :
    storeResults 0 [PyVal.int 5] (List.range 2) [] = .error .indexError ∧
    ∃ inter2, storeResults 0 [PyVal.int 5, PyVal.int 6] (List.range 1) [] = .ok inter2 :=
  ⟨claim_C7_amended.1 0 [PyVal.int 5] 2 [] (by decide),
   claim_C7_amended.2.1 0 [PyVal.int 5, PyVal.int 6] 1 [] (by decide)⟩

/-- C9 counterexample.  A constant vertex stores the bare type object of its
value in `out_type` — not a tuple — so the claim that every variant's
`out_type` is an ordered tuple whose length is the arity fails on
`ConstVertex(5)` (whose arity is nevertheless 1). -/
theorem claim_C9_counterexample :
    (mkConstVertex 0 (PyVal.int 5)).arity = 1 ∧
    ¬ ∃ ts : List PyType, (mkConstVertex 0 (PyVal.int 5)).outTypeF = TyVal.tup ts := by
  refine ⟨rfl, ?_⟩
  intro ⟨ts, h⟩
  simp only [mkConstVertex] at h
  exact TyVal.noConfusion h

/-- C9 amended.  Function and output vertices carry a tuple `out_type` whose
length equals the arity (1 for output vertices); constant vertices have arity 1
but store the bare type of their value, and sink vertices have arity 0 but
store the bare `NoneType`. -/
theorem claim_C9_amended :
    (∀ vid name inp outT f, (mkFuncVertexSingle vid name inp outT f).outTypeF =
        TyVal.tup [outT] ∧ (mkFuncVertexSingle vid name inp outT f).arity = 1) ∧
    (∀ vid name inp outTs f, (mkFuncVertexMulti vid name inp outTs f).outTypeF =
        TyVal.tup outTs ∧ (mkFuncVertexMulti vid name inp outTs f).arity = outTs.length) ∧
    (∀ vid t, (mkOutVertex vid t).outTypeF = TyVal.tup [t] ∧
        (mkOutVertex vid t).arity = 1) ∧
    (∀ vid value, (mkConstVertex vid value).outTypeF = TyVal.single (typeOf value) ∧
        (mkConstVertex vid value).arity = 1) ∧
    (∀ vid t, (mkSinkVertex vid t).outTypeF = TyVal.single PyType.noneType ∧
        (mkSinkVertex vid t).arity = 0) :=
  ⟨fun _ _ _ _ _ => ⟨rfl, rfl⟩, fun _ _ _ _ _ => ⟨rfl, rfl⟩,
   fun _ _ => ⟨rfl, rfl⟩, fun _ _ => ⟨rfl, rfl⟩, fun _ _ => ⟨rfl, rfl⟩⟩

theorem openOuts_mem (g : FuncGraph) (v : Vertex) :
    v ∈ g.openOuts ↔
      v ∈ g.verts ∧ v.kind ≠ VKind.sink ∧ Option.none ∈ g.adjacency v.vid := by
  simp only [FuncGraph.openOuts, List.mem_filter, Bool.and_eq_true, Bool.not_eq_true',
    beq_eq_false_iff_ne, ne_eq, List.any_eq_true, Option.isNone_iff_eq_none]
  constructor
  · rintro ⟨hv, hk, s, hs, hsn⟩
    exact ⟨hv, hk, hsn ▸ hs⟩
  · rintro ⟨hv, hk, hmem⟩
    exact ⟨hv, hk, Option.none, hmem, rfl⟩

theorem slotsAux_err (vid : Nat) (tv : TyVal) :
    ∀ ixs e, slotsAux vid tv ixs = .error e → e = .typeError ∨ e = .indexError := by
  intro ixs
  induction ixs with
  | nil =>
    intro e h
    simp only [slotsAux] at h
    exact Except.noConfusion h
  | cons j rest ih =>
    intro e h
    simp only [slotsAux] at h
    cases ht : outTypeAt tv j with
    | error e2 =>
      rw [ht] at h
      dsimp only at h
      injection h with h
      subst h
      cases tv with
      | single t =>
        simp only [outTypeAt] at ht
        injection ht with ht
        exact Or.inl ht.symm
      | tup ts =>
        simp only [outTypeAt] at ht
        cases hget : ts.get? j with
        | none =>
          rw [hget] at ht
          injection ht with ht
          exact Or.inr ht.symm
        | some t =>
          rw [hget] at ht
          exact Except.noConfusion ht
    | ok t =>
      rw [ht] at h
      dsimp only at h
      cases hrest : slotsAux vid tv rest with
      | error e2 =>
        rw [hrest] at h
        dsimp only at h
        injection h with h
        exact h ▸ ih e2 hrest
      | ok l =>
        rw [hrest] at h
        dsimp only at h
        exact Except.noConfusion h

theorem discoveredAux_err (g : FuncGraph) :
    ∀ vl e, discoveredAux g vl = .error e → e = .typeError ∨ e = .indexError := by
  intro vl
  induction vl with
  | nil =>
    intro e h
    simp only [discoveredAux] at h
    exact Except.noConfusion h
  | cons v rest ih =>
    intro e h
    simp only [discoveredAux] at h
    cases hs : slotsAux v.vid v.outTypeF (g.getOutIndices v.vid) with
    | error e2 =>
      rw [hs] at h
      dsimp only at h
      injection h with h
      exact h ▸ slotsAux_err v.vid v.outTypeF _ e2 hs
    | ok l =>
      rw [hs] at h
      dsimp only at h
      cases hrest : discoveredAux g rest with
      | error e2 =>
        rw [hrest] at h
        dsimp only at h
        injection h with h
        exact h ▸ ih e2 hrest
      | ok l2 =>
        rw [hrest] at h
        dsimp only at h
        exact Except.noConfusion h

/-- C8.  Output discovery raises the no-output error exactly when no non-sink
vertex of the graph has an open output slot; a sink vertex's open slots never
qualify, since the scan requires the vertex not to be a sink. -/
theorem claim_C8_no_output_error (g : FuncGraph) (ord : Option (List PyType)) :
    g.getOutputs ord = .error .noOutput ↔
      ¬ ∃ v ∈ g.verts, v.kind ≠ VKind.sink ∧ Option.none ∈ g.adjacency v.vid := by
  constructor
  · intro h
    by_cases he : g.openOuts.isEmpty
    · intro ⟨v, hv, hk, hmem⟩
      have : v ∈ g.openOuts := (openOuts_mem g v).mpr ⟨hv, hk, hmem⟩
      rw [List.isEmpty_iff] at he
      rw [he] at this
      exact List.not_mem_nil v this
    · exfalso
      simp only [FuncGraph.getOutputs, if_neg he] at h
      cases hd : discoveredAux g g.openOuts with
      | error e2 =>
        rw [hd] at h
        dsimp only at h
        injection h with h
        rcases discoveredAux_err g _ e2 hd with h2 | h2 <;> subst h2 <;> exact GErr.noConfusion h
      | ok pairs =>
        rw [hd] at h
        dsimp only at h
        rcases hord : (match ord with
          | Option.none => g.outputOrder
          | Option.some o => Option.some o) with _ | o
        · rw [hord] at h
          exact Except.noConfusion h
        · rw [hord] at h
          dsimp only at h
          by_cases hm : (↑(pairs.map Prod.fst) : Multiset PyType) = (↑o : Multiset PyType)
          · rw [if_pos hm] at h
            exact Except.noConfusion h
          · rw [if_neg hm] at h
            exact Except.noConfusion h
  · intro h
    have he : g.openOuts = [] := by
      rcases hne : g.openOuts with _ | ⟨v, rest⟩
      · rfl
      · exfalso
        have hv : v ∈ g.openOuts := by rw [hne]; exact List.mem_cons_self _ _
        obtain ⟨hv1, hv2, hv3⟩ := (openOuts_mem g v).mp hv
        exact h ⟨v, hv1, hv2, hv3⟩
    simp only [FuncGraph.getOutputs, he, List.isEmpty_nil, if_pos]

/-!  ## Output reordering: the greedy reassignment of `_get_outputs`  -/

/-- The not-yet-used discovered slots, in discovery order, starting from
position counter `e` (proof-side view of the `used` index set). -/
def availOf (used : Finset Nat) : Nat → List (PyType × Nat × Nat) → List (PyType × Nat × Nat)
  | _, [] => []
  | e, p :: rest =>
    if e ∉ used then p :: availOf used (e + 1) rest else availOf used (e + 1) rest

/-- Spec-side description of one greedy step: take the first available slot of
the requested type, returning it and the remaining available slots. -/
def takeFirstSlot (typ : PyType) :
    List (PyType × Nat × Nat) → Option ((PyType × Nat × Nat) × List (PyType × Nat × Nat))
  | [] => Option.none
  | p :: rest =>
    if p.1 = typ then Option.some (p, rest)
    else
      match takeFirstSlot typ rest with
      | Option.some (q, l) => Option.some (q, p :: l)
      | Option.none => Option.none

/-- Spec-side description of the whole reordering: for each requested type in
sequence, assign the first not-yet-used discovered slot of that type. -/
def specAssign (avail : List (PyType × Nat × Nat)) : List PyType → List (PyType × Nat × Nat)
  | [] => []
  | typ :: rest =>
    match takeFirstSlot typ avail with
    | Option.some (q, remaining) => q :: specAssign remaining rest
    | Option.none => specAssign avail rest

theorem availOf_empty : ∀ l (e : Nat), availOf ∅ e l = l := by
  intro l
  induction l with
  | nil => intro e; rfl
  | cons p rest ih =>
    intro e
    simp only [availOf, Finset.not_mem_empty, not_false_iff, if_pos]
    rw [ih]

theorem availOf_insert_lt (used : Finset Nat) (e0 : Nat) :
    ∀ l e, e0 < e → availOf (insert e0 used) e l = availOf used e l := by
  intro l
  induction l with
  | nil => intro e _; rfl
  | cons p rest ih =>
    intro e he
    have hne : e ≠ e0 := by omega
    by_cases hu : e ∈ used
    · have h1 : ¬ e ∉ (insert e0 used : Finset Nat) := by
        simp [Finset.mem_insert, hu]
      have h2 : ¬ e ∉ used := by simp [hu]
      simp only [availOf, if_neg h1, if_neg h2]
      exact ih (e + 1) (by omega)
    · have h1 : e ∉ (insert e0 used : Finset Nat) := by
        simp [Finset.mem_insert, hu, hne]
      have h2 : e ∉ used := hu
      simp only [availOf, if_pos h1, if_pos h2]
      rw [ih (e + 1) (by omega)]

theorem pickFirstAux_none (typ : PyType) (used : Finset Nat) :
    ∀ l e, pickFirstAux typ used e l = Option.none →
      ∀ q ∈ availOf used e l, q.1 ≠ typ := by
  intro l
  induction l with
  | nil =>
    intro e _ q hq
    exact absurd hq (List.not_mem_nil _)
  | cons p rest ih =>
    intro e h q hq
    simp only [pickFirstAux] at h
    by_cases hcond : p.1 = typ ∧ e ∉ used
    · rw [if_pos hcond] at h
      exact Option.noConfusion h
    · rw [if_neg hcond] at h
      by_cases hu : e ∈ used
      · have h2 : ¬ e ∉ used := by simp [hu]
        simp only [availOf, if_neg h2] at hq
        exact ih (e + 1) h q hq
      · simp only [availOf, if_pos hu] at hq
        rcases List.mem_cons.mp hq with hq | hq
        · subst hq
          intro ht
          exact hcond ⟨ht, hu⟩
        · exact ih (e + 1) h q hq

theorem takeFirstSlot_none_of (typ : PyType) :
    ∀ l, (∀ q ∈ l, q.1 ≠ typ) → takeFirstSlot typ l = Option.none := by
  intro l
  induction l with
  | nil => intro _; rfl
  | cons p rest ih =>
    intro h
    have hp : p.1 ≠ typ := h p (List.mem_cons_self _ _)
    simp only [takeFirstSlot, if_neg hp]
    rw [ih (fun q hq => h q (List.mem_cons_of_mem _ hq))]

theorem takeFirstSlot_none_mem (typ : PyType) :
    ∀ l, takeFirstSlot typ l = Option.none → ∀ q ∈ l, q.1 ≠ typ := by
  intro l
  induction l with
  | nil =>
    intro _ q hq
    exact absurd hq (List.not_mem_nil _)
  | cons p rest ih =>
    intro h q hq
    simp only [takeFirstSlot] at h
    by_cases hp : p.1 = typ
    · rw [if_pos hp] at h
      exact Option.noConfusion h
    · rw [if_neg hp] at h
      cases ht : takeFirstSlot typ rest with
      | some ql =>
        rw [ht] at h
        exact Option.noConfusion h
      | none =>
        rcases List.mem_cons.mp hq with hq | hq
        · subst hq; exact hp
        · exact ih ht q hq

theorem takeFirstSlot_some (typ : PyType) :
    ∀ l q l', takeFirstSlot typ l = Option.some (q, l') →
      q.1 = typ ∧ l.Perm (q :: l') := by
  intro l
  induction l with
  | nil =>
    intro q l' h
    exact Option.noConfusion h
  | cons p rest ih =>
    intro q l' h
    simp only [takeFirstSlot] at h
    by_cases hp : p.1 = typ
    · rw [if_pos hp] at h
      injection h with h
      rw [Prod.mk.injEq] at h
      obtain ⟨h1, h2⟩ := h
      subst h1
      subst h2
      exact ⟨hp, List.Perm.refl _⟩
    · rw [if_neg hp] at h
      cases ht : takeFirstSlot typ rest with
      | none =>
        rw [ht] at h
        exact Option.noConfusion h
      | some ql =>
        obtain ⟨q2, l2⟩ := ql
        rw [ht] at h
        dsimp only at h
        injection h with h
        rw [Prod.mk.injEq] at h
        obtain ⟨h1, h2⟩ := h
        obtain ⟨hq2, hperm⟩ := ih q2 l2 ht
        rw [← h1, ← h2]
        exact ⟨hq2, (List.Perm.cons p hperm).trans (List.Perm.swap q2 p l2)⟩

theorem pickFirstAux_some (typ : PyType) (used : Finset Nat) :
    ∀ l e e0 q, pickFirstAux typ used e l = Option.some (e0, q) →
      e ≤ e0 ∧ e0 ∉ used ∧ q.1 = typ ∧
      takeFirstSlot typ (availOf used e l) =
        Option.some (q, availOf (insert e0 used) e l) := by
  intro l
  induction l with
  | nil =>
    intro e e0 q h
    exact Option.noConfusion h
  | cons p rest ih =>
    intro e e0 q h
    simp only [pickFirstAux] at h
    by_cases hcond : p.1 = typ ∧ e ∉ used
    · rw [if_pos hcond] at h
      injection h with h
      rw [Prod.mk.injEq] at h
      obtain ⟨h1, h2⟩ := h
      subst h1
      subst h2
      refine ⟨le_refl _, hcond.2, hcond.1, ?_⟩
      have hmem : e ∈ (insert e used : Finset Nat) := Finset.mem_insert_self _ _
      have hnn : ¬ e ∉ (insert e used : Finset Nat) := by simp [hmem]
      simp only [availOf, if_pos hcond.2, if_neg hnn, takeFirstSlot, if_pos hcond.1]
      rw [availOf_insert_lt used e rest (e + 1) (by omega)]
    · rw [if_neg hcond] at h
      obtain ⟨hle, hnu, hqt, hts⟩ := ih (e + 1) e0 q h
      by_cases hu : e ∈ used
      · have h2 : ¬ e ∉ used := by simp [hu]
        have h3 : ¬ e ∉ (insert e0 used : Finset Nat) := by
          simp [Finset.mem_insert, hu]
        refine ⟨by omega, hnu, hqt, ?_⟩
        simp only [availOf, if_neg h2, if_neg h3]
        exact hts
      · have hp : p.1 ≠ typ := fun ht => hcond ⟨ht, hu⟩
        have hne0 : e ≠ e0 := by omega
        have h3 : e ∉ (insert e0 used : Finset Nat) := by
          simp [Finset.mem_insert, hu, hne0]
        refine ⟨by omega, hnu, hqt, ?_⟩
        simp only [availOf, if_pos hu, if_pos h3, takeFirstSlot, if_neg hp, hts]

theorem greedyLoop_eq_specAssign (pairs : List (PyType × Nat × Nat)) :
    ∀ ord used, greedyLoop pairs ord used = specAssign (availOf used 0 pairs) ord := by
  intro ord
  induction ord with
  | nil => intro used; rfl
  | cons typ rest ih =>
    intro used
    simp only [greedyLoop, specAssign]
    cases hp : pickFirst typ pairs used with
    | none =>
      have hnone : takeFirstSlot typ (availOf used 0 pairs) = Option.none :=
        takeFirstSlot_none_of typ _ (pickFirstAux_none typ used pairs 0 hp)
      rw [hnone]
      exact ih used
    | some epair =>
      obtain ⟨e, q⟩ := epair
      obtain ⟨_, _, _, hts⟩ := pickFirstAux_some typ used pairs 0 e q hp
      rw [hts]
      dsimp only
      rw [ih (insert e used)]

theorem specAssign_types (ord : List PyType) :
    ∀ avail : List (PyType × Nat × Nat),
      (↑(avail.map Prod.fst) : Multiset PyType) = ↑ord →
      (specAssign avail ord).map Prod.fst = ord := by
  induction ord with
  | nil =>
    intro avail _
    rfl
  | cons typ rest ih =>
    intro avail hms
    have htyp : typ ∈ avail.map Prod.fst := by
      have h1 : typ ∈ (↑(avail.map Prod.fst) : Multiset PyType) := by
        rw [hms]
        exact Multiset.mem_coe.mpr (List.mem_cons_self _ _)
      exact Multiset.mem_coe.mp h1
    obtain ⟨q, hq, hqt⟩ := List.mem_map.mp htyp
    cases ht : takeFirstSlot typ avail with
    | none =>
      exact absurd hqt (takeFirstSlot_none_mem typ avail ht q hq)
    | some ql =>
      obtain ⟨q2, rem⟩ := ql
      obtain ⟨hq2t, hperm⟩ := takeFirstSlot_some typ avail q2 rem ht
      simp only [specAssign, ht, List.map_cons]
      have hmsrem : (↑(rem.map Prod.fst) : Multiset PyType) = ↑rest := by
        have hcoe : (avail.map Prod.fst).Perm ((q2 :: rem).map Prod.fst) :=
          hperm.map Prod.fst
        have h3 : (typ :: rest : List PyType).Perm (typ :: rem.map Prod.fst) := by
          have h4 : ((typ :: rest : List PyType) : Multiset PyType) =
              (((q2 :: rem).map Prod.fst : List PyType) : Multiset PyType) := by
            rw [← hms]
            exact Multiset.coe_eq_coe.mpr hcoe
          have h5 := Multiset.coe_eq_coe.mp h4
          simpa [hq2t] using h5
        exact Multiset.coe_eq_coe.mpr h3.cons_inv.symm
      rw [hq2t, ih rem hmsrem]

/-- C5.  With a requested `output_order` whose type multiset equals the
discovered one, `_get_outputs` returns the outputs reordered to match the
requested sequence position by position — each requested type receiving the
first not-yet-used discovered slot of that type (`specAssign`) — and with a
non-matching multiset, or no requested ordering, the discovered outputs are
returned unchanged. -/
theorem claim_C5_output_reorder (g : FuncGraph) (pairs : List (PyType × Nat × Nat))
    (hne : g.openOuts ≠ []) (hdisc : discoveredAux g g.openOuts = .ok pairs) :
    (∀ ord, g.outputOrder = Option.some ord →
      (((↑(pairs.map Prod.fst) : Multiset PyType) = ↑ord) →
        (specAssign pairs ord).map Prod.fst = ord ∧
        g.getOutputs Option.none =
          .ok ((specAssign pairs ord).map Prod.fst,
               (specAssign pairs ord).map (fun p => p.2))) ∧
      (((↑(pairs.map Prod.fst) : Multiset PyType) ≠ ↑ord) →
        g.getOutputs Option.none = .ok (pairs.map Prod.fst, pairs.map (fun p => p.2)))) ∧
    (g.outputOrder = Option.none →
      g.getOutputs Option.none = .ok (pairs.map Prod.fst, pairs.map (fun p => p.2))) := by
  have hie : ¬ (g.openOuts.isEmpty = true) := fun h => hne (List.isEmpty_iff.mp h)
  have hgreedy : ∀ ord, greedyLoop pairs ord ∅ = specAssign pairs ord := by
    intro ord
    rw [greedyLoop_eq_specAssign pairs ord ∅, availOf_empty]
  constructor
  · intro ord hord
    constructor
    · intro hms
      refine ⟨specAssign_types ord pairs hms, ?_⟩
      simp only [FuncGraph.getOutputs, if_neg hie, hdisc, hord]
      rw [if_pos hms, hgreedy]
    · intro hms
      simp only [FuncGraph.getOutputs, if_neg hie, hdisc, hord]
      rw [if_neg hms]
  · intro hord
    simp only [FuncGraph.getOutputs, if_neg hie, hdisc, hord]

/-- The scenario graph with a requested output ordering attached. -/
def gC5 : FuncGraph := { gC6 with outputOrder := Option.some [PyType.str] }

theorem claim_C5_witness : gC5.getOutputs Option.none = .ok ([PyType.str], [(2, 0)]) :=
  ((claim_C5_output_reorder gC5 [(PyType.str, 2, 0)]
      (by rw [show gC5.openOuts = [vertexB] from rfl]; exact List.cons_ne_nil _ _)
      rfl).1 [PyType.str] rfl).1 (by decide) |>.2

/-!  ## Positional-argument binding in `__call__`  -/

theorem zip_take (names : List String) :
    ∀ args : List PyVal, names.zip (args.take names.length) = names.zip args := by
  induction names with
  | nil => intro args; rfl
  | cons n ns ih =>
    intro args
    cases args with
    | nil => rfl
    | cons a as =>
      simp only [List.length_cons, List.take_succ_cons, List.zip_cons_cons]
      rw [ih as]

theorem bindPositional_take (names : List String) (args : List PyVal)
    (kw : String → Option PyVal) :
    bindPositional names (args.take names.length) kw = bindPositional names args kw := by
  simp only [bindPositional]
  rw [zip_take]

theorem bindPositional_cons (n : String) (ns : List String) (a : PyVal) (as : List PyVal)
    (kw : String → Option PyVal) :
    bindPositional (n :: ns) (a :: as) kw = bindPositional ns as (kwUpdate kw n a) := rfl

theorem bindPositional_nil_args (names : List String) (kw : String → Option PyVal) :
    bindPositional names [] kw = kw := by
  cases names <;> rfl

theorem bindPositional_not_mem (names : List String) :
    ∀ (args : List PyVal) (kw : String → Option PyVal) (k : String), k ∉ names →
      bindPositional names args kw k = kw k := by
  induction names with
  | nil => intro args kw k _; rfl
  | cons n ns ih =>
    intro args kw k hk
    cases args with
    | nil => rw [bindPositional_nil_args]
    | cons a as =>
      rw [bindPositional_cons]
      have hkn : k ≠ n := fun h => hk (h ▸ List.mem_cons_self _ _)
      have hkns : k ∉ ns := fun h => hk (List.mem_cons_of_mem _ h)
      rw [ih as _ k hkns]
      simp only [kwUpdate, if_neg hkn]

theorem bindPositional_get (names : List String) :
    ∀ (args : List PyVal) (kw : String → Option PyVal) (i : Nat)
      (hi : i < names.length) (ha : i < args.length), names.Nodup →
      bindPositional names args kw (names.get ⟨i, hi⟩) =
        Option.some (args.get ⟨i, ha⟩) := by
  induction names with
  | nil =>
    intro args kw i hi _ _
    exact absurd hi (by simp)
  | cons n ns ih =>
    intro args kw i hi ha hnd
    cases args with
    | nil => exact absurd ha (by simp)
    | cons a as =>
      rw [bindPositional_cons]
      cases i with
      | zero =>
        have hn : n ∉ ns := (List.nodup_cons.mp hnd).1
        rw [show (n :: ns).get ⟨0, hi⟩ = n from rfl]
        rw [bindPositional_not_mem ns as _ n hn]
        simp [kwUpdate]
      | succ j =>
        have hj : j < ns.length := by simpa using hi
        have hja : j < as.length := by simpa using ha
        have := ih as (kwUpdate kw n a) j hj hja (List.nodup_cons.mp hnd).2
        simpa using this

theorem kwUpdate_absorb (kw : String → Option PyVal) (n : String) (w a : PyVal) :
    kwUpdate (kwUpdate kw n w) n a = kwUpdate kw n a := by
  funext k
  simp only [kwUpdate]
  by_cases h : k = n <;> simp [h]

theorem kwUpdate_comm (kw : String → Option PyVal) (n m : String) (w a : PyVal)
    (h : n ≠ m) : kwUpdate (kwUpdate kw n w) m a = kwUpdate (kwUpdate kw m a) n w := by
  funext k
  simp only [kwUpdate]
  by_cases h1 : k = m
  · subst h1
    rw [if_pos rfl, if_neg (fun h2 => h h2.symm), if_pos rfl]
  · rw [if_neg h1]
    by_cases h2 : k = n
    · rw [if_pos h2, if_pos h2]
    · rw [if_neg h2, if_neg h2, if_neg h1]

theorem bindPositional_update_covered (names : List String) :
    ∀ (args : List PyVal) (kw : String → Option PyVal) (n : String) (w : PyVal),
      (∃ j, ∃ hj : j < names.length, j < args.length ∧ names.get ⟨j, hj⟩ = n) →
      bindPositional names args (kwUpdate kw n w) = bindPositional names args kw := by
  induction names with
  | nil =>
    intro args kw n w ⟨j, hj, _⟩
    exact absurd hj (by simp)
  | cons m ns ih =>
    intro args kw n w ⟨j, hj, hja, hget⟩
    cases args with
    | nil => exact absurd hja (by simp)
    | cons a as =>
      rw [bindPositional_cons, bindPositional_cons]
      by_cases hnm : n = m
      · subst hnm
        rw [kwUpdate_absorb]
      · cases j with
        | zero =>
          exact absurd hget.symm hnm
        | succ j2 =>
          have hj2 : j2 < ns.length := by simpa using hj
          have hj2a : j2 < as.length := by simpa using hja
          rw [kwUpdate_comm kw n m w a hnm]
          exact ih as (kwUpdate kw m a) n w ⟨j2, hj2, hj2a, by simpa using hget⟩

/-- C10.  In `__call__`, positional arguments are bound in order to the
discovered external argument names before execution (part 2); a positional
value silently overwrites any keyword value supplied for the same name, so the
call result is insensitive to that keyword entry (part 3); and positional
arguments beyond the number of discovered external arguments are silently
ignored (part 1). -/
theorem claim_C10_positional_binding :
    (∀ (g : FuncGraph) (inpT : List (String × PyType))
        (argMap : List ((Nat × String) × String)) (args : List PyVal)
        (kw0 : String → Option PyVal),
      g.getArguments Option.none = .ok (inpT, argMap) →
      g.call args kw0 = g.call (args.take (inpT.map Prod.fst).length) kw0) ∧
    (∀ (names : List String) (args : List PyVal) (kw : String → Option PyVal)
        (i : Nat) (hi : i < names.length) (ha : i < args.length), names.Nodup →
      bindPositional names args kw (names.get ⟨i, hi⟩) =
        Option.some (args.get ⟨i, ha⟩)) ∧
    (∀ (g : FuncGraph) (inpT : List (String × PyType))
        (argMap : List ((Nat × String) × String)) (args : List PyVal)
        (kw0 : String → Option PyVal) (i : Nat) (w : PyVal)
        (hi : i < (inpT.map Prod.fst).length),
      g.getArguments Option.none = .ok (inpT, argMap) → i < args.length →
      g.call args (kwUpdate kw0 ((inpT.map Prod.fst).get ⟨i, hi⟩) w) =
        g.call args kw0) := by
  refine ⟨?_, ?_, ?_⟩
  · intro g inpT argMap args kw0 h
    simp only [FuncGraph.call, h]
    rw [bindPositional_take]
  · intro names args kw i hi ha hnd
    exact bindPositional_get names args kw i hi ha hnd
  · intro g inpT argMap args kw0 i w hi h ha
    simp only [FuncGraph.call, h]
    rw [bindPositional_update_covered (inpT.map Prod.fst) args kw0
      ((inpT.map Prod.fst).get ⟨i, hi⟩) w ⟨i, hi, ha, rfl⟩]

theorem claim_C10_witness :
    (gC6.call [PyVal.int 2, PyVal.int 3, PyVal.str "a", PyVal.int 99] kwC6 =
      gC6.call
        (([PyVal.int 2, PyVal.int 3, PyVal.str "a", PyVal.int 99]).take
          ([("x0", PyType.int), ("y0", PyType.int), ("s0", PyType.str)].map Prod.fst).length)
        kwC6) ∧
    (bindPositional ["x0", "y0"] [PyVal.int 7, PyVal.int 8] (fun _ => Option.none)
        (["x0", "y0"].get ⟨0, by decide⟩) = Option.some ([PyVal.int 7, PyVal.int 8].get ⟨0, by decide⟩)) ∧
    (gC6.call [PyVal.int 2]
        (kwUpdate kwC6 (([("x0", PyType.int), ("y0", PyType.int), ("s0", PyType.str)].map Prod.fst).get ⟨0, by decide⟩) (PyVal.int 41)) =
      gC6.call [PyVal.int 2] kwC6) :=
  ⟨claim_C10_positional_binding.1 gC6
      [("x0", PyType.int), ("y0", PyType.int), ("s0", PyType.str)]
      [((1, "x"), "x0"), ((1, "y"), "y0"), ((2, "s"), "s0")]
      [PyVal.int 2, PyVal.int 3, PyVal.str "a", PyVal.int 99] kwC6 rfl,
   claim_C10_positional_binding.2.1 ["x0", "y0"] [PyVal.int 7, PyVal.int 8]
      (fun _ => Option.none) 0 (by decide) (by decide) (by decide),
   claim_C10_positional_binding.2.2 gC6
      [("x0", PyType.int), ("y0", PyType.int), ("s0", PyType.str)]
      [((1, "x"), "x0"), ((1, "y"), "y0"), ((2, "s"), "s0")]
      [PyVal.int 2] kwC6 0 (PyVal.int 41) (by decide) rfl (by decide)⟩

/-!  ## The near-budget constant closure of `RandomComposer._compose_func`  -/

/-- A pending request in a depth queue: the registration depth together with
either `(consumer vid, keyword)` or the `(None, None)` final-output sentinel. -/
def QEntry : Type := Nat × Option (Nat × String)

/-- `heapq.heappop` restricted to its observable contract on the states used
here: it removes and returns a minimum-depth entry (the leftmost one; on the
singleton queues below this is exact).  Popping an empty queue, which would
raise `IndexError`, yields `Option.none`. -/
def heapPopMin : List QEntry → Option (QEntry × List QEntry)
  | [] => Option.none
  | e :: rest =>
    match heapPopMin rest with
    | Option.none => Option.some (e, [])
    | Option.some (m, rest2) =>
      if e.1 ≤ m.1 then Option.some (e, rest) else Option.some (m, e :: rest2)

/-- The synthesis state read and written by the near-budget closure block of
`_compose_func`: the frontier multiset, the per-type depth queues, the graph
under construction, the count of satisfied final outputs, and a counter
allocating fresh vertex identities (standing for Python object creation). -/
structure CompSt where
  frontier : Multiset PyType
  queues : PyType → List QEntry
  graph : FuncGraph
  outputsHit : Nat
  depth : Nat
  nextVid : Nat

/-- The `while typ in residues` loop body of the closure block, run `k` times
(`k` is the residue count of `typ`, which the loop decrements to zero): pop the
pending request of that type, create a constant vertex from the literal
generator's value, and feed it to the popped consumer — or to a fresh output
vertex when the popped entry is the final-output sentinel. -/
def closureLoop (gen : PyType → Option PyVal) (typ : PyType) :
    Nat → CompSt → CompSt
  | 0, st => st
  | k + 1, st =>
    match heapPopMin (st.queues typ) with
    | Option.none => st
    | Option.some ((_, dst), restq) =>
      match gen typ with
      | Option.none => st
      | Option.some value =>
        let v := mkConstVertex st.nextVid value
        let g1 := st.graph.add v
        match dst with
        | Option.none =>
          let o := mkOutVertex (st.nextVid + 1) typ
          closureLoop gen typ k
            { st with
              frontier := st.frontier.erase typ,
              queues := fun t => if t = typ then restq else st.queues t,
              graph := (g1.add o).feed v.vid 0 o.vid OUT_KWD,
              outputsHit := st.outputsHit + 1,
              nextVid := st.nextVid + 2 }
        | Option.some (dvid, kwd) =>
          closureLoop gen typ k
            { st with
              frontier := st.frontier.erase typ,
              queues := fun t => if t = typ then restq else st.queues t,
              graph := g1.feed v.vid 0 dvid kwd,
              nextVid := st.nextVid + 1 }

/-- The near-budget closure block of `_compose_func` (the `if depth >= max_depth`
body): `residues = frontier - goal` is computed in full, but the block then
examines only `residues[typ]` for the single stale loop variable `typ` left
over from the preceding input-registration loop, skipping the whole block with
`continue` when that one type has no literal generator. -/
def closureBlock (gen : PyType → Option PyVal) (typ : PyType) (goal : Multiset PyType)
    (st : CompSt) : CompSt :=
  let residues := st.frontier - goal
  if gen typ = Option.none then st
  else closureLoop gen typ (residues.count typ) st

/-- The literal generator table `generators.DTYPE_GENERATORS`, with one fixed
random draw per type: generators exist for `str`, `int` and `float` only. -/
def genStd : PyType → Option PyVal
  | PyType.str => Option.some (PyVal.str "a")
  | PyType.int => Option.some (PyVal.int 3)
  | PyType.float => Option.some (PyVal.float 0)
  | PyType.noneType => Option.none

/-- A reachable closure-time state: the frontier still owes one `int` and one
`str`, each with a pending consumer request, and the goal multiset is empty, so
both types are residues that the spec says must now be closed by constants. -/
def stC4 : CompSt :=
  { frontier := {PyType.int, PyType.str},
    queues := fun t =>
      if t = PyType.int then [(1, Option.some (5, "n"))]
      else if t = PyType.str then [(1, Option.some (6, "s"))]
      else [],
    graph := FuncGraph.empty,
    outputsHit := 0,
    depth := 4,
    nextVid := 10 }

/-!  ## Injectivity of the generated argument names  -/

/-- Value of a decimal digit character. -/
def digitVal (c : Char) : Nat := c.toNat - 48

/-- Decimal value of a big-endian digit string. -/
def valOf (l : List Char) : Nat := l.foldl (fun acc c => acc * 10 + digitVal c) 0

theorem digitVal_digitChar (k : Nat) (h : k < 10) : digitVal (Nat.digitChar k) = k := by
  interval_cases k <;> rfl

theorem valOf_append_digit (l : List Char) (c : Char) :
    valOf (l ++ [c]) = valOf l * 10 + digitVal c := by
  simp [valOf, List.foldl_append]

theorem valOf_natStrAux : ∀ fuel n, n ≤ fuel → valOf (natStrAux fuel n) = n := by
  intro fuel
  induction fuel with
  | zero =>
    intro n h
    interval_cases n
    rfl
  | succ fuel ih =>
    intro n h
    cases n with
    | zero => rfl
    | succ m =>
      simp only [natStrAux]
      have hdiv : (m + 1) / 10 ≤ fuel := by
        have := Nat.div_lt_self (show 0 < m + 1 by omega) (show 1 < 10 by omega)
        omega
      rw [valOf_append_digit, ih ((m + 1) / 10) hdiv,
        digitVal_digitChar _ (Nat.mod_lt _ (by omega))]
      omega

theorem natStr_inj : ∀ m n : Nat, natStr m = natStr n → m = n := by
  intro m n h
  have hd := congrArg String.data h
  by_cases hm : m = 0 <;> by_cases hn : n = 0
  · omega
  · exfalso
    simp only [natStr, if_pos hm, if_neg hn] at hd
    have h1 := congrArg valOf hd
    rw [valOf_natStrAux n n (le_refl _)] at h1
    have h2 : (0 : Nat) = n := h1
    omega
  · exfalso
    simp only [natStr, if_neg hm, if_pos hn] at hd
    have h1 := congrArg valOf hd
    rw [valOf_natStrAux m m (le_refl _)] at h1
    have h2 : m = (0 : Nat) := h1
    omega
  · simp only [natStr, if_neg hm, if_neg hn] at hd
    have h1 := congrArg valOf hd
    rw [valOf_natStrAux m m (le_refl _), valOf_natStrAux n n (le_refl _)] at h1
    exact h1

theorem string_append_cancel_left (k a b : String) (h : k ++ a = k ++ b) : a = b := by
  have hd := congrArg String.data h
  rw [String.data_append, String.data_append] at hd
  have h2 := List.append_cancel_left hd
  cases a
  cases b
  exact congrArg String.mk h2

/-- Injectivity of the argument-name generation for a fixed keyword. -/
theorem nameOf_inj_counter (k : String) (m n : Nat) (h : k ++ natStr m = k ++ natStr n) :
    m = n :=
  natStr_inj m n (string_append_cancel_left k _ _ h)

/-- C4 (code bug).  At `stC4` both `int` and `str` are residual frontier types
with literal generators, but the closure block — keyed on the stale `typ = int`
— closes only the `int` residue: the `str` request survives in both the
frontier and its queue, although `DTYPE_GENERATORS` covers `str`. -/
theorem claim_C4_stale_typ :
    ((stC4.frontier - 0).count PyType.str = 1 ∧ genStd PyType.str ≠ Option.none) ∧
    (closureBlock genStd PyType.int 0 stC4).frontier = {PyType.str} ∧
    (closureBlock genStd PyType.int 0 stC4).queues PyType.str =
      [(1, Option.some (6, "s"))] := by
  refine ⟨⟨by decide, by decide⟩, ?_, ?_⟩ <;> rfl

/-!  ## The full synthesis loop of `RandomComposer._compose_func`  -/

/-- A library entry as the composer sees it: the function's name, its extracted
ordered input and output type signature, and the wrapped callable. -/
structure FuncSpec where
  name : String
  inp : List (String × PyType)
  out : List PyType
  impl : (String → Option PyVal) → Option (List PyVal)

/-- The `FuncVertex` instantiated from a sampled library entry. -/
def specVertex (vid : Nat) (s : FuncSpec) : Vertex :=
  mkFuncVertexMulti vid s.name s.inp s.out s.impl

/-- `heapq.heappush`: the queue is kept as a bag and `heapPopMin` extracts a
minimum-depth entry. -/
def heapPush (l : List QEntry) (e : QEntry) : List QEntry := l ++ [e]

/-- The `while typ in frontier` loop serving output slot `idx` of the new
vertex: pop the lowest-depth pending request of the type, decrement the
frontier, connect the slot (to the popped consumer, or to a fresh output
vertex when the sentinel is popped), and update the candidate depth.  A
branching draw of `true` models `random.random() > p_branching` (break).  The
counter starts at the frontier count of the type, which bounds the iterations;
`used` accumulates whether any request was served. -/
def feedLoop (vid : Nat) (idx : Nat) (typ : PyType) :
    Nat → List Bool → Nat → Bool → CompSt → CompSt × Nat × Bool × List Bool
  | 0, brs, fnDepth, used, st => (st, fnDepth, used, brs)
  | k + 1, brs, fnDepth, used, st =>
    if typ ∈ st.frontier then
      match heapPopMin (st.queues typ) with
      | Option.none => (st, fnDepth, used, brs)
      | Option.some ((d, dst), restq) =>
        let fnDepth2 := max fnDepth (d + 1)
        let st2 :=
          match dst with
          | Option.none =>
            let o := mkOutVertex st.nextVid typ
            { st with
              frontier := st.frontier.erase typ,
              queues := fun t => if t = typ then restq else st.queues t,
              graph := (st.graph.add o).feed vid idx o.vid OUT_KWD,
              outputsHit := st.outputsHit + 1,
              nextVid := st.nextVid + 1 }
          | Option.some (dvid, kwd) =>
            { st with
              frontier := st.frontier.erase typ,
              queues := fun t => if t = typ then restq else st.queues t,
              graph := st.graph.feed vid idx dvid kwd }
        match brs with
        | [] => (st2, fnDepth2, true, [])
        | b :: brs2 =>
          if b then (st2, fnDepth2, true, brs2)
          else feedLoop vid idx typ k brs2 fnDepth2 true st2
    else (st, fnDepth, used, brs)

/-- The output loop of one iteration (`for idx, typ in enumerate(fn_out_type)`),
attaching a sink vertex to any slot that fed no request. -/
def outSlots (vid : Nat) :
    List (Nat × PyType) → List Bool → Nat → CompSt → CompSt × Nat × List Bool
  | [], brs, fnDepth, st => (st, fnDepth, brs)
  | (idx, typ) :: rest, brs, fnDepth, st =>
    match feedLoop vid idx typ (st.frontier.count typ) brs fnDepth false st with
    | (st1, fd1, used, brs1) =>
      if used then outSlots vid rest brs1 fd1 st1
      else
        let sk := mkSinkVertex st1.nextVid typ
        outSlots vid rest brs1 fd1
          { st1 with
            graph := (st1.graph.add sk).feed vid idx sk.vid SINK_KWD,
            nextVid := st1.nextVid + 1 }

/-- The input-registration loop: push a pending request for every input
keyword of the new vertex and grow the frontier accordingly. -/
def regInputs (vid : Nat) (fnDepth : Nat) : List (String × PyType) → CompSt → CompSt
  | [], st => st
  | (kwd, typ) :: rest, st =>
    regInputs vid fnDepth rest
      { st with
        frontier := typ ::ₘ st.frontier,
        queues := fun t =>
          if t = typ then heapPush (st.queues t) (fnDepth, Option.some (vid, kwd))
          else st.queues t }

/-- The value of the Python loop variable `typ` after an iteration's loops:
the last input type registered, else the last output type, else its value from
the previous iteration. -/
def staleTyp (prev : Option PyType) (s : FuncSpec) : Option PyType :=
  match (s.inp.map Prod.snd).getLast? with
  | Option.some t => Option.some t
  | Option.none =>
    match s.out.getLast? with
    | Option.some t => Option.some t
    | Option.none => prev

/-- One iteration of the synthesis loop of `_compose_func`: instantiate the
sampled candidate, satisfy outputs, register inputs, advance the depth (with
the over-budget abort, modelled as `Option.none`) and, at the depth budget,
run the constant-closure block on the stale loop variable.  The
resemblance-scored softmax sampling only chooses the candidate, so the chosen
`spec` and the branching draws are oracle inputs here. -/
def composeIter (gen : PyType → Option PyVal) (goal : Multiset PyType) (maxDepth : Nat)
    (spec : FuncSpec) (brs : List Bool) (prevTyp : Option PyType) (st : CompSt) :
    Option (CompSt × Option PyType) :=
  let vid := st.nextVid
  let st0 := { st with graph := st.graph.add (specVertex vid spec),
                       nextVid := st.nextVid + 1 }
  match outSlots vid spec.out.enum brs 0 st0 with
  | (st1, fnDepth, _) =>
    let st2 := regInputs vid fnDepth spec.inp st1
    let st3 := { st2 with depth := max st2.depth fnDepth }
    if maxDepth < st3.depth then Option.none
    else
      let tpOpt := staleTyp prevTyp spec
      if maxDepth ≤ st3.depth then
        match tpOpt with
        | Option.some t => Option.some (closureBlock gen t goal st3, tpOpt)
        | Option.none => Option.some (st3, tpOpt)
      else Option.some (st3, tpOpt)

/-- The synthesis loop driver, with an explicit iteration budget (the Python
loop may not terminate; exhausting the budget yields no verdict).  `oracle n`
supplies the sampled candidate and the branching draws of the iteration run at
remaining budget `n`.  On loop exit the graph is tagged with the requested
orderings and returned; the inner `Option.none` is the over-budget abort
(`return None`). -/
def composeRun (gen : PyType → Option PyVal) (maxDepth : Nat) (I O : List PyType)
    (oracle : Nat → FuncSpec × List Bool) :
    Nat → Option PyType → CompSt → Option (Option FuncGraph)
  | 0, _, _ => Option.none
  | n + 1, prevTyp, st =>
    if st.frontier = (↑I : Multiset PyType) ∧ O.length ≤ st.outputsHit then
      Option.some (Option.some
        { st.graph with inputOrder := Option.some I, outputOrder := Option.some O })
    else
      match composeIter gen (↑I) maxDepth (oracle n).1 (oracle n).2 prevTyp st with
      | Option.none => Option.some Option.none
      | Option.some (st2, pt2) => composeRun gen maxDepth I O oracle n pt2 st2

/-- The initial synthesis state of `_compose_func`: the frontier holds the
requested output types and each type's queue holds one depth-0 sentinel per
requested output of that type. -/
def initSt (O : List PyType) : CompSt :=
  { frontier := ↑O,
    queues := fun t => List.replicate (O.count t) ((0, Option.none) : QEntry),
    graph := FuncGraph.empty,
    outputsHit := 0,
    depth := 0,
    nextVid := 0 }

/-- A full `_compose_func` attempt under an oracle for the random draws.
`sample` repeats such attempts until one returns a graph, so every graph that
`sample` returns is the `Option.some (Option.some _)` value of some attempt. -/
def composeFunc (gen : PyType → Option PyVal) (maxDepth : Nat) (I O : List PyType)
    (oracle : Nat → FuncSpec × List Bool) (budget : Nat) : Option (Option FuncGraph) :=
  composeRun gen maxDepth I O oracle budget Option.none (initSt O)

/-!  ## Bookkeeping views of the synthesis state  -/

instance : Fintype PyType where
  elems := ⟨[PyType.int, PyType.str, PyType.float, PyType.noneType], by decide⟩
  complete := by intro x; cases x <;> decide

/-- The consumer entries of a queue, as a multiset of `(vid, keyword)` pairs. -/
def realMs (q : List QEntry) : Multiset (Nat × String) :=
  ↑(q.filterMap (fun e => e.2))

/-- The number of final-output sentinels in a queue. -/
def sentCount (q : List QEntry) : Nat :=
  (q.filter (fun e => e.2.isNone)).length

/-- The unbound input keywords of type `t` across the graph, as a multiset of
`(vid, keyword)` pairs; `excl` masks out one vertex identity (the vertex whose
inputs are not yet registered, mid-iteration). -/
def unboundMsx (g : FuncGraph) (excl : Option Nat) (t : PyType) : Multiset (Nat × String) :=
  ↑((g.verts.filter (fun v => !(Option.some v.vid == excl))).flatMap (fun v =>
    v.inpType.filterMap (fun p =>
      if p.2 = t ∧ dictFind (g.argdeps v.vid) p.1 = Option.some Option.none
      then Option.some (v.vid, p.1) else Option.none)))

/-- The unbound input keywords of type `t` across the whole graph. -/
def unboundMs (g : FuncGraph) (t : PyType) : Multiset (Nat × String) :=
  unboundMsx g Option.none t

/-- The number of output-marker vertices of result type `t`. -/
def countOutV (g : FuncGraph) (t : PyType) : Nat :=
  (g.verts.filter (fun v =>
    v.kind == VKind.out && decide (v.outTypeF = TyVal.tup [t]))).length

/-- Total sentinels across all queues. -/
def sentTotal (st : CompSt) : Nat :=
  Finset.univ.sum (fun t => sentCount (st.queues t))

theorem heapPopMin_perm :
    ∀ (l l' : List QEntry) (e : QEntry), heapPopMin l = Option.some (e, l') →
      l.Perm (e :: l') := by
  intro l
  induction l with
  | nil =>
    intro l' e h
    exact Option.noConfusion h
  | cons a rest ih =>
    intro l' e h
    simp only [heapPopMin] at h
    cases hr : heapPopMin rest with
    | none =>
      rw [hr] at h
      dsimp only at h
      injection h with h
      rw [Prod.mk.injEq] at h
      obtain ⟨h1, h2⟩ := h
      subst h1
      subst h2
      cases rest with
      | nil => exact List.Perm.refl _
      | cons b rest2 =>
        exfalso
        simp only [heapPopMin] at hr
        cases hr2 : heapPopMin rest2 with
        | none =>
          rw [hr2] at hr
          exact Option.noConfusion hr
        | some pr =>
          rw [hr2] at hr
          dsimp only at hr
          by_cases hle : b.1 ≤ pr.1.1
          · rw [if_pos hle] at hr
            exact Option.noConfusion hr
          · rw [if_neg hle] at hr
            exact Option.noConfusion hr
    | some pr =>
      obtain ⟨m, rest2⟩ := pr
      rw [hr] at h
      dsimp only at h
      by_cases hle : a.1 ≤ m.1
      · rw [if_pos hle] at h
        injection h with h
        rw [Prod.mk.injEq] at h
        obtain ⟨h1, h2⟩ := h
        subst h1
        subst h2
        exact List.Perm.refl _
      · rw [if_neg hle] at h
        injection h with h
        rw [Prod.mk.injEq] at h
        obtain ⟨h1, h2⟩ := h
        subst h1
        subst h2
        have hperm := ih rest2 m hr
        exact ((hperm.cons a).trans (List.Perm.swap m a rest2)).symm.symm

theorem heapPopMin_some (l : List QEntry) (h : l ≠ []) :
    ∃ e l', heapPopMin l = Option.some (e, l') := by
  cases l with
  | nil => exact absurd rfl h
  | cons a rest =>
    simp only [heapPopMin]
    cases hr : heapPopMin rest with
    | none => exact ⟨a, [], rfl⟩
    | some pr =>
      obtain ⟨m, rest2⟩ := pr
      by_cases hle : a.1 ≤ m.1
      · exact ⟨a, rest, by dsimp only; rw [if_pos hle]⟩
      · exact ⟨m, a :: rest2, by dsimp only; rw [if_neg hle]⟩

/-!  ## Effect lemmas for the graph-construction operations  -/

theorem add_verts (g : FuncGraph) (v : Vertex) : (g.add v).verts = g.verts ++ [v] := rfl

theorem add_adjacency_self (g : FuncGraph) (v : Vertex) :
    (g.add v).adjacency v.vid = List.replicate v.arity Option.none := by
  simp [FuncGraph.add]

theorem add_adjacency_ne (g : FuncGraph) (v : Vertex) (i : Nat) (h : i ≠ v.vid) :
    (g.add v).adjacency i = g.adjacency i := by
  simp [FuncGraph.add, h]

theorem add_argdeps_self (g : FuncGraph) (v : Vertex) :
    (g.add v).argdeps v.vid = v.inpType.map (fun p => (p.1, Option.none)) := by
  simp [FuncGraph.add]

theorem add_argdeps_ne (g : FuncGraph) (v : Vertex) (i : Nat) (h : i ≠ v.vid) :
    (g.add v).argdeps i = g.argdeps i := by
  simp [FuncGraph.add, h]

theorem feed_verts (g : FuncGraph) (src idx dst : Nat) (kwd : String) :
    (g.feed src idx dst kwd).verts = g.verts := rfl

theorem feed_adjacency_src (g : FuncGraph) (src idx dst : Nat) (kwd : String) :
    (g.feed src idx dst kwd).adjacency src =
      (g.adjacency src).set idx
        (Option.some ((((g.adjacency src).get? idx).join.getD []) ++ [(dst, kwd)])) := by
  simp [FuncGraph.feed]

theorem feed_adjacency_ne (g : FuncGraph) (src idx dst : Nat) (kwd : String) (i : Nat)
    (h : i ≠ src) : (g.feed src idx dst kwd).adjacency i = g.adjacency i := by
  simp [FuncGraph.feed, h]

theorem feed_argdeps_dst (g : FuncGraph) (src idx dst : Nat) (kwd : String) :
    (g.feed src idx dst kwd).argdeps dst =
      (g.argdeps dst).map (fun p => if p.1 = kwd then (p.1, Option.some (src, idx)) else p) := by
  simp [FuncGraph.feed]

theorem feed_argdeps_ne (g : FuncGraph) (src idx dst : Nat) (kwd : String) (i : Nat)
    (h : i ≠ dst) : (g.feed src idx dst kwd).argdeps i = g.argdeps i := by
  simp [FuncGraph.feed, h]

theorem feed_inputOrder (g : FuncGraph) (src idx dst : Nat) (kwd : String) :
    (g.feed src idx dst kwd).inputOrder = g.inputOrder := rfl

theorem dictFind_nil {α β : Type} [DecidableEq α] (k : α) :
    dictFind ([] : List (α × β)) k = Option.none := rfl

theorem dictFind_cons {α β : Type} [DecidableEq α] (p : α × β) (l : List (α × β)) (k : α) :
    dictFind (p :: l) k = if p.1 = k then Option.some p.2 else dictFind l k := by
  simp only [dictFind, List.find?]
  by_cases h : p.1 = k
  · simp [h]
  · simp [h]

theorem dictFind_feedrow (l : List (String × Option (Nat × Nat))) (kwd : String)
    (x : Nat × Nat) :
    ∀ k, dictFind (l.map (fun p => if p.1 = kwd then (p.1, Option.some x) else p)) k =
      if k = kwd then (dictFind l k).map (fun _ => Option.some x) else dictFind l k := by
  induction l with
  | nil =>
    intro k
    by_cases h : k = kwd <;> simp [dictFind_nil, h]
  | cons p rest ih =>
    intro k
    simp only [List.map_cons]
    by_cases hp : p.1 = kwd
    · rw [if_pos hp, dictFind_cons, dictFind_cons]
      by_cases hk : p.1 = k
      · have : k = kwd := by rw [← hk, hp]
        rw [if_pos hk, if_pos hk, if_pos this]
        rfl
      · rw [if_neg hk, if_neg hk, ih k]
    · rw [if_neg hp, dictFind_cons, dictFind_cons]
      by_cases hk : p.1 = k
      · have hne : ¬ k = kwd := by rw [← hk]; exact hp
        rw [if_pos hk, if_pos hk, if_neg hne]
      · rw [if_neg hk, if_neg hk, ih k]

theorem dictFind_constRow_mem (l : List (String × PyType)) (k : String)
    (h : k ∈ l.map Prod.fst) :
    dictFind (l.map (fun p => (p.1, (Option.none : Option (Nat × Nat))))) k =
      Option.some Option.none := by
  induction l with
  | nil => exact absurd h (List.not_mem_nil _)
  | cons p rest ih =>
    simp only [List.map_cons]
    rw [dictFind_cons]
    by_cases hk : p.1 = k
    · rw [if_pos hk]
    · rw [if_neg hk]
      refine ih ?_
      rw [List.map_cons] at h
      rcases List.mem_cons.mp h with h2 | h2
      · exact absurd h2.symm hk
      · exact h2

theorem dictFind_constRow_not_mem (l : List (String × PyType)) (k : String)
    (h : k ∉ l.map Prod.fst) :
    dictFind (l.map (fun p => (p.1, (Option.none : Option (Nat × Nat))))) k =
      Option.none := by
  induction l with
  | nil => rfl
  | cons p rest ih =>
    simp only [List.map_cons]
    rw [dictFind_cons]
    have hk : ¬ p.1 = k := fun he => h (by simp [← he])
    rw [if_neg hk]
    exact ih (fun hm => h (by simp; right; simpa using hm))

theorem realMs_perm (q q' : List QEntry) (h : q.Perm q') : realMs q = realMs q' :=
  Multiset.coe_eq_coe.mpr (h.filterMap _)

theorem sentCount_perm (q q' : List QEntry) (h : q.Perm q') : sentCount q = sentCount q' :=
  (h.filter _).length_eq

theorem realMs_cons_real (d : Nat) (dvid : Nat) (kwd : String) (q : List QEntry) :
    realMs (((d, Option.some (dvid, kwd)) : QEntry) :: q) = (dvid, kwd) ::ₘ realMs q := by
  simp [realMs, List.filterMap_cons]

theorem realMs_cons_sent (d : Nat) (q : List QEntry) :
    realMs (((d, Option.none) : QEntry) :: q) = realMs q := by
  simp [realMs, List.filterMap_cons]

theorem sentCount_cons_real (d : Nat) (dvid : Nat) (kwd : String) (q : List QEntry) :
    sentCount (((d, Option.some (dvid, kwd)) : QEntry) :: q) = sentCount q := by
  simp [sentCount, List.filter_cons]

theorem sentCount_cons_sent (d : Nat) (q : List QEntry) :
    sentCount (((d, Option.none) : QEntry) :: q) = sentCount q + 1 := by
  simp [sentCount, List.filter_cons]

theorem realMs_append (q q' : List QEntry) : realMs (q ++ q') = realMs q + realMs q' := by
  simp [realMs, List.filterMap_append]

theorem sentCount_append (q q' : List QEntry) :
    sentCount (q ++ q') = sentCount q + sentCount q' := by
  simp [sentCount, List.filter_append]

theorem countOutV_feed (g : FuncGraph) (src idx dst : Nat) (kwd : String) (t : PyType) :
    countOutV (g.feed src idx dst kwd) t = countOutV g t := rfl

theorem countOutV_add (g : FuncGraph) (v : Vertex) (t : PyType) :
    countOutV (g.add v) t = countOutV g t +
      (if v.kind = VKind.out ∧ v.outTypeF = TyVal.tup [t] then 1 else 0) := by
  simp only [countOutV, add_verts, List.filter_append, List.length_append]
  congr 1
  by_cases h : v.kind = VKind.out ∧ v.outTypeF = TyVal.tup [t]
  · rw [if_pos h]
    simp [List.filter_cons, h.1, h.2]
  · rw [if_neg h]
    rcases Decidable.not_and_iff_or_not.mp h with h2 | h2
    · simp [List.filter_cons, h2]
    · simp only [List.filter_cons]
      have : (v.kind == VKind.out && decide (v.outTypeF = TyVal.tup [t])) = false := by
        simp [h2]
      rw [this]
      rfl

/-- The per-vertex contribution to the unbound-input multiset, as a list. -/
def unbEntry (g : FuncGraph) (t : PyType) (v : Vertex) : List (Nat × String) :=
  v.inpType.filterMap (fun p =>
    if p.2 = t ∧ dictFind (g.argdeps v.vid) p.1 = Option.some Option.none
    then Option.some (v.vid, p.1) else Option.none)

theorem unboundMsx_eq_flat (g : FuncGraph) (excl : Option Nat) (t : PyType) :
    unboundMsx g excl t =
      ↑((g.verts.filter (fun v => !(Option.some v.vid == excl))).flatMap (unbEntry g t)) :=
  rfl

theorem flatMap_congr_mem {α β : Type} (l : List α) (f f' : α → List β)
    (h : ∀ a ∈ l, f a = f' a) : l.flatMap f = l.flatMap f' := by
  induction l with
  | nil => rfl
  | cons a rest ih =>
    simp only [List.flatMap_cons]
    rw [h a (List.mem_cons_self _ _), ih (fun x hx => h x (List.mem_cons_of_mem _ hx))]

/-- Adding a fresh vertex leaves the masked unbound multiset of the rest of the
graph intact and contributes its own (entirely unbound) inputs when it is not
the masked vertex. -/
theorem unbound_add (g : FuncGraph) (v : Vertex) (excl : Option Nat) (t : PyType)
    (hfresh : ∀ u ∈ g.verts, u.vid ≠ v.vid) :
    unboundMsx (g.add v) excl t =
      unboundMsx g excl t +
        (if (!(Option.some v.vid == excl)) = true then
          ↑(v.inpType.filterMap (fun p =>
            if p.2 = t then Option.some (v.vid, p.1) else Option.none))
        else 0) := by
  simp only [unboundMsx, add_verts, List.filter_append]
  have hold : (g.verts.filter (fun u => !(Option.some u.vid == excl))).flatMap (fun u =>
      u.inpType.filterMap (fun p =>
        if p.2 = t ∧ dictFind ((g.add v).argdeps u.vid) p.1 = Option.some Option.none
        then Option.some (u.vid, p.1) else Option.none)) =
      (g.verts.filter (fun u => !(Option.some u.vid == excl))).flatMap (fun u =>
      u.inpType.filterMap (fun p =>
        if p.2 = t ∧ dictFind (g.argdeps u.vid) p.1 = Option.some Option.none
        then Option.some (u.vid, p.1) else Option.none)) := by
    refine flatMap_congr_mem _ _ _ ?_
    intro u hu
    rw [add_argdeps_ne g v u.vid (hfresh u (List.mem_of_mem_filter hu))]
  by_cases hexcl : (!(Option.some v.vid == excl)) = true
  · rw [if_pos hexcl]
    have hone : List.filter (fun u => !(Option.some u.vid == excl)) [v] = [v] := by
      simp [List.filter_cons, hexcl]
    rw [hone, List.flatMap_append, hold]
    have hvrow : v.inpType.filterMap (fun p =>
        if p.2 = t ∧ dictFind ((g.add v).argdeps v.vid) p.1 = Option.some Option.none
        then Option.some (v.vid, p.1) else Option.none) =
        v.inpType.filterMap (fun p =>
          if p.2 = t then Option.some (v.vid, p.1) else Option.none) := by
      refine List.filterMap_congr ?_
      intro p hp
      rw [add_argdeps_self]
      have hkey : p.1 ∈ v.inpType.map Prod.fst := List.mem_map.mpr ⟨p, hp, rfl⟩
      have : dictFind (v.inpType.map (fun q => (q.1, (Option.none : Option (Nat × Nat))))) p.1 =
          Option.some Option.none := dictFind_constRow_mem _ _ hkey
      rw [this]
      by_cases hpt : p.2 = t
      · rw [if_pos ⟨hpt, rfl⟩, if_pos hpt]
      · rw [if_neg (fun hc => hpt hc.1), if_neg hpt]
    simp only [List.flatMap_cons, List.flatMap_nil, List.append_nil]
    rw [hvrow]
    rfl
  · rw [if_neg hexcl]
    have hone : List.filter (fun u => !(Option.some u.vid == excl)) [v] = [] := by
      simp only [List.filter_cons, List.filter_nil]
      rw [Bool.not_eq_true] at hexcl
      rw [hexcl]
      rfl
    rw [hone, List.append_nil, hold]
    simp

theorem key_unique {l : List (String × PyType)} (h : (l.map Prod.fst).Nodup)
    {k : String} {a b : PyType} (ha : (k, a) ∈ l) (hb : (k, b) ∈ l) : a = b := by
  have heq := List.inj_on_of_nodup_map h ha hb rfl
  rw [Prod.mk.injEq] at heq
  exact heq.2

theorem unbEntry_feed_ne (g : FuncGraph) (src idx dvid : Nat) (kwd : String) (t : PyType)
    (u : Vertex) (h : u.vid ≠ dvid) :
    unbEntry (g.feed src idx dvid kwd) t u = unbEntry g t u := by
  simp only [unbEntry]
  rw [feed_argdeps_ne g src idx dvid kwd u.vid h]

/-- Feeding an unbound keyword of a vertex removes exactly that entry from the
vertex's own unbound-input contribution, at its declared type, and leaves the
contributions at every other type alone. -/
theorem unbEntry_feed_self (g : FuncGraph) (src idx : Nat) (kwd : String) (typ : PyType)
    (v : Vertex) (hkey : (kwd, typ) ∈ v.inpType)
    (hknodup : (v.inpType.map Prod.fst).Nodup)
    (hunb : dictFind (g.argdeps v.vid) kwd = Option.some Option.none) :
    (∃ A B, unbEntry g typ v = A ++ (v.vid, kwd) :: B ∧
      unbEntry (g.feed src idx v.vid kwd) typ v = A ++ B) ∧
    (∀ t, t ≠ typ → unbEntry (g.feed src idx v.vid kwd) t v = unbEntry g t v) := by
  have hrow : ∀ k, dictFind ((g.feed src idx v.vid kwd).argdeps v.vid) k =
      if k = kwd then (dictFind (g.argdeps v.vid) k).map (fun _ => Option.some (src, idx))
      else dictFind (g.argdeps v.vid) k := by
    intro k
    rw [feed_argdeps_dst]
    exact dictFind_feedrow _ _ _ k
  constructor
  · obtain ⟨l1, l2, hsplit⟩ := List.append_of_mem hkey
    have hnd2 := hknodup
    rw [hsplit, List.map_append, List.map_cons] at hnd2
    have hnd3 := List.nodup_middle.mp hnd2
    have hkw : kwd ∉ l1.map Prod.fst ++ l2.map Prod.fst := (List.nodup_cons.mp hnd3).1
    have hkw1 : kwd ∉ l1.map Prod.fst := fun hc => hkw (List.mem_append_left _ hc)
    have hkw2 : kwd ∉ l2.map Prod.fst := fun hc => hkw (List.mem_append_right _ hc)
    have hne1 : ∀ p ∈ l1, p.1 ≠ kwd := by
      intro p hp hc
      exact hkw1 (List.mem_map.mpr ⟨p, hp, hc⟩)
    have hne2 : ∀ p ∈ l2, p.1 ≠ kwd := by
      intro p hp hc
      exact hkw2 (List.mem_map.mpr ⟨p, hp, hc⟩)
    refine ⟨l1.filterMap (fun p =>
        if p.2 = typ ∧ dictFind (g.argdeps v.vid) p.1 = Option.some Option.none
        then Option.some (v.vid, p.1) else Option.none),
      l2.filterMap (fun p =>
        if p.2 = typ ∧ dictFind (g.argdeps v.vid) p.1 = Option.some Option.none
        then Option.some (v.vid, p.1) else Option.none), ?_, ?_⟩
    · simp only [unbEntry]
      rw [hsplit, List.filterMap_append, List.filterMap_cons]
      rw [if_pos ⟨rfl, hunb⟩]
    · simp only [unbEntry]
      rw [hsplit, List.filterMap_append, List.filterMap_cons]
      have hmid : ((if ((kwd, typ) : String × PyType).2 = typ ∧
          dictFind ((g.feed src idx v.vid kwd).argdeps v.vid) ((kwd, typ) : String × PyType).1 =
            Option.some Option.none
          then Option.some (v.vid, ((kwd, typ) : String × PyType).1) else Option.none)) =
          Option.none := by
        rw [if_neg]
        intro hc
        have h2 := hc.2
        rw [hrow kwd, if_pos rfl, hunb] at h2
        exact Option.noConfusion (Option.some.inj h2)
      rw [hmid]
      have h1 : l1.filterMap (fun p =>
          if p.2 = typ ∧ dictFind ((g.feed src idx v.vid kwd).argdeps v.vid) p.1 =
            Option.some Option.none
          then Option.some (v.vid, p.1) else Option.none) =
          l1.filterMap (fun p =>
          if p.2 = typ ∧ dictFind (g.argdeps v.vid) p.1 = Option.some Option.none
          then Option.some (v.vid, p.1) else Option.none) := by
        refine List.filterMap_congr ?_
        intro p hp
        rw [hrow p.1, if_neg (hne1 p hp)]
      have h2 : l2.filterMap (fun p =>
          if p.2 = typ ∧ dictFind ((g.feed src idx v.vid kwd).argdeps v.vid) p.1 =
            Option.some Option.none
          then Option.some (v.vid, p.1) else Option.none) =
          l2.filterMap (fun p =>
          if p.2 = typ ∧ dictFind (g.argdeps v.vid) p.1 = Option.some Option.none
          then Option.some (v.vid, p.1) else Option.none) := by
        refine List.filterMap_congr ?_
        intro p hp
        rw [hrow p.1, if_neg (hne2 p hp)]
      rw [h1, h2]
  · intro t ht
    simp only [unbEntry]
    refine List.filterMap_congr ?_
    intro p hp
    by_cases hpk : p.1 = kwd
    · have hptyp : p.2 = typ := by
        have : (kwd, p.2) ∈ v.inpType := by
          have : p = (kwd, p.2) := by
            rw [← hpk]
          rw [← this]
          exact hp
        exact key_unique hknodup this hkey
      rw [if_neg (fun hc => ht (by rw [← hc.1]; exact hptyp)),
        if_neg (fun hc => ht (by rw [← hc.1]; exact hptyp))]
    · rw [hrow p.1, if_neg hpk]

/-- Feeding an unbound keyword of a vertex in the graph removes exactly that
`(vid, keyword)` entry from the graph-wide unbound multiset at the keyword's
declared type and preserves the multisets at all other types. -/
theorem unbound_bind (g : FuncGraph) (excl : Option Nat) (src idx : Nat)
    (kwd : String) (typ : PyType) (v : Vertex)
    (hv : v ∈ g.verts) (hvnodup : (g.verts.map Vertex.vid).Nodup)
    (hkey : (kwd, typ) ∈ v.inpType) (hknodup : (v.inpType.map Prod.fst).Nodup)
    (hunb : dictFind (g.argdeps v.vid) kwd = Option.some Option.none)
    (hpass : (!(Option.some v.vid == excl)) = true) :
    unboundMsx g excl typ = (v.vid, kwd) ::ₘ unboundMsx (g.feed src idx v.vid kwd) excl typ ∧
    ∀ t, t ≠ typ → unboundMsx (g.feed src idx v.vid kwd) excl t = unboundMsx g excl t := by
  have hvertnd : g.verts.Nodup := hvnodup.of_map
  have hLnd : (g.verts.filter (fun u => !(Option.some u.vid == excl))).Nodup :=
    hvertnd.filter _
  have hvL : v ∈ g.verts.filter (fun u => !(Option.some u.vid == excl)) :=
    List.mem_filter.mpr ⟨hv, hpass⟩
  obtain ⟨L1, L2, hLsplit⟩ := List.append_of_mem hvL
  have hLnd2 := hLnd
  rw [hLsplit] at hLnd2
  have hLnd3 := List.nodup_middle.mp hLnd2
  have hvnot : v ∉ L1 ++ L2 := (List.nodup_cons.mp hLnd3).1
  have hsub : ∀ u ∈ L1 ++ L2, u ∈ g.verts := by
    intro u hu
    have : u ∈ g.verts.filter (fun u => !(Option.some u.vid == excl)) := by
      rw [hLsplit]
      rcases List.mem_append.mp hu with h | h
      · exact List.mem_append_left _ h
      · exact List.mem_append_right _ (List.mem_cons_of_mem _ h)
    exact List.mem_of_mem_filter this
  have hvidne : ∀ u ∈ L1 ++ L2, u.vid ≠ v.vid := by
    intro u hu hc
    exact hvnot (by
      have : u = v := List.inj_on_of_nodup_map hvnodup (hsub u hu) hv hc
      rw [← this]
      exact hu)
  have hfilter' : (g.feed src idx v.vid kwd).verts.filter
      (fun u => !(Option.some u.vid == excl)) = L1 ++ v :: L2 := by
    rw [feed_verts]
    exact hLsplit
  have hcongr1 : ∀ t, L1.flatMap (unbEntry (g.feed src idx v.vid kwd) t) =
      L1.flatMap (unbEntry g t) := by
    intro t
    refine flatMap_congr_mem _ _ _ ?_
    intro u hu
    exact unbEntry_feed_ne g src idx v.vid kwd t u (hvidne u (List.mem_append_left _ hu))
  have hcongr2 : ∀ t, L2.flatMap (unbEntry (g.feed src idx v.vid kwd) t) =
      L2.flatMap (unbEntry g t) := by
    intro t
    refine flatMap_congr_mem _ _ _ ?_
    intro u hu
    exact unbEntry_feed_ne g src idx v.vid kwd t u (hvidne u (List.mem_append_right _ hu))
  obtain ⟨hself1, hself2⟩ :=
    unbEntry_feed_self g src idx kwd typ v hkey hknodup hunb
  constructor
  · obtain ⟨A, B, hA, hB⟩ := hself1
    rw [unboundMsx_eq_flat, unboundMsx_eq_flat, hfilter', hLsplit]
    rw [List.flatMap_append, List.flatMap_cons, List.flatMap_append, List.flatMap_cons]
    rw [hcongr1, hcongr2, hA, hB]
    have hperm : (L1.flatMap (unbEntry g typ) ++ ((A ++ (v.vid, kwd) :: B) ++
        L2.flatMap (unbEntry g typ))).Perm
        ((v.vid, kwd) :: (L1.flatMap (unbEntry g typ) ++ ((A ++ B) ++
          L2.flatMap (unbEntry g typ)))) := by
      have e1 : L1.flatMap (unbEntry g typ) ++ ((A ++ (v.vid, kwd) :: B) ++
          L2.flatMap (unbEntry g typ)) =
          (L1.flatMap (unbEntry g typ) ++ A) ++ (v.vid, kwd) ::
            (B ++ L2.flatMap (unbEntry g typ)) := by
        simp [List.append_assoc]
      have e2 : L1.flatMap (unbEntry g typ) ++ ((A ++ B) ++
          L2.flatMap (unbEntry g typ)) =
          (L1.flatMap (unbEntry g typ) ++ A) ++ (B ++ L2.flatMap (unbEntry g typ)) := by
        simp [List.append_assoc]
      rw [e1, e2]
      exact List.perm_middle
    rw [Multiset.coe_eq_coe.mpr hperm]
    rfl
  · intro t ht
    rw [unboundMsx_eq_flat, unboundMsx_eq_flat, hfilter', hLsplit]
    rw [List.flatMap_append, List.flatMap_cons, List.flatMap_append, List.flatMap_cons]
    rw [hcongr1, hcongr2, hself2 t ht]

theorem sum_sent_update (q : PyType → List QEntry) (typ : PyType) (newq : List QEntry) :
    Finset.univ.sum (fun t => sentCount (if t = typ then newq else q t)) +
      sentCount (q typ) =
    Finset.univ.sum (fun t => sentCount (q t)) + sentCount newq := by
  have e1 : ∀ g : PyType → Nat, Finset.univ.sum g =
      g typ + (Finset.univ.erase typ).sum g := by
    intro g
    exact (Finset.add_sum_erase _ g (Finset.mem_univ typ)).symm
  rw [e1 (fun t => sentCount (if t = typ then newq else q t)), e1 (fun t => sentCount (q t))]
  have e2 : (Finset.univ.erase typ).sum (fun t => sentCount (if t = typ then newq else q t)) =
      (Finset.univ.erase typ).sum (fun t => sentCount (q t)) := by
    refine Finset.sum_congr rfl ?_
    intro t ht
    rw [if_neg (Finset.ne_of_mem_erase ht)]
  rw [e2, if_pos rfl]
  omega

theorem dictFind_mem_key {α β : Type} [DecidableEq α] (l : List (α × β)) (k : α)
    (h : k ∈ l.map Prod.fst) : ∃ y, dictFind l k = Option.some y ∧ (k, y) ∈ l := by
  induction l with
  | nil => simp at h
  | cons p rest ih =>
    rw [dictFind_cons]
    by_cases hp : p.1 = k
    · exact ⟨p.2, by rw [if_pos hp], by
        rw [← hp]
        exact List.mem_cons_self _ _⟩
    · rw [List.map_cons, List.mem_cons] at h
      rcases h with h | h
      · exact absurd h.symm hp
      · obtain ⟨y, hy, hmem⟩ := ih h
        exact ⟨y, by rw [if_neg hp]; exact hy, List.mem_cons_of_mem _ hmem⟩

theorem dictFind_isSome_of_key {α β : Type} [DecidableEq α] (l : List (α × β)) (k : α)
    (h : k ∈ l.map Prod.fst) : dictFind l k ≠ Option.none := by
  obtain ⟨y, hy, _⟩ := dictFind_mem_key l k h
  rw [hy]
  exact Option.noConfusion

/-- Membership in the unbound multiset decomposes into a witnessing vertex. -/
theorem unbound_mem_elim (g : FuncGraph) (excl : Option Nat) (typ : PyType)
    (dvid : Nat) (kwd : String) (h : (dvid, kwd) ∈ unboundMsx g excl typ) :
    ∃ v, v ∈ g.verts ∧ (!(Option.some v.vid == excl)) = true ∧ v.vid = dvid ∧
      (kwd, typ) ∈ v.inpType ∧ dictFind (g.argdeps dvid) kwd = Option.some Option.none := by
  rw [unboundMsx_eq_flat, Multiset.mem_coe, List.mem_flatMap] at h
  obtain ⟨v, hv, hmem⟩ := h
  have hvv := List.mem_filter.mp hv
  simp only [unbEntry, List.mem_filterMap] at hmem
  obtain ⟨p, hp, hcond⟩ := hmem
  by_cases hc : p.2 = typ ∧ dictFind (g.argdeps v.vid) p.1 = Option.some Option.none
  · rw [if_pos hc] at hcond
    have hvid : v.vid = dvid := congrArg Prod.fst (Option.some.inj hcond)
    have hkwd : p.1 = kwd := congrArg Prod.snd (Option.some.inj hcond)
    refine ⟨v, hvv.1, hvv.2, hvid, ?_, ?_⟩
    · have : p = (kwd, typ) := by
        rcases p with ⟨p1, p2⟩
        rw [Prod.mk.injEq]
        exact ⟨hkwd, hc.1⟩
      rw [← this]
      exact hp
    · rw [← hvid, ← hkwd]
      exact hc.2
  · rw [if_neg hc] at hcond
    exact Option.noConfusion hcond

/-- With no vertex named `nvid` in the graph, masking `nvid` is invisible. -/
theorem unboundMsx_excl_fresh (g : FuncGraph) (nvid : Nat) (t : PyType)
    (h : ∀ v ∈ g.verts, v.vid ≠ nvid) :
    unboundMsx g (Option.some nvid) t = unboundMsx g Option.none t := by
  rw [unboundMsx_eq_flat, unboundMsx_eq_flat]
  have : g.verts.filter (fun v => !(Option.some v.vid == Option.some nvid)) =
      g.verts.filter (fun v => !(Option.some v.vid == Option.none)) := by
    refine List.filter_congr ?_
    intro v hv
    have h1 : (Option.some v.vid == Option.some nvid) = false := by
      rw [beq_eq_false_iff_ne]
      intro hc
      exact h v hv (Option.some.inj hc)
    rw [h1]
    rfl
  rw [this]

/-- Unmasking a vertex whose inputs are all unbound adds exactly its input
keywords of each type to the unbound multiset. -/
theorem unboundMsx_unmask (g : FuncGraph) (nv : Vertex) (t : PyType)
    (hv : nv ∈ g.verts) (hnodup : (g.verts.map Vertex.vid).Nodup)
    (hkeys : (g.argdeps nv.vid).map Prod.fst = nv.inpType.map Prod.fst)
    (hrow : ∀ p ∈ g.argdeps nv.vid, p.2 = Option.none) :
    unboundMsx g Option.none t =
      unboundMsx g (Option.some nv.vid) t +
        ↑(nv.inpType.filterMap (fun p =>
          if p.2 = t then Option.some (nv.vid, p.1) else Option.none)) := by
  have hvertnd : g.verts.Nodup := hnodup.of_map
  obtain ⟨V1, V2, hsplit⟩ := List.append_of_mem hv
  have hnd2 := hvertnd
  rw [hsplit] at hnd2
  have hnd3 := List.nodup_middle.mp hnd2
  have hnvnot : nv ∉ V1 ++ V2 := (List.nodup_cons.mp hnd3).1
  have hsub : ∀ u ∈ V1 ++ V2, u ∈ g.verts := by
    intro u hu
    rw [hsplit]
    rcases List.mem_append.mp hu with h | h
    · exact List.mem_append_left _ h
    · exact List.mem_append_right _ (List.mem_cons_of_mem _ h)
  have hvidne : ∀ u ∈ V1 ++ V2, u.vid ≠ nv.vid := by
    intro u hu hc
    exact hnvnot (by
      have : u = nv := List.inj_on_of_nodup_map hnodup (hsub u hu) hv hc
      rw [← this]
      exact hu)
  have hfull : g.verts.filter (fun u => !(Option.some u.vid == Option.none)) =
      V1 ++ nv :: V2 := by
    rw [hsplit]
    exact List.filter_eq_self.mpr (fun u _ => rfl)
  have hmask : g.verts.filter (fun u => !(Option.some u.vid == Option.some nv.vid)) =
      V1 ++ V2 := by
    rw [hsplit, List.filter_append, List.filter_cons]
    have hself : (!(Option.some nv.vid == Option.some nv.vid)) = false := by
      simp
    rw [hself]
    have h1 : V1.filter (fun u => !(Option.some u.vid == Option.some nv.vid)) = V1 :=
      List.filter_eq_self.mpr (fun u hu => by
        rw [beq_eq_false_iff_ne.mpr (fun hc =>
          hvidne u (List.mem_append_left _ hu) (Option.some.inj hc))]
        rfl)
    have h2 : V2.filter (fun u => !(Option.some u.vid == Option.some nv.vid)) = V2 :=
      List.filter_eq_self.mpr (fun u hu => by
        rw [beq_eq_false_iff_ne.mpr (fun hc =>
          hvidne u (List.mem_append_right _ hu) (Option.some.inj hc))]
        rfl)
    rw [h1, h2]
    rfl
  have hcontrib : unbEntry g t nv = nv.inpType.filterMap (fun p =>
      if p.2 = t then Option.some (nv.vid, p.1) else Option.none) := by
    simp only [unbEntry]
    refine List.filterMap_congr ?_
    intro p hp
    have hkmem : p.1 ∈ (g.argdeps nv.vid).map Prod.fst := by
      rw [hkeys]
      exact List.mem_map.mpr ⟨p, hp, rfl⟩
    obtain ⟨y, hy, hmem⟩ := dictFind_mem_key _ _ hkmem
    have hynone : y = Option.none := hrow (p.1, y) hmem
    rw [hy, hynone]
    by_cases hpt : p.2 = t
    · rw [if_pos ⟨hpt, rfl⟩, if_pos hpt]
    · rw [if_neg (fun hc => hpt hc.1), if_neg hpt]
  rw [unboundMsx_eq_flat, unboundMsx_eq_flat, hfull, hmask]
  rw [List.flatMap_append, List.flatMap_cons, List.flatMap_append, ← hcontrib]
  have hperm : (V1.flatMap (unbEntry g t) ++ (unbEntry g t nv ++
      V2.flatMap (unbEntry g t))).Perm
      ((V1.flatMap (unbEntry g t) ++ V2.flatMap (unbEntry g t)) ++ unbEntry g t nv) := by
    have h1 : (V1.flatMap (unbEntry g t) ++ (unbEntry g t nv ++
        V2.flatMap (unbEntry g t))).Perm
        (V1.flatMap (unbEntry g t) ++ (V2.flatMap (unbEntry g t) ++ unbEntry g t nv)) :=
      List.Perm.append_left _ List.perm_append_comm
    refine h1.trans ?_
    rw [List.append_assoc]
  rw [Multiset.coe_eq_coe.mpr hperm]
  rfl

/-!  ## The synthesis-loop invariants  -/

/-- Structural well-formedness of the graph under construction: distinct vertex
identities below the allocation counter, adjacency rows of declared arity,
argument-dependency rows keyed exactly by the declared input keywords (with no
duplicate keywords, and function keywords drawn from the library universe
`KU`), output and sink vertices with their single input already bound, constant
vertices without inputs, and output vertices holding exactly one open slot of
their declared type. -/
structure GraphWF (KU : String → Prop) (g : FuncGraph) (nxt : Nat) : Prop where
  nodupVids : (g.verts.map Vertex.vid).Nodup
  vidLt : ∀ v ∈ g.verts, v.vid < nxt
  adjLen : ∀ v ∈ g.verts, (g.adjacency v.vid).length = v.arity
  argKeys : ∀ v ∈ g.verts, (g.argdeps v.vid).map Prod.fst = v.inpType.map Prod.fst
  kwdNodup : ∀ v ∈ g.verts, (v.inpType.map Prod.fst).Nodup
  kwdUniv : ∀ v ∈ g.verts, v.kind = VKind.func → ∀ p ∈ v.inpType, KU p.1
  outBound : ∀ v ∈ g.verts, v.kind = VKind.out →
    ∀ p ∈ g.argdeps v.vid, p.2 ≠ Option.none
  sinkBound : ∀ v ∈ g.verts, v.kind = VKind.sink →
    ∀ p ∈ g.argdeps v.vid, p.2 ≠ Option.none
  constNoInp : ∀ v ∈ g.verts, v.kind = VKind.const → v.inpType = []
  outShape : ∀ v ∈ g.verts, v.kind = VKind.out →
    ∃ t, v.outTypeF = TyVal.tup [t] ∧ g.adjacency v.vid = [Option.none]

/-- The between-iterations invariant of the `_compose_func` synthesis loop:
the graph is well formed with every function and constant slot consumed, the
frontier counts the queued requests, each queue's consumer entries are exactly
the graph's unbound input keywords of that type, and output-marker vertices
plus queued final-output sentinels balance the requested outputs. -/
structure SynthInv (KU : String → Prop) (O : List PyType) (st : CompSt) : Prop where
  gwf : GraphWF KU st.graph st.nextVid
  closed : ∀ v ∈ st.graph.verts, v.kind = VKind.func ∨ v.kind = VKind.const →
    Option.none ∉ st.graph.adjacency v.vid
  fcount : ∀ t, st.frontier.count t = (st.queues t).length
  qmatch : ∀ t, realMs (st.queues t) = unboundMs st.graph t
  outCnt : ∀ t, countOutV st.graph t + sentCount (st.queues t) = O.count t
  hitCnt : st.outputsHit + sentTotal st = O.length

/-- The mid-iteration invariant, holding after the new function vertex with
identity `nvid` (instantiated from `spec`) has been added but before its inputs
are registered: as `SynthInv`, except that the new vertex's slots may still be
open, its not-yet-registered inputs are masked out of the unbound accounting,
and its argument row is entirely unbound. -/
structure MidInv (KU : String → Prop) (O : List PyType) (spec : FuncSpec) (nvid : Nat)
    (st : CompSt) : Prop where
  gwf : GraphWF KU st.graph st.nextVid
  closed : ∀ v ∈ st.graph.verts, v.kind = VKind.func ∨ v.kind = VKind.const →
    v.vid ≠ nvid → Option.none ∉ st.graph.adjacency v.vid
  nv : specVertex nvid spec ∈ st.graph.verts
  nvRow : ∀ p ∈ st.graph.argdeps nvid, p.2 = Option.none
  fcount : ∀ t, st.frontier.count t = (st.queues t).length
  qmatch : ∀ t, realMs (st.queues t) = unboundMsx st.graph (Option.some nvid) t
  outCnt : ∀ t, countOutV st.graph t + sentCount (st.queues t) = O.count t
  hitCnt : st.outputsHit + sentTotal st = O.length

theorem feedrow_keys (l : List (String × Option (Nat × Nat))) (kwd : String) (x : Nat × Nat) :
    (l.map (fun p => if p.1 = kwd then (p.1, Option.some x) else p)).map Prod.fst =
      l.map Prod.fst := by
  rw [List.map_map]
  refine List.map_congr_left ?_
  intro p _
  by_cases h : p.1 = kwd
  · simp [Function.comp, h]
  · simp [Function.comp, h]

theorem feedrow_bound (l : List (String × Option (Nat × Nat))) (kwd : String) (x : Nat × Nat)
    (h : ∀ p ∈ l, p.2 ≠ Option.none) :
    ∀ p ∈ l.map (fun p => if p.1 = kwd then (p.1, Option.some x) else p),
      p.2 ≠ Option.none := by
  intro p' hp'
  obtain ⟨p, hp, hpe⟩ := List.mem_map.mp hp'
  by_cases hk : p.1 = kwd
  · rw [if_pos hk] at hpe
    rw [← hpe]
    exact Option.noConfusion
  · rw [if_neg hk] at hpe
    rw [← hpe]
    exact h p hp

theorem pop_real_decomp (q restq : List QEntry) (d dvid : Nat) (kwd : String)
    (hpop : heapPopMin q = Option.some ((d, Option.some (dvid, kwd)), restq)) :
    realMs q = (dvid, kwd) ::ₘ realMs restq ∧ sentCount q = sentCount restq ∧
      q.length = restq.length + 1 := by
  have hperm := heapPopMin_perm q restq _ hpop
  refine ⟨?_, ?_, ?_⟩
  · rw [realMs_perm _ _ hperm, realMs_cons_real]
  · rw [sentCount_perm _ _ hperm, sentCount_cons_real]
  · rw [hperm.length_eq]
    rfl

theorem pop_sent_decomp (q restq : List QEntry) (d : Nat)
    (hpop : heapPopMin q = Option.some ((d, Option.none), restq)) :
    realMs q = realMs restq ∧ sentCount q = sentCount restq + 1 ∧
      q.length = restq.length + 1 := by
  have hperm := heapPopMin_perm q restq _ hpop
  refine ⟨?_, ?_, ?_⟩
  · rw [realMs_perm _ _ hperm, realMs_cons_sent]
  · rw [sentCount_perm _ _ hperm, sentCount_cons_sent]
  · rw [hperm.length_eq]
    rfl

/-- Feeding preserves graph well-formedness as long as the source slot does not
belong to an output-marker vertex. -/
theorem GraphWF.feed {KU : String → Prop} {g : FuncGraph} {nxt : Nat}
    (h : GraphWF KU g nxt) (src idx dst : Nat) (kwd : String)
    (hsrc : ∀ v ∈ g.verts, v.vid = src → v.kind ≠ VKind.out) :
    GraphWF KU (g.feed src idx dst kwd) nxt := by
  refine ⟨h.nodupVids, h.vidLt, ?_, ?_, h.kwdNodup, h.kwdUniv, ?_, ?_, h.constNoInp, ?_⟩
  · intro v hv
    by_cases hs : v.vid = src
    · rw [hs, feed_adjacency_src, List.length_set, ← hs]
      exact h.adjLen v hv
    · rw [feed_adjacency_ne _ _ _ _ _ _ hs]
      exact h.adjLen v hv
  · intro v hv
    by_cases hd : v.vid = dst
    · rw [hd, feed_argdeps_dst, feedrow_keys, ← hd]
      exact h.argKeys v hv
    · rw [feed_argdeps_ne _ _ _ _ _ _ hd]
      exact h.argKeys v hv
  · intro v hv hk
    by_cases hd : v.vid = dst
    · rw [hd, feed_argdeps_dst]
      refine feedrow_bound _ _ _ ?_
      have := h.outBound v hv hk
      rw [hd] at this
      exact this
    · rw [feed_argdeps_ne _ _ _ _ _ _ hd]
      exact h.outBound v hv hk
  · intro v hv hk
    by_cases hd : v.vid = dst
    · rw [hd, feed_argdeps_dst]
      refine feedrow_bound _ _ _ ?_
      have := h.sinkBound v hv hk
      rw [hd] at this
      exact this
    · rw [feed_argdeps_ne _ _ _ _ _ _ hd]
      exact h.sinkBound v hv hk
  · intro v hv hk
    obtain ⟨t, ht, hrow⟩ := h.outShape v hv hk
    refine ⟨t, ht, ?_⟩
    have hs : v.vid ≠ src := fun hc => hsrc v hv hc hk
    rw [feed_adjacency_ne _ _ _ _ _ _ hs]
    exact hrow

/-- Adding a fresh function or constant vertex with well-formed keywords
preserves graph well-formedness. -/
theorem GraphWF.addFC {KU : String → Prop} {g : FuncGraph} {nxt : Nat}
    (h : GraphWF KU g nxt) (v : Vertex) (hvid : v.vid = nxt)
    (hkind : v.kind = VKind.func ∨ v.kind = VKind.const)
    (hknodup : (v.inpType.map Prod.fst).Nodup)
    (hKU : v.kind = VKind.func → ∀ p ∈ v.inpType, KU p.1)
    (hnoinp : v.kind = VKind.const → v.inpType = []) :
    GraphWF KU (g.add v) (nxt + 1) := by
  have hfresh : ∀ u ∈ g.verts, u.vid ≠ v.vid := by
    intro u hu hc
    have := h.vidLt u hu
    omega
  have hmem : ∀ u ∈ (g.add v).verts, u ∈ g.verts ∨ u = v := by
    intro u hu
    rw [add_verts] at hu
    rcases List.mem_append.mp hu with h1 | h1
    · exact Or.inl h1
    · exact Or.inr (List.mem_singleton.mp h1)
  refine ⟨?_, ?_, ?_, ?_, ?_, ?_, ?_, ?_, ?_, ?_⟩
  · rw [add_verts, List.map_append]
    rw [List.nodup_append]
    refine ⟨h.nodupVids, List.nodup_singleton _, ?_⟩
    intro x hx
    have : x < nxt := by
      obtain ⟨u, hu, hue⟩ := List.mem_map.mp hx
      rw [← hue]
      exact h.vidLt u hu
    intro hc
    rw [List.map_cons, List.map_nil, List.mem_singleton] at hc
    omega
  · intro u hu
    rcases hmem u hu with h1 | h1
    · have := h.vidLt u h1
      omega
    · rw [h1, hvid]
      omega
  · intro u hu
    rcases hmem u hu with h1 | h1
    · rw [add_adjacency_ne _ _ _ (hfresh u h1)]
      exact h.adjLen u h1
    · rw [h1, add_adjacency_self, List.length_replicate]
  · intro u hu
    rcases hmem u hu with h1 | h1
    · rw [add_argdeps_ne _ _ _ (hfresh u h1)]
      exact h.argKeys u h1
    · rw [h1, add_argdeps_self, List.map_map]
      refine List.map_congr_left ?_
      intro p _
      rfl
  · intro u hu
    rcases hmem u hu with h1 | h1
    · exact h.kwdNodup u h1
    · rw [h1]
      exact hknodup
  · intro u hu
    rcases hmem u hu with h1 | h1
    · exact h.kwdUniv u h1
    · rw [h1]
      exact hKU
  · intro u hu hk
    rcases hmem u hu with h1 | h1
    · rw [add_argdeps_ne _ _ _ (hfresh u h1)]
      exact h.outBound u h1 hk
    · exfalso
      rw [h1] at hk
      rcases hkind with h2 | h2 <;> rw [h2] at hk <;> exact VKind.noConfusion hk
  · intro u hu hk
    rcases hmem u hu with h1 | h1
    · rw [add_argdeps_ne _ _ _ (hfresh u h1)]
      exact h.sinkBound u h1 hk
    · exfalso
      rw [h1] at hk
      rcases hkind with h2 | h2 <;> rw [h2] at hk <;> exact VKind.noConfusion hk
  · intro u hu hk
    rcases hmem u hu with h1 | h1
    · exact h.constNoInp u h1 hk
    · rw [h1] at hk ⊢
      exact hnoinp hk
  · intro u hu hk
    rcases hmem u hu with h1 | h1
    · obtain ⟨t, ht, hrow⟩ := h.outShape u h1 hk
      exact ⟨t, ht, by
        rw [add_adjacency_ne _ _ _ (hfresh u h1)]
        exact hrow⟩
    · exfalso
      rw [h1] at hk
      rcases hkind with h2 | h2 <;> rw [h2] at hk <;> exact VKind.noConfusion hk

/-- Adding a fresh output-marker vertex and immediately feeding it from an
existing non-output slot preserves graph well-formedness. -/
theorem GraphWF.addOutFeed {KU : String → Prop} {g : FuncGraph} {nxt : Nat}
    (h : GraphWF KU g nxt) (typ : PyType) (src idx : Nat) (hsrc : src ≠ nxt)
    (hsrck : ∀ v ∈ g.verts, v.vid = src → v.kind ≠ VKind.out) :
    GraphWF KU ((g.add (mkOutVertex nxt typ)).feed src idx nxt OUT_KWD) (nxt + 1) := by
  have hfresh : ∀ u ∈ g.verts, u.vid ≠ nxt := by
    intro u hu hc
    have := h.vidLt u hu
    omega
  have hmem : ∀ u ∈ ((g.add (mkOutVertex nxt typ)).feed src idx nxt OUT_KWD).verts,
      u ∈ g.verts ∨ u = mkOutVertex nxt typ := by
    intro u hu
    rw [feed_verts, add_verts] at hu
    rcases List.mem_append.mp hu with h1 | h1
    · exact Or.inl h1
    · exact Or.inr (List.mem_singleton.mp h1)
  have hadjne : ∀ i, i ≠ src → i ≠ nxt →
      ((g.add (mkOutVertex nxt typ)).feed src idx nxt OUT_KWD).adjacency i =
        g.adjacency i := by
    intro i h1 h2
    rw [feed_adjacency_ne _ _ _ _ _ _ h1, add_adjacency_ne _ _ _ h2]
  have hargne : ∀ i, i ≠ nxt →
      ((g.add (mkOutVertex nxt typ)).feed src idx nxt OUT_KWD).argdeps i =
        g.argdeps i := by
    intro i h1
    rw [feed_argdeps_ne _ _ _ _ _ _ h1, add_argdeps_ne _ _ _ h1]
  have hrowo : ((g.add (mkOutVertex nxt typ)).feed src idx nxt OUT_KWD).argdeps nxt =
      [(OUT_KWD, Option.some (src, idx))] := by
    rw [feed_argdeps_dst]
    have : (g.add (mkOutVertex nxt typ)).argdeps nxt = [(OUT_KWD, Option.none)] :=
      add_argdeps_self g (mkOutVertex nxt typ)
    rw [this]
    rfl
  have hadjo : ((g.add (mkOutVertex nxt typ)).feed src idx nxt OUT_KWD).adjacency nxt =
      [Option.none] := by
    rw [feed_adjacency_ne _ _ _ _ _ _ (fun hc => hsrc hc.symm)]
    exact add_adjacency_self g (mkOutVertex nxt typ)
  refine ⟨?_, ?_, ?_, ?_, ?_, ?_, ?_, ?_, ?_, ?_⟩
  · rw [feed_verts, add_verts, List.map_append, List.nodup_append]
    refine ⟨h.nodupVids, List.nodup_singleton _, ?_⟩
    intro x hx
    have : x < nxt := by
      obtain ⟨u, hu, hue⟩ := List.mem_map.mp hx
      rw [← hue]
      exact h.vidLt u hu
    intro hc
    rw [List.map_cons, List.map_nil, List.mem_singleton] at hc
    have : x = nxt := hc
    omega
  · intro u hu
    rcases hmem u hu with h1 | h1
    · have := h.vidLt u h1
      omega
    · rw [h1]
      exact Nat.lt_succ_self nxt
  · intro u hu
    rcases hmem u hu with h1 | h1
    · by_cases hs : u.vid = src
      · rw [hs, feed_adjacency_src, List.length_set,
          add_adjacency_ne _ _ _ (hs ▸ hfresh u h1), ← hs]
        exact h.adjLen u h1
      · rw [hadjne u.vid hs (hfresh u h1)]
        exact h.adjLen u h1
    · rw [h1]
      rw [show (mkOutVertex nxt typ).vid = nxt from rfl, hadjo]
      rfl
  · intro u hu
    rcases hmem u hu with h1 | h1
    · rw [hargne u.vid (hfresh u h1)]
      exact h.argKeys u h1
    · rw [h1, show (mkOutVertex nxt typ).vid = nxt from rfl, hrowo]
      rfl
  · intro u hu
    rcases hmem u hu with h1 | h1
    · exact h.kwdNodup u h1
    · rw [h1]
      exact List.nodup_singleton _
  · intro u hu hk
    rcases hmem u hu with h1 | h1
    · exact h.kwdUniv u h1 hk
    · exfalso
      rw [h1] at hk
      exact VKind.noConfusion hk
  · intro u hu hk
    rcases hmem u hu with h1 | h1
    · rw [hargne u.vid (hfresh u h1)]
      exact h.outBound u h1 hk
    · rw [h1, show (mkOutVertex nxt typ).vid = nxt from rfl, hrowo]
      intro p hp
      rw [List.mem_singleton] at hp
      rw [hp]
      exact Option.noConfusion
  · intro u hu hk
    rcases hmem u hu with h1 | h1
    · rw [hargne u.vid (hfresh u h1)]
      exact h.sinkBound u h1 hk
    · exfalso
      rw [h1] at hk
      exact VKind.noConfusion hk
  · intro u hu hk
    rcases hmem u hu with h1 | h1
    · exact h.constNoInp u h1 hk
    · exfalso
      rw [h1] at hk
      exact VKind.noConfusion hk
  · intro u hu hk
    rcases hmem u hu with h1 | h1
    · obtain ⟨t, ht, hrow⟩ := h.outShape u h1 hk
      refine ⟨t, ht, ?_⟩
      have hs : u.vid ≠ src := fun hc => hsrck u h1 hc hk
      rw [hadjne u.vid hs (hfresh u h1)]
      exact hrow
    · refine ⟨typ, by rw [h1]; rfl, ?_⟩
      rw [h1, show (mkOutVertex nxt typ).vid = nxt from rfl]
      exact hadjo

/-- Adding a fresh sink vertex and immediately feeding it from an existing
non-output slot preserves graph well-formedness. -/
theorem GraphWF.addSinkFeed {KU : String → Prop} {g : FuncGraph} {nxt : Nat}
    (h : GraphWF KU g nxt) (typ : PyType) (src idx : Nat) (hsrc : src ≠ nxt)
    (hsrck : ∀ v ∈ g.verts, v.vid = src → v.kind ≠ VKind.out) :
    GraphWF KU ((g.add (mkSinkVertex nxt typ)).feed src idx nxt SINK_KWD) (nxt + 1) := by
  have hfresh : ∀ u ∈ g.verts, u.vid ≠ nxt := by
    intro u hu hc
    have := h.vidLt u hu
    omega
  have hmem : ∀ u ∈ ((g.add (mkSinkVertex nxt typ)).feed src idx nxt SINK_KWD).verts,
      u ∈ g.verts ∨ u = mkSinkVertex nxt typ := by
    intro u hu
    rw [feed_verts, add_verts] at hu
    rcases List.mem_append.mp hu with h1 | h1
    · exact Or.inl h1
    · exact Or.inr (List.mem_singleton.mp h1)
  have hadjne : ∀ i, i ≠ src → i ≠ nxt →
      ((g.add (mkSinkVertex nxt typ)).feed src idx nxt SINK_KWD).adjacency i =
        g.adjacency i := by
    intro i h1 h2
    rw [feed_adjacency_ne _ _ _ _ _ _ h1, add_adjacency_ne _ _ _ h2]
  have hargne : ∀ i, i ≠ nxt →
      ((g.add (mkSinkVertex nxt typ)).feed src idx nxt SINK_KWD).argdeps i =
        g.argdeps i := by
    intro i h1
    rw [feed_argdeps_ne _ _ _ _ _ _ h1, add_argdeps_ne _ _ _ h1]
  have hrows : ((g.add (mkSinkVertex nxt typ)).feed src idx nxt SINK_KWD).argdeps nxt =
      [(SINK_KWD, Option.some (src, idx))] := by
    rw [feed_argdeps_dst]
    have : (g.add (mkSinkVertex nxt typ)).argdeps nxt = [(SINK_KWD, Option.none)] :=
      add_argdeps_self g (mkSinkVertex nxt typ)
    rw [this]
    rfl
  have hadjs : ((g.add (mkSinkVertex nxt typ)).feed src idx nxt SINK_KWD).adjacency nxt =
      [] := by
    rw [feed_adjacency_ne _ _ _ _ _ _ (fun hc => hsrc hc.symm)]
    exact add_adjacency_self g (mkSinkVertex nxt typ)
  refine ⟨?_, ?_, ?_, ?_, ?_, ?_, ?_, ?_, ?_, ?_⟩
  · rw [feed_verts, add_verts, List.map_append, List.nodup_append]
    refine ⟨h.nodupVids, List.nodup_singleton _, ?_⟩
    intro x hx
    have : x < nxt := by
      obtain ⟨u, hu, hue⟩ := List.mem_map.mp hx
      rw [← hue]
      exact h.vidLt u hu
    intro hc
    rw [List.map_cons, List.map_nil, List.mem_singleton] at hc
    have : x = nxt := hc
    omega
  · intro u hu
    rcases hmem u hu with h1 | h1
    · have := h.vidLt u h1
      omega
    · rw [h1]
      exact Nat.lt_succ_self nxt
  · intro u hu
    rcases hmem u hu with h1 | h1
    · by_cases hs : u.vid = src
      · rw [hs, feed_adjacency_src, List.length_set,
          add_adjacency_ne _ _ _ (hs ▸ hfresh u h1), ← hs]
        exact h.adjLen u h1
      · rw [hadjne u.vid hs (hfresh u h1)]
        exact h.adjLen u h1
    · rw [h1]
      rw [show (mkSinkVertex nxt typ).vid = nxt from rfl, hadjs]
      rfl
  · intro u hu
    rcases hmem u hu with h1 | h1
    · rw [hargne u.vid (hfresh u h1)]
      exact h.argKeys u h1
    · rw [h1, show (mkSinkVertex nxt typ).vid = nxt from rfl, hrows]
      rfl
  · intro u hu
    rcases hmem u hu with h1 | h1
    · exact h.kwdNodup u h1
    · rw [h1]
      exact List.nodup_singleton _
  · intro u hu hk
    rcases hmem u hu with h1 | h1
    · exact h.kwdUniv u h1 hk
    · exfalso
      rw [h1] at hk
      exact VKind.noConfusion hk
  · intro u hu hk
    rcases hmem u hu with h1 | h1
    · rw [hargne u.vid (hfresh u h1)]
      exact h.outBound u h1 hk
    · exfalso
      rw [h1] at hk
      exact VKind.noConfusion hk
  · intro u hu hk
    rcases hmem u hu with h1 | h1
    · rw [hargne u.vid (hfresh u h1)]
      exact h.sinkBound u h1 hk
    · rw [h1, show (mkSinkVertex nxt typ).vid = nxt from rfl, hrows]
      intro p hp
      rw [List.mem_singleton] at hp
      rw [hp]
      exact Option.noConfusion
  · intro u hu hk
    rcases hmem u hu with h1 | h1
    · exact h.constNoInp u h1 hk
    · exfalso
      rw [h1] at hk
      exact VKind.noConfusion hk
  · intro u hu hk
    rcases hmem u hu with h1 | h1
    · obtain ⟨t, ht, hrow⟩ := h.outShape u h1 hk
      refine ⟨t, ht, ?_⟩
      have hs : u.vid ≠ src := fun hc => hsrck u h1 hc hk
      rw [hadjne u.vid hs (hfresh u h1)]
      exact hrow
    · exfalso
      rw [h1] at hk
      exact VKind.noConfusion hk


theorem nodupVids_add {KU : String → Prop} {g : FuncGraph} {nxt : Nat}
    (h : GraphWF KU g nxt) (v : Vertex) (hge : nxt ≤ v.vid) :
    ((g.add v).verts.map Vertex.vid).Nodup := by
  rw [add_verts, List.map_append, List.nodup_append]
  refine ⟨h.nodupVids, List.nodup_singleton _, ?_⟩
  intro x hx
  have : x < nxt := by
    obtain ⟨u, hu, hue⟩ := List.mem_map.mp hx
    rw [← hue]
    exact h.vidLt u hu
  intro hc
  rw [List.map_cons, List.map_nil, List.mem_singleton] at hc
  omega

/-- Start of a synthesis iteration: adding the freshly instantiated function
vertex turns the between-iterations invariant into the mid-iteration one. -/
theorem mid_of_add {KU : String → Prop} {O : List PyType} (spec : FuncSpec) (st : CompSt)
    (h : SynthInv KU O st)
    (hknodup : (spec.inp.map Prod.fst).Nodup)
    (hKU : ∀ p ∈ spec.inp, KU p.1) :
    MidInv KU O spec st.nextVid
      { st with graph := st.graph.add (specVertex st.nextVid spec),
                nextVid := st.nextVid + 1 } := by
  have hfresh : ∀ u ∈ st.graph.verts, u.vid ≠ st.nextVid := by
    intro u hu hc
    have := h.gwf.vidLt u hu
    omega
  refine ⟨?_, ?_, ?_, ?_, h.fcount, ?_, ?_, h.hitCnt⟩
  · exact GraphWF.addFC h.gwf (specVertex st.nextVid spec) rfl (Or.inl rfl) hknodup
      (fun _ => hKU) (fun hc => VKind.noConfusion hc)
  · intro v hv hk hne
    rw [add_verts] at hv
    rcases List.mem_append.mp hv with h1 | h1
    · rw [add_adjacency_ne _ _ _ (hfresh v h1)]
      exact h.closed v h1 hk
    · exfalso
      rw [List.mem_singleton] at h1
      exact hne (by rw [h1]; rfl)
  · rw [add_verts]
    exact List.mem_append_right _ (List.mem_singleton.mpr rfl)
  · intro p hp
    have : (st.graph.add (specVertex st.nextVid spec)).argdeps st.nextVid =
        spec.inp.map (fun q => (q.1, Option.none)) :=
      add_argdeps_self st.graph (specVertex st.nextVid spec)
    rw [this] at hp
    obtain ⟨q, _, hqe⟩ := List.mem_map.mp hp
    rw [← hqe]
  · intro t
    have hadd := unbound_add st.graph (specVertex st.nextVid spec)
      (Option.some st.nextVid) t hfresh
    have hcond : (!(Option.some (specVertex st.nextVid spec).vid ==
        Option.some st.nextVid)) = true → False := by
      intro hc
      rw [show (specVertex st.nextVid spec).vid = st.nextVid from rfl] at hc
      simp at hc
    rw [if_neg hcond] at hadd
    show realMs (st.queues t) = _
    rw [hadd, add_zero, unboundMsx_excl_fresh st.graph st.nextVid t hfresh]
    exact h.qmatch t
  · intro t
    have := countOutV_add st.graph (specVertex st.nextVid spec) t
    rw [if_neg (fun hc => VKind.noConfusion hc.1), add_zero] at this
    show countOutV _ t + sentCount (st.queues t) = O.count t
    rw [this]
    exact h.outCnt t


/-- Serving a consumer request from the new vertex's output slot preserves the
mid-iteration invariant. -/
theorem mid_step_real {KU : String → Prop} {O : List PyType} {spec : FuncSpec} {nvid : Nat}
    (st : CompSt) (typ : PyType) (idx d dvid : Nat) (kwd : String) (restq : List QEntry)
    (h : MidInv KU O spec nvid st)
    (hpop : heapPopMin (st.queues typ) = Option.some ((d, Option.some (dvid, kwd)), restq)) :
    MidInv KU O spec nvid
      { st with
        frontier := st.frontier.erase typ,
        queues := fun t => if t = typ then restq else st.queues t,
        graph := st.graph.feed nvid idx dvid kwd } := by
  obtain ⟨hreal, hsent, hlen⟩ := pop_real_decomp _ _ _ _ _ hpop
  have hmemq : (dvid, kwd) ∈ unboundMsx st.graph (Option.some nvid) typ := by
    rw [← h.qmatch typ, hreal]
    exact Multiset.mem_cons_self _ _
  obtain ⟨v, hvmem, hpass, hvid, hkey, hunb⟩ := unbound_mem_elim _ _ _ _ _ hmemq
  have hbind := unbound_bind st.graph (Option.some nvid) nvid idx kwd typ v hvmem
    h.gwf.nodupVids hkey (h.gwf.kwdNodup v hvmem) (by rw [hvid]; exact hunb) hpass
  rw [hvid] at hbind
  have hvne : v.vid ≠ nvid := by
    intro hc
    rw [hc] at hpass
    simp at hpass
  have hdne : dvid ≠ nvid := by
    rw [hvid] at hvne
    exact hvne
  have hsrck : ∀ u ∈ st.graph.verts, u.vid = nvid → u.kind ≠ VKind.out := by
    intro u hu hc
    have : u = specVertex nvid spec :=
      List.inj_on_of_nodup_map h.gwf.nodupVids hu h.nv (by rw [hc]; rfl)
    rw [this]
    intro hk
    exact VKind.noConfusion hk
  refine ⟨GraphWF.feed h.gwf nvid idx dvid kwd hsrck, ?_, ?_, ?_, ?_, ?_, ?_, ?_⟩
  · intro u hu hk hne
    rw [feed_verts] at hu
    show Option.none ∉ (st.graph.feed nvid idx dvid kwd).adjacency u.vid
    rw [feed_adjacency_ne _ _ _ _ _ _ hne]
    exact h.closed u hu hk hne
  · show specVertex nvid spec ∈ (st.graph.feed nvid idx dvid kwd).verts
    rw [feed_verts]
    exact h.nv
  · intro p hp
    have : (st.graph.feed nvid idx dvid kwd).argdeps nvid = st.graph.argdeps nvid :=
      feed_argdeps_ne _ _ _ _ _ _ (fun hc => hdne hc.symm)
    rw [this] at hp
    exact h.nvRow p hp
  · intro t
    by_cases ht : t = typ
    · subst ht
      show (st.frontier.erase t).count t = (if t = t then restq else st.queues t).length
      rw [if_pos rfl, Multiset.count_erase_self]
      have := h.fcount t
      omega
    · show (st.frontier.erase typ).count t = (if t = typ then restq else st.queues t).length
      rw [if_neg ht, Multiset.count_erase_of_ne ht]
      exact h.fcount t
  · intro t
    by_cases ht : t = typ
    · subst ht
      show realMs (if t = t then restq else st.queues t) =
        unboundMsx (st.graph.feed nvid idx dvid kwd) (Option.some nvid) t
      rw [if_pos rfl]
      have h1 : (dvid, kwd) ::ₘ realMs restq =
          (dvid, kwd) ::ₘ unboundMsx (st.graph.feed nvid idx dvid kwd) (Option.some nvid) t := by
        rw [← hreal, h.qmatch t, hbind.1]
      exact (Multiset.cons_inj_right _).mp h1
    · show realMs (if t = typ then restq else st.queues t) =
        unboundMsx (st.graph.feed nvid idx dvid kwd) (Option.some nvid) t
      rw [if_neg ht, hbind.2 t ht]
      exact h.qmatch t
  · intro t
    show countOutV (st.graph.feed nvid idx dvid kwd) t +
      sentCount (if t = typ then restq else st.queues t) = O.count t
    rw [countOutV_feed]
    by_cases ht : t = typ
    · subst ht
      rw [if_pos rfl, ← hsent]
      exact h.outCnt t
    · rw [if_neg ht]
      exact h.outCnt t
  · show st.outputsHit +
      Finset.univ.sum (fun t => sentCount (if t = typ then restq else st.queues t)) = O.length
    have hsum := sum_sent_update st.queues typ restq
    have hst : sentTotal st = Finset.univ.sum (fun t => sentCount (st.queues t)) := rfl
    have hh := h.hitCnt
    rw [hst] at hh
    omega

/-- Popping the final-output sentinel and attaching a fresh output-marker
vertex to the new vertex's slot preserves the mid-iteration invariant. -/
theorem mid_step_sent {KU : String → Prop} {O : List PyType} {spec : FuncSpec} {nvid : Nat}
    (st : CompSt) (typ : PyType) (idx d : Nat) (restq : List QEntry)
    (h : MidInv KU O spec nvid st)
    (hpop : heapPopMin (st.queues typ) = Option.some ((d, Option.none), restq)) :
    MidInv KU O spec nvid
      { st with
        frontier := st.frontier.erase typ,
        queues := fun t => if t = typ then restq else st.queues t,
        graph := (st.graph.add (mkOutVertex st.nextVid typ)).feed nvid idx st.nextVid OUT_KWD,
        outputsHit := st.outputsHit + 1,
        nextVid := st.nextVid + 1 } := by
  obtain ⟨hreal, hsent, hlen⟩ := pop_sent_decomp _ _ _ hpop
  have hnvlt : nvid < st.nextVid := h.gwf.vidLt _ h.nv
  have hsrck : ∀ u ∈ st.graph.verts, u.vid = nvid → u.kind ≠ VKind.out := by
    intro u hu hc
    have : u = specVertex nvid spec :=
      List.inj_on_of_nodup_map h.gwf.nodupVids hu h.nv (by rw [hc]; rfl)
    rw [this]
    intro hk
    exact VKind.noConfusion hk
  have hfresh : ∀ u ∈ st.graph.verts, u.vid ≠ (mkOutVertex st.nextVid typ).vid := by
    intro u hu hc
    have := h.gwf.vidLt u hu
    have h2 : u.vid = st.nextVid := hc
    omega
  have hpass : (!(Option.some (mkOutVertex st.nextVid typ).vid ==
      Option.some nvid)) = true := by
    have : (mkOutVertex st.nextVid typ).vid = st.nextVid := rfl
    rw [this]
    simp only [Bool.not_eq_true']
    rw [beq_eq_false_iff_ne]
    intro hc
    have := Option.some.inj hc
    omega
  have hmem : mkOutVertex st.nextVid typ ∈ (st.graph.add (mkOutVertex st.nextVid typ)).verts := by
    rw [add_verts]
    exact List.mem_append_right _ (List.mem_singleton.mpr rfl)
  have hunb : dictFind ((st.graph.add (mkOutVertex st.nextVid typ)).argdeps
      (mkOutVertex st.nextVid typ).vid) OUT_KWD = Option.some Option.none := by
    rw [add_argdeps_self]
    exact dictFind_constRow_mem _ _ (by
      show OUT_KWD ∈ [(OUT_KWD, typ)].map Prod.fst
      rw [List.map_cons, List.map_nil]
      exact List.mem_singleton.mpr rfl)
  have hbind := unbound_bind (st.graph.add (mkOutVertex st.nextVid typ)) (Option.some nvid)
    nvid idx OUT_KWD typ (mkOutVertex st.nextVid typ) hmem
    (nodupVids_add h.gwf _ (Nat.le_refl _)) (List.mem_singleton.mpr rfl)
    (List.nodup_singleton _) hunb hpass
  rw [show (mkOutVertex st.nextVid typ).vid = st.nextVid from rfl] at hbind
  have haddf : ∀ t, unboundMsx (st.graph.add (mkOutVertex st.nextVid typ))
      (Option.some nvid) t = unboundMsx st.graph (Option.some nvid) t +
        (if typ = t then (((st.nextVid, OUT_KWD) : Nat × String) ::ₘ 0) else 0) := by
    intro t
    have hadd := unbound_add st.graph (mkOutVertex st.nextVid typ) (Option.some nvid) t hfresh
    rw [if_pos hpass] at hadd
    rw [hadd]
    congr 1
    show ((([(OUT_KWD, typ)] : List (String × PyType)).filterMap (fun p =>
      if p.2 = t then Option.some ((mkOutVertex st.nextVid typ).vid, p.1)
      else Option.none) : List (Nat × String)) : Multiset (Nat × String)) = _
    rw [List.filterMap_cons]
    by_cases ht : typ = t
    · rw [if_pos (show ((OUT_KWD, typ) : String × PyType).2 = t from ht), if_pos ht]
      rfl
    · rw [if_neg (show ¬ ((OUT_KWD, typ) : String × PyType).2 = t from ht), if_neg ht]
      rfl
  have hne' : ∀ i, i ≠ nvid → i ≠ st.nextVid →
      ((st.graph.add (mkOutVertex st.nextVid typ)).feed nvid idx st.nextVid
        OUT_KWD).adjacency i = st.graph.adjacency i := by
    intro i h1 h2
    rw [feed_adjacency_ne _ _ _ _ _ _ h1, add_adjacency_ne _ _ _ h2]
  refine ⟨?_, ?_, ?_, ?_, ?_, ?_, ?_, ?_⟩
  · exact GraphWF.addOutFeed h.gwf typ nvid idx (by omega) hsrck
  · intro u hu hk hne
    rw [feed_verts, add_verts] at hu
    rcases List.mem_append.mp hu with h1 | h1
    · show Option.none ∉ _
      rw [hne' u.vid hne (by
        intro hc
        have := h.gwf.vidLt u h1
        omega)]
      exact h.closed u h1 hk hne
    · exfalso
      rw [List.mem_singleton] at h1
      rw [h1] at hk
      rcases hk with h2 | h2 <;> exact VKind.noConfusion h2
  · show specVertex nvid spec ∈ _
    rw [feed_verts, add_verts]
    exact List.mem_append_left _ h.nv
  · intro p hp
    have e1 : ((st.graph.add (mkOutVertex st.nextVid typ)).feed nvid idx st.nextVid
        OUT_KWD).argdeps nvid = st.graph.argdeps nvid := by
      rw [feed_argdeps_ne _ _ _ _ _ _ (by omega), add_argdeps_ne _ _ _ (by
        show nvid ≠ (mkOutVertex st.nextVid typ).vid
        have : (mkOutVertex st.nextVid typ).vid = st.nextVid := rfl
        omega)]
    rw [e1] at hp
    exact h.nvRow p hp
  · intro t
    by_cases ht : t = typ
    · subst ht
      show (st.frontier.erase t).count t = (if t = t then restq else st.queues t).length
      rw [if_pos rfl, Multiset.count_erase_self]
      have := h.fcount t
      omega
    · show (st.frontier.erase typ).count t = (if t = typ then restq else st.queues t).length
      rw [if_neg ht, Multiset.count_erase_of_ne ht]
      exact h.fcount t
  · intro t
    by_cases ht : t = typ
    · subst ht
      show realMs (if t = t then restq else st.queues t) = _
      rw [if_pos rfl]
      have e1 := haddf t
      rw [if_pos rfl] at e1
      have e2 := hbind.1
      rw [e1] at e2
      have e3 : unboundMsx st.graph (Option.some nvid) t +
          (((st.nextVid, OUT_KWD) : Nat × String) ::ₘ 0) =
          ((st.nextVid, OUT_KWD) : Nat × String) ::ₘ unboundMsx st.graph (Option.some nvid) t := by
        rw [add_comm, Multiset.cons_add, zero_add]
      rw [e3] at e2
      have e4 := (Multiset.cons_inj_right _).mp e2
      rw [← e4, ← h.qmatch t, hreal]
    · show realMs (if t = typ then restq else st.queues t) = _
      rw [if_neg ht, hbind.2 t ht]
      have e1 := haddf t
      rw [if_neg (fun hc => ht hc.symm), add_zero] at e1
      rw [e1]
      exact h.qmatch t
  · intro t
    show countOutV _ t + sentCount (if t = typ then restq else st.queues t) = O.count t
    rw [countOutV_feed, countOutV_add]
    by_cases ht : t = typ
    · subst ht
      rw [if_pos rfl, if_pos ⟨rfl, rfl⟩]
      have := h.outCnt t
      omega
    · rw [if_neg ht, if_neg (fun hc => ht (by
        have h2 := hc.2
        have h3 : (mkOutVertex st.nextVid typ).outTypeF = TyVal.tup [typ] := rfl
        rw [h3] at h2
        injection h2 with h4
        injection h4 with h5 _
        exact h5.symm)), add_zero]
      exact h.outCnt t
  · show st.outputsHit + 1 +
      Finset.univ.sum (fun t => sentCount (if t = typ then restq else st.queues t)) = O.length
    have hsum := sum_sent_update st.queues typ restq
    have hst : sentTotal st = Finset.univ.sum (fun t => sentCount (st.queues t)) := rfl
    have hh := h.hitCnt
    rw [hst] at hh
    omega

/-- Attaching a sink to an output slot that served no request preserves the
mid-iteration invariant. -/
theorem mid_step_sink {KU : String → Prop} {O : List PyType} {spec : FuncSpec} {nvid : Nat}
    (st : CompSt) (typ : PyType) (idx : Nat)
    (h : MidInv KU O spec nvid st) :
    MidInv KU O spec nvid
      { st with
        graph := (st.graph.add (mkSinkVertex st.nextVid typ)).feed nvid idx st.nextVid SINK_KWD,
        nextVid := st.nextVid + 1 } := by
  have hnvlt : nvid < st.nextVid := h.gwf.vidLt _ h.nv
  have hsrck : ∀ u ∈ st.graph.verts, u.vid = nvid → u.kind ≠ VKind.out := by
    intro u hu hc
    have : u = specVertex nvid spec :=
      List.inj_on_of_nodup_map h.gwf.nodupVids hu h.nv (by rw [hc]; rfl)
    rw [this]
    intro hk
    exact VKind.noConfusion hk
  have hfresh : ∀ u ∈ st.graph.verts, u.vid ≠ (mkSinkVertex st.nextVid typ).vid := by
    intro u hu hc
    have := h.gwf.vidLt u hu
    have h2 : u.vid = st.nextVid := hc
    omega
  have hpass : (!(Option.some (mkSinkVertex st.nextVid typ).vid ==
      Option.some nvid)) = true := by
    have : (mkSinkVertex st.nextVid typ).vid = st.nextVid := rfl
    rw [this]
    simp only [Bool.not_eq_true']
    rw [beq_eq_false_iff_ne]
    intro hc
    have := Option.some.inj hc
    omega
  have hmem : mkSinkVertex st.nextVid typ ∈
      (st.graph.add (mkSinkVertex st.nextVid typ)).verts := by
    rw [add_verts]
    exact List.mem_append_right _ (List.mem_singleton.mpr rfl)
  have hunb : dictFind ((st.graph.add (mkSinkVertex st.nextVid typ)).argdeps
      (mkSinkVertex st.nextVid typ).vid) SINK_KWD = Option.some Option.none := by
    rw [add_argdeps_self]
    exact dictFind_constRow_mem _ _ (by
      show SINK_KWD ∈ [(SINK_KWD, typ)].map Prod.fst
      rw [List.map_cons, List.map_nil]
      exact List.mem_singleton.mpr rfl)
  have hbind := unbound_bind (st.graph.add (mkSinkVertex st.nextVid typ)) (Option.some nvid)
    nvid idx SINK_KWD typ (mkSinkVertex st.nextVid typ) hmem
    (nodupVids_add h.gwf _ (Nat.le_refl _)) (List.mem_singleton.mpr rfl)
    (List.nodup_singleton _) hunb hpass
  rw [show (mkSinkVertex st.nextVid typ).vid = st.nextVid from rfl] at hbind
  have haddf : ∀ t, unboundMsx (st.graph.add (mkSinkVertex st.nextVid typ))
      (Option.some nvid) t = unboundMsx st.graph (Option.some nvid) t +
        (if typ = t then (((st.nextVid, SINK_KWD) : Nat × String) ::ₘ 0) else 0) := by
    intro t
    have hadd := unbound_add st.graph (mkSinkVertex st.nextVid typ) (Option.some nvid) t hfresh
    rw [if_pos hpass] at hadd
    rw [hadd]
    congr 1
    show ((([(SINK_KWD, typ)] : List (String × PyType)).filterMap (fun p =>
      if p.2 = t then Option.some ((mkSinkVertex st.nextVid typ).vid, p.1)
      else Option.none) : List (Nat × String)) : Multiset (Nat × String)) = _
    rw [List.filterMap_cons]
    by_cases ht : typ = t
    · rw [if_pos (show ((SINK_KWD, typ) : String × PyType).2 = t from ht), if_pos ht]
      rfl
    · rw [if_neg (show ¬ ((SINK_KWD, typ) : String × PyType).2 = t from ht), if_neg ht]
      rfl
  have hne' : ∀ i, i ≠ nvid → i ≠ st.nextVid →
      ((st.graph.add (mkSinkVertex st.nextVid typ)).feed nvid idx st.nextVid
        SINK_KWD).adjacency i = st.graph.adjacency i := by
    intro i h1 h2
    rw [feed_adjacency_ne _ _ _ _ _ _ h1, add_adjacency_ne _ _ _ h2]
  refine ⟨?_, ?_, ?_, ?_, h.fcount, ?_, ?_, h.hitCnt⟩
  · exact GraphWF.addSinkFeed h.gwf typ nvid idx (by omega) hsrck
  · intro u hu hk hne
    rw [feed_verts, add_verts] at hu
    rcases List.mem_append.mp hu with h1 | h1
    · show Option.none ∉ _
      rw [hne' u.vid hne (by
        intro hc
        have := h.gwf.vidLt u h1
        omega)]
      exact h.closed u h1 hk hne
    · exfalso
      rw [List.mem_singleton] at h1
      rw [h1] at hk
      rcases hk with h2 | h2 <;> exact VKind.noConfusion h2
  · show specVertex nvid spec ∈ _
    rw [feed_verts, add_verts]
    exact List.mem_append_left _ h.nv
  · intro p hp
    have e1 : ((st.graph.add (mkSinkVertex st.nextVid typ)).feed nvid idx st.nextVid
        SINK_KWD).argdeps nvid = st.graph.argdeps nvid := by
      rw [feed_argdeps_ne _ _ _ _ _ _ (by omega), add_argdeps_ne _ _ _ (by
        show nvid ≠ (mkSinkVertex st.nextVid typ).vid
        have : (mkSinkVertex st.nextVid typ).vid = st.nextVid := rfl
        omega)]
    rw [e1] at hp
    exact h.nvRow p hp
  · intro t
    by_cases ht : t = typ
    · subst ht
      show realMs (st.queues t) = _
      have e1 := haddf t
      rw [if_pos rfl] at e1
      have e2 := hbind.1
      rw [e1] at e2
      have e3 : unboundMsx st.graph (Option.some nvid) t +
          (((st.nextVid, SINK_KWD) : Nat × String) ::ₘ 0) =
          ((st.nextVid, SINK_KWD) : Nat × String) ::ₘ
            unboundMsx st.graph (Option.some nvid) t := by
        rw [add_comm, Multiset.cons_add, zero_add]
      rw [e3] at e2
      have e4 := (Multiset.cons_inj_right _).mp e2
      rw [← e4]
      exact h.qmatch t
    · show realMs (st.queues t) = _
      rw [hbind.2 t ht]
      have e1 := haddf t
      rw [if_neg (fun hc => ht hc.symm), add_zero] at e1
      rw [e1]
      exact h.qmatch t
  · intro t
    show countOutV _ t + sentCount (st.queues t) = O.count t
    rw [countOutV_feed, countOutV_add, if_neg (fun hc => VKind.noConfusion hc.1), add_zero]
    exact h.outCnt t

/-- The output-slot service loop preserves the mid-iteration invariant, never
touches other slots of the new vertex, and leaves the served slot fed whenever
`used` comes out `true`. -/
theorem feedLoop_inv {KU : String → Prop} {O : List PyType} {spec : FuncSpec} {nvid : Nat}
    (idx : Nat) (typ : PyType) (hidx : idx < spec.out.length) :
    ∀ (k : Nat) (brs : List Bool) (fd : Nat) (used : Bool) (st : CompSt),
      MidInv KU O spec nvid st →
      (used = true → (st.graph.adjacency nvid).get? idx ≠ Option.some Option.none) →
      MidInv KU O spec nvid (feedLoop nvid idx typ k brs fd used st).1 ∧
      st.nextVid ≤ (feedLoop nvid idx typ k brs fd used st).1.nextVid ∧
      (feedLoop nvid idx typ k brs fd used st).1.depth = st.depth ∧
      (∀ j, j ≠ idx →
        ((feedLoop nvid idx typ k brs fd used st).1.graph.adjacency nvid).get? j =
          (st.graph.adjacency nvid).get? j) ∧
      ((feedLoop nvid idx typ k brs fd used st).2.2.1 = true →
        ((feedLoop nvid idx typ k brs fd used st).1.graph.adjacency nvid).get? idx ≠
          Option.some Option.none) := by
  intro k
  induction k with
  | zero =>
    intro brs fd used st h hused
    exact ⟨h, Nat.le_refl _, rfl, fun j _ => rfl, hused⟩
  | succ k ih =>
    intro brs fd used st h hused
    have hlen : (st.graph.adjacency nvid).length = spec.out.length := h.gwf.adjLen _ h.nv
    by_cases hfr : typ ∈ st.frontier
    · cases hpop : heapPopMin (st.queues typ) with
      | none =>
        simp only [feedLoop, if_pos hfr, hpop]
        exact ⟨h, Nat.le_refl _, by simp, by simp, hused⟩
      | some pr =>
        obtain ⟨⟨d, dst⟩, restq⟩ := pr
        cases dst with
        | some dk =>
          obtain ⟨dvid, kwd⟩ := dk
          have hmid2 := mid_step_real st typ idx d dvid kwd restq h hpop
          have hadj2 : (st.graph.feed nvid idx dvid kwd).adjacency nvid =
              (st.graph.adjacency nvid).set idx
                (Option.some ((((st.graph.adjacency nvid).get? idx).join.getD []) ++
                  [(dvid, kwd)])) := feed_adjacency_src _ _ _ _ _
          have hslot : ((st.graph.feed nvid idx dvid kwd).adjacency nvid).get? idx ≠
              Option.some Option.none := by
            rw [hadj2, List.get?_set_eq_of_lt _ (by omega)]
            intro hc
            exact Option.noConfusion (Option.some.inj hc)
          have hother : ∀ j, j ≠ idx →
              ((st.graph.feed nvid idx dvid kwd).adjacency nvid).get? j =
                (st.graph.adjacency nvid).get? j := by
            intro j hj
            rw [hadj2, List.get?_set_ne _ _ (Ne.symm hj)]
          simp only [feedLoop, if_pos hfr, hpop]
          cases brs with
          | nil =>
            exact ⟨hmid2, Nat.le_refl _, by simp, hother, fun _ => hslot⟩
          | cons b brs2 =>
            cases b with
            | true =>
              simp only [if_pos rfl]
              exact ⟨hmid2, Nat.le_refl _, by simp, hother, fun _ => hslot⟩
            | false =>
              simp only [Bool.false_eq_true, if_false]
              obtain ⟨r1, r2, r3, r4, r5⟩ := ih brs2 (max fd (d + 1)) true _ hmid2
                (fun _ => hslot)
              exact ⟨r1, r2, r3, fun j hj => (r4 j hj).trans (hother j hj), r5⟩
        | none =>
          have hmid2 := mid_step_sent st typ idx d restq h hpop
          have hnvlt : nvid < st.nextVid := h.gwf.vidLt _ h.nv
          have hadd : (st.graph.add (mkOutVertex st.nextVid typ)).adjacency nvid =
              st.graph.adjacency nvid := add_adjacency_ne _ _ _ (by
                show nvid ≠ (mkOutVertex st.nextVid typ).vid
                have : (mkOutVertex st.nextVid typ).vid = st.nextVid := rfl
                omega)
          have hadj2 : ((st.graph.add (mkOutVertex st.nextVid typ)).feed nvid idx
              (mkOutVertex st.nextVid typ).vid OUT_KWD).adjacency nvid =
              (st.graph.adjacency nvid).set idx
                (Option.some ((((st.graph.adjacency nvid).get? idx).join.getD []) ++
                  [((mkOutVertex st.nextVid typ).vid, OUT_KWD)])) := by
            rw [feed_adjacency_src, hadd]
          have hslot : (((st.graph.add (mkOutVertex st.nextVid typ)).feed nvid idx
              (mkOutVertex st.nextVid typ).vid OUT_KWD).adjacency nvid).get? idx ≠
              Option.some Option.none := by
            rw [hadj2, List.get?_set_eq_of_lt _ (by omega)]
            intro hc
            exact Option.noConfusion (Option.some.inj hc)
          have hother : ∀ j, j ≠ idx →
              (((st.graph.add (mkOutVertex st.nextVid typ)).feed nvid idx
                (mkOutVertex st.nextVid typ).vid OUT_KWD).adjacency nvid).get? j =
                (st.graph.adjacency nvid).get? j := by
            intro j hj
            rw [hadj2, List.get?_set_ne _ _ (Ne.symm hj)]
          simp only [feedLoop, if_pos hfr, hpop]
          cases brs with
          | nil =>
            exact ⟨hmid2, Nat.le_succ _, by simp, hother, fun _ => hslot⟩
          | cons b brs2 =>
            cases b with
            | true =>
              simp only [if_pos rfl]
              exact ⟨hmid2, Nat.le_succ _, by simp, hother, fun _ => hslot⟩
            | false =>
              simp only [Bool.false_eq_true, if_false]
              obtain ⟨r1, r2, r3, r4, r5⟩ := ih brs2 (max fd (d + 1)) true _ hmid2
                (fun _ => hslot)
              exact ⟨r1, Nat.le_trans (Nat.le_succ _) r2, r3,
                fun j hj => (r4 j hj).trans (hother j hj), r5⟩
    · simp only [feedLoop, if_neg hfr]
      exact ⟨h, Nat.le_refl _, by simp, by simp, hused⟩

/-- The output loop of one iteration preserves the mid-iteration invariant and
leaves every processed slot of the new vertex fed (by a request or a sink). -/
theorem outSlots_inv {KU : String → Prop} {O : List PyType} {spec : FuncSpec} {nvid : Nat} :
    ∀ (slots : List (Nat × PyType)) (brs : List Bool) (fd : Nat) (st : CompSt),
      MidInv KU O spec nvid st →
      (∀ p ∈ slots, p.1 < spec.out.length) →
      (slots.map Prod.fst).Nodup →
      MidInv KU O spec nvid (outSlots nvid slots brs fd st).1 ∧
      st.nextVid ≤ (outSlots nvid slots brs fd st).1.nextVid ∧
      (outSlots nvid slots brs fd st).1.depth = st.depth ∧
      (∀ j, j ∉ slots.map Prod.fst →
        ((outSlots nvid slots brs fd st).1.graph.adjacency nvid).get? j =
          (st.graph.adjacency nvid).get? j) ∧
      (∀ p ∈ slots, ((outSlots nvid slots brs fd st).1.graph.adjacency nvid).get? p.1 ≠
        Option.some Option.none) := by
  intro slots
  induction slots with
  | nil =>
    intro brs fd st h _ _
    exact ⟨h, Nat.le_refl _, rfl, fun j _ => rfl, fun p hp => absurd hp (List.not_mem_nil p)⟩
  | cons hd rest ih =>
    obtain ⟨idx, typ⟩ := hd
    intro brs fd st h hbound hnd
    have hidx : idx < spec.out.length := hbound (idx, typ) (List.mem_cons_self _ _)
    obtain ⟨f1, f2, f3, f4, f5⟩ := feedLoop_inv idx typ hidx (st.frontier.count typ) brs fd
      false st h (fun hc => absurd hc Bool.false_ne_true)
    rcases hF : feedLoop nvid idx typ (st.frontier.count typ) brs fd false st with
      ⟨st1, fd1, used, brs1⟩
    rw [hF] at f1 f2 f3 f4 f5
    dsimp only at f1 f2 f3 f4 f5
    have hndr : (rest.map Prod.fst).Nodup := by
      rw [List.map_cons] at hnd
      exact (List.nodup_cons.mp hnd).2
    have hidxnr : idx ∉ rest.map Prod.fst := by
      rw [List.map_cons] at hnd
      exact (List.nodup_cons.mp hnd).1
    have hboundr : ∀ p ∈ rest, p.1 < spec.out.length :=
      fun p hp => hbound p (List.mem_cons_of_mem _ hp)
    cases used with
    | true =>
      obtain ⟨o1, o2, o3, o4, o5⟩ := ih brs1 fd1 st1 f1 hboundr hndr
      have hred : outSlots nvid ((idx, typ) :: rest) brs fd st =
          outSlots nvid rest brs1 fd1 st1 := by
        simp [outSlots, hF]
      rw [hred]
      refine ⟨o1, Nat.le_trans f2 o2, o3.trans f3, ?_, ?_⟩
      · intro j hj
        rw [List.map_cons, List.mem_cons] at hj
        push_neg at hj
        exact (o4 j hj.2).trans (f4 j hj.1)
      · intro p hp
        rcases List.mem_cons.mp hp with h1 | h1
        · rw [h1]
          show ((outSlots nvid rest brs1 fd1 st1).1.graph.adjacency nvid).get? idx ≠
            Option.some Option.none
          rw [o4 idx hidxnr]
          exact f5 rfl
        · exact o5 p h1
    | false =>
      have hmid' := mid_step_sink st1 typ idx f1
      have hlen1 : (st1.graph.adjacency nvid).length = spec.out.length :=
        f1.gwf.adjLen _ f1.nv
      have hnvlt1 : nvid < st1.nextVid := f1.gwf.vidLt _ f1.nv
      have hadd : (st1.graph.add (mkSinkVertex st1.nextVid typ)).adjacency nvid =
          st1.graph.adjacency nvid := add_adjacency_ne _ _ _ (by
            show nvid ≠ (mkSinkVertex st1.nextVid typ).vid
            have : (mkSinkVertex st1.nextVid typ).vid = st1.nextVid := rfl
            omega)
      have hadj2 : ((st1.graph.add (mkSinkVertex st1.nextVid typ)).feed nvid idx
          (mkSinkVertex st1.nextVid typ).vid SINK_KWD).adjacency nvid =
          (st1.graph.adjacency nvid).set idx
            (Option.some ((((st1.graph.adjacency nvid).get? idx).join.getD []) ++
              [((mkSinkVertex st1.nextVid typ).vid, SINK_KWD)])) := by
        rw [feed_adjacency_src, hadd]
      have hslot : (((st1.graph.add (mkSinkVertex st1.nextVid typ)).feed nvid idx
          (mkSinkVertex st1.nextVid typ).vid SINK_KWD).adjacency nvid).get? idx ≠
          Option.some Option.none := by
        rw [hadj2, List.get?_set_eq_of_lt _ (by omega)]
        intro hc
        exact Option.noConfusion (Option.some.inj hc)
      have hother : ∀ j, j ≠ idx →
          (((st1.graph.add (mkSinkVertex st1.nextVid typ)).feed nvid idx
            (mkSinkVertex st1.nextVid typ).vid SINK_KWD).adjacency nvid).get? j =
            (st1.graph.adjacency nvid).get? j := by
        intro j hj
        rw [hadj2, List.get?_set_ne _ _ (Ne.symm hj)]
      obtain ⟨o1, o2, o3, o4, o5⟩ := ih brs1 fd1 _ hmid' hboundr hndr
      have hred : outSlots nvid ((idx, typ) :: rest) brs fd st =
          outSlots nvid rest brs1 fd1
            { st1 with
              graph := (st1.graph.add (mkSinkVertex st1.nextVid typ)).feed nvid idx
                st1.nextVid SINK_KWD,
              nextVid := st1.nextVid + 1 } := by
        simp only [outSlots, hF]
        rfl
      rw [hred]
      refine ⟨o1, ?_, ?_, ?_, ?_⟩
      · refine Nat.le_trans f2 (Nat.le_trans (Nat.le_succ _) ?_)
        exact o2
      · exact o3.trans f3
      · intro j hj
        rw [List.map_cons, List.mem_cons] at hj
        push_neg at hj
        exact (o4 j hj.2).trans ((hother j hj.1).trans (f4 j hj.1))
      · intro p hp
        rcases List.mem_cons.mp hp with h1 | h1
        · rw [h1]
          show (_ : Option _) ≠ _
          rw [o4 idx hidxnr]
          exact hslot
        · exact o5 p h1

theorem regInputs_fixed (vid fd : Nat) : ∀ (l : List (String × PyType)) (st : CompSt),
    (regInputs vid fd l st).graph = st.graph ∧
    (regInputs vid fd l st).outputsHit = st.outputsHit ∧
    (regInputs vid fd l st).depth = st.depth ∧
    (regInputs vid fd l st).nextVid = st.nextVid := by
  intro l
  induction l with
  | nil => intro st; exact ⟨rfl, rfl, rfl, rfl⟩
  | cons p rest ih =>
    intro st
    obtain ⟨p1, p2⟩ := p
    exact ih _

theorem regInputs_frontier (vid fd : Nat) : ∀ (l : List (String × PyType)) (st : CompSt),
    (regInputs vid fd l st).frontier = st.frontier + ↑(l.map Prod.snd) := by
  intro l
  induction l with
  | nil =>
    intro st
    show st.frontier = st.frontier + ↑([] : List PyType)
    rw [Multiset.coe_nil, add_zero]
  | cons p rest ih =>
    intro st
    obtain ⟨kwd, typ⟩ := p
    show (regInputs vid fd rest _).frontier = _
    rw [ih]
    show typ ::ₘ st.frontier + ↑(rest.map Prod.snd) = _
    rw [List.map_cons, ← Multiset.cons_coe, Multiset.cons_add, Multiset.add_cons]

theorem regInputs_queues (vid fd : Nat) : ∀ (l : List (String × PyType)) (st : CompSt)
    (t : PyType),
    (regInputs vid fd l st).queues t = st.queues t ++
      ((l.filter (fun p => p.2 = t)).map
        (fun p => ((fd, Option.some (vid, p.1)) : QEntry)) : List QEntry) := by
  intro l
  induction l with
  | nil =>
    intro st t
    show st.queues t = st.queues t ++ _
    rw [List.filter_nil, List.map_nil, List.append_nil]
  | cons p rest ih =>
    intro st t
    obtain ⟨kwd, typ⟩ := p
    show (regInputs vid fd rest _).queues t = _
    rw [ih]
    show (if t = typ then heapPush (st.queues t) (fd, Option.some (vid, kwd))
      else st.queues t) ++ _ = _
    rw [List.filter_cons]
    by_cases ht : typ = t
    · rw [if_pos (by rw [← ht]), if_pos (show (decide (((kwd, typ) :
        String × PyType).2 = t)) = true by rw [decide_eq_true_eq]; exact ht)]
      rw [List.map_cons]
      show heapPush (st.queues t) _ ++ _ = _
      rw [heapPush, List.append_assoc]
      rfl
    · rw [if_neg (fun hc => ht hc.symm), if_neg (by
        rw [decide_eq_true_eq]
        exact ht)]

theorem count_map_eq_filter_length {α β : Type} [DecidableEq β] (f : α → β) (b : β) :
    ∀ l : List α, (l.map f).count b = (l.filter (fun x => f x = b)).length := by
  intro l
  induction l with
  | nil => rfl
  | cons a rest ih =>
    rw [List.map_cons, List.filter_cons]
    by_cases h : f a = b
    · simp [h, List.count_cons, ih]
    · simp [h, List.count_cons, ih]

theorem filterMap_some_map {α β : Type} (f : α → β) : ∀ l : List α,
    l.filterMap (fun a => Option.some (f a)) = l.map f := by
  intro l
  induction l with
  | nil => rfl
  | cons a rest ih => simp [List.filterMap_cons, ih]

theorem realMs_reals (vid fd : Nat) (l : List (String × PyType)) :
    realMs (l.map (fun p => ((fd, Option.some (vid, p.1)) : QEntry))) =
      ↑(l.map (fun p => (vid, p.1))) := by
  show ((List.filterMap (fun e : QEntry => e.2) _ : List (Nat × String)) :
    Multiset (Nat × String)) = _
  rw [List.filterMap_map]
  congr 1
  show List.filterMap (fun p => Option.some (vid, p.1)) l = _
  exact filterMap_some_map (fun p => (vid, p.1)) l

theorem sentCount_reals (vid fd : Nat) (l : List (String × PyType)) :
    sentCount (l.map (fun p => ((fd, Option.some (vid, p.1)) : QEntry))) = 0 := by
  show (List.filter _ _).length = 0
  rw [List.length_eq_zero, List.filter_eq_nil]
  intro e he
  obtain ⟨p, _, hpe⟩ := List.mem_map.mp he
  rw [← hpe]
  simp

theorem filter_map_eq_filterMap_if (t : PyType) (vid : Nat) (l : List (String × PyType)) :
    ((l.filter (fun p => p.2 = t)).map (fun p => (vid, p.1))) =
      l.filterMap (fun p => if p.2 = t then Option.some (vid, p.1) else Option.none) := by
  induction l with
  | nil => rfl
  | cons p rest ih =>
    rw [List.filter_cons, List.filterMap_cons]
    by_cases h : p.2 = t
    · rw [if_pos (by rw [decide_eq_true_eq]; exact h), if_pos h, List.map_cons, ih]
    · rw [if_neg (by rw [decide_eq_true_eq]; exact h), if_neg h, ih]

/-- Registering the new vertex's inputs on the frontier and queues restores the
between-iterations invariant, provided every slot of the new vertex has been
closed by the output loop. -/
theorem synth_of_reg {KU : String → Prop} {O : List PyType} {spec : FuncSpec} {nvid : Nat}
    (st : CompSt) (fd : Nat)
    (h : MidInv KU O spec nvid st)
    (hclosed : Option.none ∉ st.graph.adjacency nvid) :
    SynthInv KU O (regInputs nvid fd spec.inp st) := by
  obtain ⟨hg, hoh, hdp, hnx⟩ := regInputs_fixed nvid fd spec.inp st
  have hfr := regInputs_frontier nvid fd spec.inp st
  have hq := regInputs_queues nvid fd spec.inp st
  have hunmask := unboundMsx_unmask st.graph (specVertex nvid spec)
  refine ⟨?_, ?_, ?_, ?_, ?_, ?_⟩
  · rw [hg, hnx]
    exact h.gwf
  · intro v hv hk
    rw [hg] at hv ⊢
    by_cases hvn : v.vid = nvid
    · have : v = specVertex nvid spec :=
        List.inj_on_of_nodup_map h.gwf.nodupVids hv h.nv (by rw [hvn]; rfl)
      rw [hvn]
      exact hclosed
    · exact h.closed v hv hk hvn
  · intro t
    rw [hfr, hq, Multiset.count_add, List.length_append, List.length_map]
    rw [Multiset.coe_count, count_map_eq_filter_length]
    have := h.fcount t
    omega
  · intro t
    rw [hq, hg, realMs_append, realMs_reals]
    have hu := hunmask t h.nv h.gwf.nodupVids (h.gwf.argKeys _ h.nv) h.nvRow
    show realMs (st.queues t) + _ = unboundMs st.graph t
    rw [unboundMs, hu, h.qmatch t]
    congr 1
    rw [filter_map_eq_filterMap_if]
    rfl
  · intro t
    rw [hg, hq, sentCount_append, sentCount_reals, add_zero]
    exact h.outCnt t
  · rw [hoh]
    have : sentTotal (regInputs nvid fd spec.inp st) = sentTotal st := by
      show Finset.univ.sum _ = Finset.univ.sum _
      refine Finset.sum_congr rfl ?_
      intro t _
      rw [hq, sentCount_append, sentCount_reals, add_zero]
    rw [this]
    exact h.hitCnt

/-- Closing one pending request with a constant vertex fed into a consumer
preserves the between-iterations invariant. -/
theorem synth_step_const_real {KU : String → Prop} {O : List PyType}
    (st : CompSt) (typ : PyType) (value : PyVal) (d dvid : Nat) (kwd : String)
    (restq : List QEntry)
    (h : SynthInv KU O st)
    (hpop : heapPopMin (st.queues typ) = Option.some ((d, Option.some (dvid, kwd)), restq)) :
    SynthInv KU O
      { st with
        frontier := st.frontier.erase typ,
        queues := fun t => if t = typ then restq else st.queues t,
        graph := (st.graph.add (mkConstVertex st.nextVid value)).feed st.nextVid 0 dvid kwd,
        nextVid := st.nextVid + 1 } := by
  obtain ⟨hreal, hsent, hlen⟩ := pop_real_decomp _ _ _ _ _ hpop
  have hmemq : (dvid, kwd) ∈ unboundMsx st.graph Option.none typ := by
    have := h.qmatch typ
    rw [unboundMs] at this
    rw [← this, hreal]
    exact Multiset.mem_cons_self _ _
  obtain ⟨v, hvmem, _, hvid, hkey, hunb⟩ := unbound_mem_elim _ _ _ _ _ hmemq
  have hdvlt : dvid < st.nextVid := by
    have := h.gwf.vidLt v hvmem
    omega
  have hgwf1 : GraphWF KU (st.graph.add (mkConstVertex st.nextVid value))
      (st.nextVid + 1) :=
    GraphWF.addFC h.gwf _ rfl (Or.inr rfl) List.nodup_nil
      (fun hc => VKind.noConfusion hc) (fun _ => rfl)
  have hsrck : ∀ u ∈ (st.graph.add (mkConstVertex st.nextVid value)).verts,
      u.vid = st.nextVid → u.kind ≠ VKind.out := by
    intro u hu hc
    rw [add_verts] at hu
    rcases List.mem_append.mp hu with h1 | h1
    · exfalso
      have := h.gwf.vidLt u h1
      omega
    · rw [List.mem_singleton] at h1
      rw [h1]
      intro hk
      exact VKind.noConfusion hk
  have hvmem1 : v ∈ (st.graph.add (mkConstVertex st.nextVid value)).verts := by
    rw [add_verts]
    exact List.mem_append_left _ hvmem
  have hunb1 : dictFind ((st.graph.add (mkConstVertex st.nextVid value)).argdeps v.vid)
      kwd = Option.some Option.none := by
    rw [add_argdeps_ne _ _ _ (by
      show v.vid ≠ (mkConstVertex st.nextVid value).vid
      have h2 : (mkConstVertex st.nextVid value).vid = st.nextVid := rfl
      omega)]
    rw [hvid]
    exact hunb
  have hbind := unbound_bind (st.graph.add (mkConstVertex st.nextVid value)) Option.none
    st.nextVid 0 kwd typ v hvmem1 (nodupVids_add h.gwf _ (Nat.le_refl _)) hkey
    (h.gwf.kwdNodup v hvmem) hunb1 rfl
  rw [hvid] at hbind
  have haddz : ∀ t, unboundMsx (st.graph.add (mkConstVertex st.nextVid value))
      Option.none t = unboundMsx st.graph Option.none t := by
    intro t
    have hfresh : ∀ u ∈ st.graph.verts, u.vid ≠ (mkConstVertex st.nextVid value).vid := by
      intro u hu hc
      have := h.gwf.vidLt u hu
      have h2 : (mkConstVertex st.nextVid value).vid = st.nextVid := rfl
      omega
    have hadd := unbound_add st.graph (mkConstVertex st.nextVid value) Option.none t hfresh
    rw [if_pos (show (!(Option.some (mkConstVertex st.nextVid value).vid ==
      (Option.none : Option Nat))) = true from rfl)] at hadd
    rw [hadd]
    show _ + ((([] : List (String × PyType)).filterMap _ : List (Nat × String)) :
      Multiset (Nat × String)) = _
    rw [List.filterMap_nil, Multiset.coe_nil, add_zero]
  refine ⟨?_, ?_, ?_, ?_, ?_, ?_⟩
  · exact GraphWF.feed hgwf1 st.nextVid 0 dvid kwd hsrck
  · intro u hu hk
    rw [feed_verts, add_verts] at hu
    rcases List.mem_append.mp hu with h1 | h1
    · have hune : u.vid ≠ st.nextVid := by
        have := h.gwf.vidLt u h1
        omega
      show Option.none ∉ _
      rw [feed_adjacency_ne _ _ _ _ _ _ hune, add_adjacency_ne _ _ _ hune]
      exact h.closed u h1 hk
    · rw [List.mem_singleton] at h1
      rw [h1]
      show Option.none ∉ ((st.graph.add (mkConstVertex st.nextVid value)).feed
        st.nextVid 0 dvid kwd).adjacency (mkConstVertex st.nextVid value).vid
      have hv2 : (mkConstVertex st.nextVid value).vid = st.nextVid := rfl
      rw [hv2, feed_adjacency_src]
      rw [show (st.graph.add (mkConstVertex st.nextVid value)).adjacency st.nextVid =
        List.replicate 1 Option.none from add_adjacency_self st.graph _]
      intro hc
      rw [show (List.replicate 1 (Option.none : Option (List (Nat × String)))).set 0
        (Option.some ((((List.replicate 1 (Option.none : Option (List (Nat × String)))).get?
          0).join.getD []) ++ [(dvid, kwd)])) = [Option.some ([] ++ [(dvid, kwd)])]
        from rfl] at hc
      rw [List.mem_singleton] at hc
      exact Option.noConfusion hc
  · intro t
    by_cases ht : t = typ
    · subst ht
      show (st.frontier.erase t).count t = (if t = t then restq else st.queues t).length
      rw [if_pos rfl, Multiset.count_erase_self]
      have := h.fcount t
      omega
    · show (st.frontier.erase typ).count t = (if t = typ then restq else st.queues t).length
      rw [if_neg ht, Multiset.count_erase_of_ne ht]
      exact h.fcount t
  · intro t
    by_cases ht : t = typ
    · subst ht
      show realMs (if t = t then restq else st.queues t) = unboundMs _ t
      rw [if_pos rfl, unboundMs]
      have h1 : (dvid, kwd) ::ₘ realMs restq =
          (dvid, kwd) ::ₘ unboundMsx ((st.graph.add (mkConstVertex st.nextVid value)).feed
            st.nextVid 0 dvid kwd) Option.none t := by
        rw [← hreal]
        have h2 := h.qmatch t
        rw [unboundMs] at h2
        rw [h2, ← haddz t, hbind.1]
      exact (Multiset.cons_inj_right _).mp h1
    · show realMs (if t = typ then restq else st.queues t) = unboundMs _ t
      rw [if_neg ht, unboundMs, hbind.2 t ht, haddz t]
      have h2 := h.qmatch t
      rw [unboundMs] at h2
      exact h2
  · intro t
    show countOutV _ t + sentCount (if t = typ then restq else st.queues t) = O.count t
    rw [countOutV_feed, countOutV_add, if_neg (fun hc => VKind.noConfusion hc.1), add_zero]
    by_cases ht : t = typ
    · subst ht
      rw [if_pos rfl, ← hsent]
      exact h.outCnt t
    · rw [if_neg ht]
      exact h.outCnt t
  · show st.outputsHit +
      Finset.univ.sum (fun t => sentCount (if t = typ then restq else st.queues t)) = O.length
    have hsum := sum_sent_update st.queues typ restq
    have hst : sentTotal st = Finset.univ.sum (fun t => sentCount (st.queues t)) := rfl
    have hh := h.hitCnt
    rw [hst] at hh
    omega

/-- Closing the final-output sentinel with a constant vertex fed into a fresh
output marker preserves the between-iterations invariant. -/
theorem synth_step_const_sent {KU : String → Prop} {O : List PyType}
    (st : CompSt) (typ : PyType) (value : PyVal) (d : Nat) (restq : List QEntry)
    (h : SynthInv KU O st)
    (hpop : heapPopMin (st.queues typ) = Option.some ((d, Option.none), restq)) :
    SynthInv KU O
      { st with
        frontier := st.frontier.erase typ,
        queues := fun t => if t = typ then restq else st.queues t,
        graph := ((st.graph.add (mkConstVertex st.nextVid value)).add
          (mkOutVertex (st.nextVid + 1) typ)).feed st.nextVid 0 (st.nextVid + 1) OUT_KWD,
        outputsHit := st.outputsHit + 1,
        nextVid := st.nextVid + 2 } := by
  obtain ⟨hreal, hsent, hlen⟩ := pop_sent_decomp _ _ _ hpop
  have hgwf1 : GraphWF KU (st.graph.add (mkConstVertex st.nextVid value))
      (st.nextVid + 1) :=
    GraphWF.addFC h.gwf _ rfl (Or.inr rfl) List.nodup_nil
      (fun hc => VKind.noConfusion hc) (fun _ => rfl)
  have hsrck : ∀ u ∈ (st.graph.add (mkConstVertex st.nextVid value)).verts,
      u.vid = st.nextVid → u.kind ≠ VKind.out := by
    intro u hu hc
    rw [add_verts] at hu
    rcases List.mem_append.mp hu with h1 | h1
    · exfalso
      have := h.gwf.vidLt u h1
      omega
    · rw [List.mem_singleton] at h1
      rw [h1]
      intro hk
      exact VKind.noConfusion hk
  have haddz : ∀ t, unboundMsx (st.graph.add (mkConstVertex st.nextVid value))
      Option.none t = unboundMsx st.graph Option.none t := by
    intro t
    have hfresh : ∀ u ∈ st.graph.verts, u.vid ≠ (mkConstVertex st.nextVid value).vid := by
      intro u hu hc
      have := h.gwf.vidLt u hu
      have h2 : (mkConstVertex st.nextVid value).vid = st.nextVid := rfl
      omega
    have hadd := unbound_add st.graph (mkConstVertex st.nextVid value) Option.none t hfresh
    rw [if_pos (show (!(Option.some (mkConstVertex st.nextVid value).vid ==
      (Option.none : Option Nat))) = true from rfl)] at hadd
    rw [hadd]
    show _ + ((([] : List (String × PyType)).filterMap _ : List (Nat × String)) :
      Multiset (Nat × String)) = _
    rw [List.filterMap_nil, Multiset.coe_nil, add_zero]
  have hfresh1 : ∀ u ∈ (st.graph.add (mkConstVertex st.nextVid value)).verts,
      u.vid ≠ (mkOutVertex (st.nextVid + 1) typ).vid := by
    intro u hu hc
    have := hgwf1.vidLt u hu
    have h2 : (mkOutVertex (st.nextVid + 1) typ).vid = st.nextVid + 1 := rfl
    omega
  have haddo : ∀ t, unboundMsx ((st.graph.add (mkConstVertex st.nextVid value)).add
      (mkOutVertex (st.nextVid + 1) typ)) Option.none t =
      unboundMsx (st.graph.add (mkConstVertex st.nextVid value)) Option.none t +
        (if typ = t then (((st.nextVid + 1, OUT_KWD) : Nat × String) ::ₘ 0) else 0) := by
    intro t
    have hadd := unbound_add (st.graph.add (mkConstVertex st.nextVid value))
      (mkOutVertex (st.nextVid + 1) typ) Option.none t hfresh1
    rw [if_pos (show (!(Option.some (mkOutVertex (st.nextVid + 1) typ).vid ==
      (Option.none : Option Nat))) = true from rfl)] at hadd
    rw [hadd]
    congr 1
    show ((([(OUT_KWD, typ)] : List (String × PyType)).filterMap (fun p =>
      if p.2 = t then Option.some ((mkOutVertex (st.nextVid + 1) typ).vid, p.1)
      else Option.none) : List (Nat × String)) : Multiset (Nat × String)) = _
    rw [List.filterMap_cons]
    by_cases ht : typ = t
    · rw [if_pos (show ((OUT_KWD, typ) : String × PyType).2 = t from ht), if_pos ht]
      rfl
    · rw [if_neg (show ¬ ((OUT_KWD, typ) : String × PyType).2 = t from ht), if_neg ht]
      rfl
  have hmemo : mkOutVertex (st.nextVid + 1) typ ∈
      ((st.graph.add (mkConstVertex st.nextVid value)).add
        (mkOutVertex (st.nextVid + 1) typ)).verts := by
    rw [add_verts]
    exact List.mem_append_right _ (List.mem_singleton.mpr rfl)
  have hunbo : dictFind (((st.graph.add (mkConstVertex st.nextVid value)).add
      (mkOutVertex (st.nextVid + 1) typ)).argdeps (mkOutVertex (st.nextVid + 1) typ).vid)
      OUT_KWD = Option.some Option.none := by
    rw [add_argdeps_self]
    exact dictFind_constRow_mem _ _ (by
      show OUT_KWD ∈ [(OUT_KWD, typ)].map Prod.fst
      rw [List.map_cons, List.map_nil]
      exact List.mem_singleton.mpr rfl)
  have hbind := unbound_bind ((st.graph.add (mkConstVertex st.nextVid value)).add
      (mkOutVertex (st.nextVid + 1) typ)) Option.none st.nextVid 0 OUT_KWD typ
    (mkOutVertex (st.nextVid + 1) typ) hmemo
    (nodupVids_add hgwf1 _ (Nat.le_refl _)) (List.mem_singleton.mpr rfl)
    (List.nodup_singleton _) hunbo rfl
  rw [show (mkOutVertex (st.nextVid + 1) typ).vid = st.nextVid + 1 from rfl] at hbind
  refine ⟨?_, ?_, ?_, ?_, ?_, ?_⟩
  · exact GraphWF.addOutFeed hgwf1 typ st.nextVid 0 (by omega) hsrck
  · intro u hu hk
    rw [feed_verts, add_verts, add_verts] at hu
    rcases List.mem_append.mp hu with h1 | h1
    · rcases List.mem_append.mp h1 with h2 | h2
      · have hune1 : u.vid ≠ st.nextVid := by
          have := h.gwf.vidLt u h2
          omega
        have hune2 : u.vid ≠ st.nextVid + 1 := by
          have := h.gwf.vidLt u h2
          omega
        show Option.none ∉ _
        rw [feed_adjacency_ne _ _ _ _ _ _ hune1, add_adjacency_ne _ _ _ hune2,
          add_adjacency_ne _ _ _ hune1]
        exact h.closed u h2 hk
      · rw [List.mem_singleton] at h2
        rw [h2]
        show Option.none ∉ (((st.graph.add (mkConstVertex st.nextVid value)).add
          (mkOutVertex (st.nextVid + 1) typ)).feed st.nextVid 0 (st.nextVid + 1)
            OUT_KWD).adjacency (mkConstVertex st.nextVid value).vid
        have hv2 : (mkConstVertex st.nextVid value).vid = st.nextVid := rfl
        rw [hv2, feed_adjacency_src]
        rw [show ((st.graph.add (mkConstVertex st.nextVid value)).add
          (mkOutVertex (st.nextVid + 1) typ)).adjacency st.nextVid =
          (st.graph.add (mkConstVertex st.nextVid value)).adjacency st.nextVid
          from add_adjacency_ne _ _ _ (by
            have : (mkOutVertex (st.nextVid + 1) typ).vid = st.nextVid + 1 := rfl
            omega)]
        rw [show (st.graph.add (mkConstVertex st.nextVid value)).adjacency st.nextVid =
          List.replicate 1 Option.none from add_adjacency_self st.graph _]
        intro hc
        rw [show (List.replicate 1 (Option.none : Option (List (Nat × String)))).set 0
          (Option.some ((((List.replicate 1 (Option.none :
            Option (List (Nat × String)))).get? 0).join.getD []) ++
              [(st.nextVid + 1, OUT_KWD)])) = [Option.some ([] ++ [(st.nextVid + 1, OUT_KWD)])]
          from rfl] at hc
        rw [List.mem_singleton] at hc
        exact Option.noConfusion hc
    · exfalso
      rw [List.mem_singleton] at h1
      rw [h1] at hk
      rcases hk with h2 | h2 <;> exact VKind.noConfusion h2
  · intro t
    by_cases ht : t = typ
    · subst ht
      show (st.frontier.erase t).count t = (if t = t then restq else st.queues t).length
      rw [if_pos rfl, Multiset.count_erase_self]
      have := h.fcount t
      omega
    · show (st.frontier.erase typ).count t = (if t = typ then restq else st.queues t).length
      rw [if_neg ht, Multiset.count_erase_of_ne ht]
      exact h.fcount t
  · intro t
    by_cases ht : t = typ
    · subst ht
      show realMs (if t = t then restq else st.queues t) = unboundMs _ t
      rw [if_pos rfl, unboundMs]
      have e1 := haddo t
      rw [if_pos rfl] at e1
      have e2 := hbind.1
      rw [e1, haddz t] at e2
      have e3 : unboundMsx st.graph Option.none t +
          (((st.nextVid + 1, OUT_KWD) : Nat × String) ::ₘ 0) =
          ((st.nextVid + 1, OUT_KWD) : Nat × String) ::ₘ
            unboundMsx st.graph Option.none t := by
        rw [add_comm, Multiset.cons_add, zero_add]
      rw [e3] at e2
      have e4 := (Multiset.cons_inj_right _).mp e2
      rw [← e4, ← hreal]
      have h2 := h.qmatch t
      rw [unboundMs] at h2
      exact h2
    · show realMs (if t = typ then restq else st.queues t) = unboundMs _ t
      rw [if_neg ht, unboundMs, hbind.2 t ht]
      have e1 := haddo t
      rw [if_neg (fun hc => ht hc.symm), add_zero] at e1
      rw [e1, haddz t]
      have h2 := h.qmatch t
      rw [unboundMs] at h2
      exact h2
  · intro t
    show countOutV _ t + sentCount (if t = typ then restq else st.queues t) = O.count t
    rw [countOutV_feed, countOutV_add, countOutV_add,
      if_neg (fun hc => VKind.noConfusion hc.1), add_zero]
    by_cases ht : t = typ
    · subst ht
      rw [if_pos rfl, if_pos ⟨rfl, rfl⟩]
      have := h.outCnt t
      omega
    · rw [if_neg ht, if_neg (fun hc => ht (by
        have h2 := hc.2
        have h3 : (mkOutVertex (st.nextVid + 1) typ).outTypeF = TyVal.tup [typ] := rfl
        rw [h3] at h2
        injection h2 with h4
        injection h4 with h5 _
        exact h5.symm)), add_zero]
      exact h.outCnt t
  · show st.outputsHit + 1 +
      Finset.univ.sum (fun t => sentCount (if t = typ then restq else st.queues t)) = O.length
    have hsum := sum_sent_update st.queues typ restq
    have hst : sentTotal st = Finset.univ.sum (fun t => sentCount (st.queues t)) := rfl
    have hh := h.hitCnt
    rw [hst] at hh
    omega

/-- The constant-closure loop preserves the between-iterations invariant. -/
theorem closureLoop_inv {KU : String → Prop} {O : List PyType}
    (gen : PyType → Option PyVal) (typ : PyType) :
    ∀ (k : Nat) (st : CompSt), SynthInv KU O st →
      SynthInv KU O (closureLoop gen typ k st) := by
  intro k
  induction k with
  | zero => intro st h; exact h
  | succ k ih =>
    intro st h
    show SynthInv KU O (closureLoop gen typ (k + 1) st)
    rw [closureLoop]
    cases hpop : heapPopMin (st.queues typ) with
    | none => exact h
    | some pr =>
      obtain ⟨⟨d, dst⟩, restq⟩ := pr
      cases hgen : gen typ with
      | none => exact h
      | some value =>
        cases dst with
        | none =>
          exact ih _ (synth_step_const_sent st typ value d restq h hpop)
        | some dk =>
          obtain ⟨dvid, kwd⟩ := dk
          exact ih _ (synth_step_const_real st typ value d dvid kwd restq h hpop)

/-- The near-budget closure block preserves the between-iterations invariant. -/
theorem closureBlock_inv {KU : String → Prop} {O : List PyType}
    (gen : PyType → Option PyVal) (typ : PyType) (goal : Multiset PyType) (st : CompSt)
    (h : SynthInv KU O st) : SynthInv KU O (closureBlock gen typ goal st) := by
  rw [closureBlock]
  by_cases hg : gen typ = Option.none
  · rw [if_pos hg]
    exact h
  · rw [if_neg hg]
    exact closureLoop_inv gen typ _ st h

/-- One full synthesis iteration preserves the between-iterations invariant. -/
theorem composeIter_inv {KU : String → Prop} {O : List PyType}
    (gen : PyType → Option PyVal) (goal : Multiset PyType) (maxDepth : Nat)
    (spec : FuncSpec) (brs : List Bool) (prevTyp : Option PyType) (st st2 : CompSt)
    (pt2 : Option PyType)
    (h : SynthInv KU O st)
    (hknodup : (spec.inp.map Prod.fst).Nodup)
    (hKU : ∀ p ∈ spec.inp, KU p.1)
    (hiter : composeIter gen goal maxDepth spec brs prevTyp st = Option.some (st2, pt2)) :
    SynthInv KU O st2 := by
  have hmid0 := mid_of_add spec st h hknodup hKU
  have hbound : ∀ p ∈ spec.out.enum, p.1 < spec.out.length := by
    intro p hp
    have : p.1 ∈ spec.out.enum.map Prod.fst := List.mem_map.mpr ⟨p, hp, rfl⟩
    rw [List.enum_map_fst] at this
    exact List.mem_range.mp this
  have hnd : (spec.out.enum.map Prod.fst).Nodup := by
    rw [List.enum_map_fst]
    exact List.nodup_range _
  obtain ⟨o1, o2, o3, o4, o5⟩ := outSlots_inv spec.out.enum brs 0 _ hmid0 hbound hnd
  simp only [composeIter] at hiter
  rcases hO : outSlots st.nextVid spec.out.enum brs 0
      { st with graph := st.graph.add (specVertex st.nextVid spec),
                nextVid := st.nextVid + 1 } with ⟨st1, fnDepth, brs1⟩
  rw [hO] at o1 o2 o3 o4 o5 hiter
  dsimp only at o1 o2 o3 o4 o5 hiter
  have hlen1 : (st1.graph.adjacency st.nextVid).length = spec.out.length :=
    o1.gwf.adjLen _ o1.nv
  have hclosed : Option.none ∉ st1.graph.adjacency st.nextVid := by
    intro hc
    obtain ⟨n, hn⟩ := List.mem_iff_get?.mp hc
    have hnlt : n < spec.out.length := by
      obtain ⟨h1, _⟩ := List.get?_eq_some.mp hn
      omega
    have hmm : n ∈ spec.out.enum.map Prod.fst := by
      rw [List.enum_map_fst]
      exact List.mem_range.mpr hnlt
    obtain ⟨p, hp, hpe⟩ := List.mem_map.mp hmm
    have := o5 p hp
    rw [hpe] at this
    exact this hn
  have hsyn2 := synth_of_reg st1 fnDepth o1 hclosed
  have hsyn3 : SynthInv KU O
      { regInputs st.nextVid fnDepth spec.inp st1 with
        depth := max (regInputs st.nextVid fnDepth spec.inp st1).depth fnDepth } :=
    ⟨hsyn2.gwf, hsyn2.closed, hsyn2.fcount, hsyn2.qmatch, hsyn2.outCnt, hsyn2.hitCnt⟩
  by_cases h1 : maxDepth <
      (regInputs st.nextVid fnDepth spec.inp st1).depth ⊔ fnDepth
  · rw [if_pos h1] at hiter
    exact Option.noConfusion hiter
  · rw [if_neg h1] at hiter
    by_cases h2 : maxDepth ≤
        (regInputs st.nextVid fnDepth spec.inp st1).depth ⊔ fnDepth
    · rw [if_pos h2] at hiter
      cases hstale : staleTyp prevTyp spec with
      | some t =>
        rw [hstale] at hiter
        have he := Option.some.inj hiter
        rw [Prod.mk.injEq] at he
        rw [← he.1]
        exact closureBlock_inv gen t goal _ hsyn3
      | none =>
        rw [hstale] at hiter
        have he := Option.some.inj hiter
        rw [Prod.mk.injEq] at he
        rw [← he.1]
        exact hsyn3
    · rw [if_neg h2] at hiter
      have he := Option.some.inj hiter
      rw [Prod.mk.injEq] at he
      rw [← he.1]
      exact hsyn3

/-- The initial synthesis state satisfies the loop invariant. -/
theorem synthInv_init (KU : String → Prop) (O : List PyType) :
    SynthInv KU O (initSt O) := by
  have hq : ∀ t, (initSt O).queues t =
      List.replicate (O.count t) ((0, Option.none) : QEntry) := fun _ => rfl
  refine ⟨?_, ?_, ?_, ?_, ?_, ?_⟩
  · exact ⟨List.nodup_nil, fun v hv => absurd hv (List.not_mem_nil v),
      fun v hv => absurd hv (List.not_mem_nil v),
      fun v hv => absurd hv (List.not_mem_nil v),
      fun v hv => absurd hv (List.not_mem_nil v),
      fun v hv => absurd hv (List.not_mem_nil v),
      fun v hv => absurd hv (List.not_mem_nil v),
      fun v hv => absurd hv (List.not_mem_nil v),
      fun v hv => absurd hv (List.not_mem_nil v),
      fun v hv => absurd hv (List.not_mem_nil v)⟩
  · intro v hv
    exact absurd hv (List.not_mem_nil v)
  · intro t
    rw [hq, List.length_replicate]
    show (↑O : Multiset PyType).count t = O.count t
    rw [Multiset.coe_count]
  · intro t
    rw [hq]
    show ((List.replicate (O.count t) ((0, Option.none) : QEntry)).filterMap
      (fun e => e.2) : List (Nat × String)) = unboundMs FuncGraph.empty t
    have h1 : ∀ k, (List.replicate k ((0, Option.none) : QEntry)).filterMap
        (fun e => e.2) = [] := by
      intro k
      induction k with
      | zero => rfl
      | succ k ih => simp [List.replicate_succ, List.filterMap_cons, ih]
    rw [h1]
    rfl
  · intro t
    rw [hq]
    show countOutV FuncGraph.empty t +
      ((List.replicate (O.count t) ((0, Option.none) : QEntry)).filter
        (fun e => e.2.isNone)).length = O.count t
    have h1 : ∀ k, ((List.replicate k ((0, Option.none) : QEntry)).filter
        (fun e => e.2.isNone)).length = k := by
      intro k
      induction k with
      | zero => rfl
      | succ k ih => simp [List.replicate_succ, List.filter_cons, ih]
    rw [h1, show countOutV FuncGraph.empty t = 0 from rfl, zero_add]
  · show 0 + Finset.univ.sum (fun t => sentCount ((initSt O).queues t)) = O.length
    rw [zero_add]
    have h1 : ∀ t, sentCount ((initSt O).queues t) = O.count t := by
      intro t
      rw [hq]
      show ((List.replicate (O.count t) ((0, Option.none) : QEntry)).filter
        (fun e => e.2.isNone)).length = O.count t
      induction (O.count t) with
      | zero => rfl
      | succ k ih => simp [List.replicate_succ, List.filter_cons, ih]
    have h2 : Finset.univ.sum (fun t => sentCount ((initSt O).queues t)) =
        Finset.univ.sum (fun t => O.count t) := by
      refine Finset.sum_congr rfl ?_
      intro t _
      exact h1 t
    rw [h2]
    have h3 : Finset.univ.sum (fun t => O.count t) =
        Finset.univ.sum (fun t => (↑O : Multiset PyType).count t) := by
      refine Finset.sum_congr rfl ?_
      intro t _
      rw [Multiset.coe_count]
    rw [h3]
    have h4 := Multiset.toFinset_sum_count_eq (↑O : Multiset PyType)
    have h5 : Finset.univ.sum (fun t => (↑O : Multiset PyType).count t) =
        (↑O : Multiset PyType).toFinset.sum (fun t => (↑O : Multiset PyType).count t) := by
      refine (Finset.sum_subset (Finset.subset_univ _) ?_).symm
      intro t _ ht
      rw [Multiset.count_eq_zero]
      intro hc
      exact ht (Multiset.mem_toFinset.mpr hc)
    rw [h5, h4]
    rfl

/-- Every graph returned by the synthesis driver comes from an exit state that
satisfies the loop invariant with the frontier reduced to the requested inputs
and all requested outputs satisfied. -/
theorem composeRun_exit {KU : String → Prop}
    (gen : PyType → Option PyVal) (maxDepth : Nat) (I O : List PyType)
    (oracle : Nat → FuncSpec × List Bool)
    (hknodup : ∀ n, (((oracle n).1.inp.map Prod.fst)).Nodup)
    (hKU : ∀ n, ∀ p ∈ (oracle n).1.inp, KU p.1) :
    ∀ (n : Nat) (prevTyp : Option PyType) (st : CompSt), SynthInv KU O st →
      ∀ g, composeRun gen maxDepth I O oracle n prevTyp st =
        Option.some (Option.some g) →
      ∃ st', SynthInv KU O st' ∧ st'.frontier = (↑I : Multiset PyType) ∧
        O.length ≤ st'.outputsHit ∧
        g = { st'.graph with inputOrder := Option.some I,
                             outputOrder := Option.some O } := by
  intro n
  induction n with
  | zero =>
    intro prevTyp st _ g hrun
    exact Option.noConfusion hrun
  | succ n ih =>
    intro prevTyp st h g hrun
    rw [composeRun] at hrun
    by_cases hexit : st.frontier = (↑I : Multiset PyType) ∧ O.length ≤ st.outputsHit
    · rw [if_pos hexit] at hrun
      have := Option.some.inj (Option.some.inj hrun)
      exact ⟨st, h, hexit.1, hexit.2, this.symm⟩
    · rw [if_neg hexit] at hrun
      cases hiter : composeIter gen (↑I) maxDepth (oracle n).1 (oracle n).2 prevTyp st with
      | none =>
        rw [hiter] at hrun
        exact Option.noConfusion (Option.some.inj hrun)
      | some pr =>
        obtain ⟨st2, pt2⟩ := pr
        rw [hiter] at hrun
        exact ih pt2 st2
          (composeIter_inv gen (↑I) maxDepth (oracle n).1 (oracle n).2 prevTyp st st2 pt2
            h (hknodup n) (hKU n) hiter) g hrun

/-- The head type of a vertex's declared tuple `out_type` (its only entry for
output-marker vertices). -/
def outHd (v : Vertex) : PyType :=
  match v.outTypeF with
  | TyVal.tup (t :: _) => t
  | _ => PyType.int

/-- With every function and constant slot consumed, the open-output scan finds
exactly the output-marker vertices. -/
theorem openOuts_of_closed {KU : String → Prop} {g : FuncGraph} {nxt : Nat}
    (hg : GraphWF KU g nxt)
    (hclosed : ∀ v ∈ g.verts, v.kind = VKind.func ∨ v.kind = VKind.const →
      Option.none ∉ g.adjacency v.vid) :
    g.openOuts = g.verts.filter (fun v => v.kind == VKind.out) := by
  rw [FuncGraph.openOuts]
  refine List.filter_congr ?_
  intro v hv
  have hanyfc : (v.kind = VKind.func ∨ v.kind = VKind.const) →
      (g.adjacency v.vid).any (fun s => s.isNone) = false := by
    intro hk
    rw [List.any_eq_false]
    intro s hs hcon
    rw [Option.isNone_iff_eq_none] at hcon
    rw [hcon] at hs
    exact hclosed v hv hk hs
  cases hk : v.kind with
  | func => rw [hanyfc (Or.inl hk)]; rfl
  | const => rw [hanyfc (Or.inr hk)]; rfl
  | sink => rfl
  | out =>
    obtain ⟨t, _, hrow⟩ := hg.outShape v hv hk
    rw [hrow]
    rfl

/-- Output discovery over a list of well-shaped output-marker vertices. -/
theorem discoveredAux_outs {KU : String → Prop} {g : FuncGraph} {nxt : Nat}
    (hg : GraphWF KU g nxt) :
    ∀ l : List Vertex, (∀ v ∈ l, v ∈ g.verts ∧ v.kind = VKind.out) →
      discoveredAux g l = .ok (l.map (fun v => (outHd v, v.vid, 0))) := by
  intro l
  induction l with
  | nil => intro _; rfl
  | cons v rest ih =>
    intro hc
    obtain ⟨hvm, hvk⟩ := hc v (List.mem_cons_self _ _)
    obtain ⟨t, hty, hrow⟩ := hg.outShape v hvm hvk
    have hidx : g.getOutIndices v.vid = [0] := by
      rw [FuncGraph.getOutIndices, hrow]
      rfl
    have hslots : slotsAux v.vid v.outTypeF (g.getOutIndices v.vid) =
        .ok [(t, v.vid, 0)] := by
      rw [hidx, hty]
      rfl
    have hhd : outHd v = t := by
      rw [outHd, hty]
    show discoveredAux g (v :: rest) = _
    rw [discoveredAux, hslots, ih (fun u hu => hc u (List.mem_cons_of_mem _ hu))]
    rw [List.map_cons, hhd]
    rfl

theorem count_outHd_eq_countOutV {KU : String → Prop} {g : FuncGraph} {nxt : Nat}
    (hg : GraphWF KU g nxt) (t : PyType) :
    ((g.verts.filter (fun v => v.kind == VKind.out)).map outHd).count t =
      countOutV g t := by
  rw [count_map_eq_filter_length, List.filter_filter, countOutV]
  congr 1
  refine List.filter_congr ?_
  intro v hv
  by_cases hk : v.kind = VKind.out
  · obtain ⟨t', hty, _⟩ := hg.outShape v hv hk
    have hhd : outHd v = t' := by
      rw [outHd, hty]
    have hiff : (t' = t) ↔ (TyVal.tup [t'] = TyVal.tup [t]) := by
      constructor
      · intro h2
        rw [h2]
      · intro h2
        exact congrArg (fun tv => match tv with
          | TyVal.tup (x :: _) => x
          | _ => t') h2
    have hb : (v.kind == VKind.out) = true := beq_iff_eq.mpr hk
    rw [hb, Bool.and_true, Bool.true_and, hhd, hty]
    exact decide_eq_decide.mpr hiff
  · have hb : (v.kind == VKind.out) = false := beq_eq_false_iff_ne.mpr hk
    rw [hb, Bool.and_false, Bool.false_and]

/-- At a successful exit state the tagged graph's `get_out_type` returns the
requested output sequence exactly. -/
theorem getOutType_exit {KU : String → Prop} {O : List PyType} (st : CompSt)
    (io : Option (List PyType))
    (h : SynthInv KU O st) (hsent : ∀ t, sentCount (st.queues t) = 0) (hO : O ≠ []) :
    ({ st.graph with inputOrder := io, outputOrder := Option.some O } :
      FuncGraph).getOutType = Except.ok O := by
  set g' : FuncGraph :=
    { st.graph with inputOrder := io, outputOrder := Option.some O } with hg'
  have hgwf : GraphWF KU g' st.nextVid :=
    ⟨h.gwf.nodupVids, h.gwf.vidLt, h.gwf.adjLen, h.gwf.argKeys, h.gwf.kwdNodup,
      h.gwf.kwdUniv, h.gwf.outBound, h.gwf.sinkBound, h.gwf.constNoInp, h.gwf.outShape⟩
  have hclosed : ∀ v ∈ g'.verts, v.kind = VKind.func ∨ v.kind = VKind.const →
      Option.none ∉ g'.adjacency v.vid := h.closed
  have hopen : g'.openOuts = g'.verts.filter (fun v => v.kind == VKind.out) :=
    openOuts_of_closed hgwf hclosed
  have hdisc : discoveredAux g' g'.openOuts =
      .ok ((g'.verts.filter (fun v => v.kind == VKind.out)).map
        (fun v => (outHd v, v.vid, 0))) := by
    rw [hopen]
    refine discoveredAux_outs hgwf _ ?_
    intro v hv
    have := List.mem_filter.mp hv
    exact ⟨this.1, by
      have := this.2
      rwa [beq_iff_eq] at this⟩
  have hcnt : ∀ t, countOutV g' t = O.count t := by
    intro t
    have h1 := h.outCnt t
    rw [hsent t, add_zero] at h1
    exact h1
  have hms : (↑(((g'.verts.filter (fun v => v.kind == VKind.out)).map
      (fun v => (outHd v, v.vid, 0))).map Prod.fst) : Multiset PyType) =
      (↑O : Multiset PyType) := by
    rw [List.map_map]
    have hcomp : (Prod.fst ∘ fun v => ((outHd v, v.vid, 0) : PyType × Nat × Nat)) =
        outHd := rfl
    rw [hcomp]
    refine Multiset.ext.mpr ?_
    intro t
    rw [Multiset.coe_count, Multiset.coe_count, count_outHd_eq_countOutV hgwf t, hcnt t]
  have hnonempty : g'.openOuts.isEmpty = false := by
    rw [hopen]
    obtain ⟨t0, ht0⟩ := List.exists_mem_of_ne_nil O hO
    have hpos : 0 < O.count t0 := List.count_pos_iff_mem.mpr ht0
    have hlen : 0 < countOutV g' t0 := by
      rw [hcnt t0]
      exact hpos
    rw [countOutV] at hlen
    rw [List.length_pos] at hlen
    obtain ⟨v, hv⟩ := List.exists_mem_of_ne_nil _ hlen
    have hvf := List.mem_filter.mp hv
    have : v ∈ g'.verts.filter (fun v => v.kind == VKind.out) := by
      refine List.mem_filter.mpr ⟨hvf.1, ?_⟩
      have := hvf.2
      rw [Bool.and_eq_true] at this
      exact this.1
    refine List.isEmpty_eq_false.mpr ?_
    intro hc
    rw [hc] at this
    exact absurd this (List.not_mem_nil v)
  rw [FuncGraph.getOutType, FuncGraph.getOutputs, hnonempty]
  show (match discoveredAux g' g'.openOuts with
    | .error e => _
    | .ok pairs => _ : Except GErr (List PyType × List (Nat × Nat))).map Prod.fst = _
  rw [hdisc]
  show (if _ = _ then _ else _ : Except GErr (List PyType × List (Nat × Nat))).map
    Prod.fst = _
  rw [if_pos hms]
  show Except.ok ((greedyLoop _ O ∅).map Prod.fst) = _
  rw [greedyLoop_eq_specAssign, availOf_empty]
  rw [specAssign_types O _ (by
    rw [List.map_map] at hms
    have hcomp : (Prod.fst ∘ fun v => ((outHd v, v.vid, 0) : PyType × Nat × Nat)) =
        outHd := rfl
    rw [hcomp] at hms
    rw [List.map_map, hcomp]
    exact hms)]

theorem dictInsert_fresh {α β : Type} [DecidableEq α] (l : List (α × β)) (k : α) (v : β)
    (h : k ∉ l.map Prod.fst) : dictInsert l k v = l ++ [(k, v)] := by
  rw [dictInsert, if_neg]
  intro hc
  rw [List.any_eq_true] at hc
  obtain ⟨p, hp, hpk⟩ := hc
  rw [decide_eq_true_eq] at hpk
  exact h (List.mem_map.mpr ⟨p, hp, hpk⟩)

/-- The running per-keyword occurrence count of the `_get_arguments` loop:
`0` before the keyword is seen, else one more than the stored counter. -/
def cntVal (st : ArgSt) (k : String) : Nat :=
  match st.counters k with
  | Option.none => 0
  | Option.some n => n + 1

/-- Collision-freedom of the generated argument names over a keyword
universe: appending decimal counters to distinct keywords of the universe
never produces the same name. -/
def NameInj (KU : String → Prop) : Prop :=
  ∀ k1 k2, KU k1 → KU k2 → ∀ n1 n2 : Nat, k1 ++ natStr n1 = k2 ++ natStr n2 → k1 = k2

/-- Invariant of the `_get_arguments` accumulation state: every produced name
is a universe keyword with a counter below its running count, and the names
are distinct. -/
structure ASInv (KU : String → Prop) (st : ArgSt) : Prop where
  keys : ∀ s ∈ st.inpT.map Prod.fst, ∃ k n, KU k ∧ n < cntVal st k ∧ s = k ++ natStr n
  nodup : (st.inpT.map Prod.fst).Nodup

/-- One vertex's pass of the `_get_arguments` loop succeeds when every keyword
is present in the vertex's dependency row, preserves the name invariant, and
appends exactly the types of the unbound keywords to the accumulated values. -/
theorem argScanKwds_char {KU : String → Prop} (hinj : NameInj KU) (g : FuncGraph)
    (vid : Nat) :
    ∀ (l : List (String × PyType)) (st : ArgSt),
      (∀ p ∈ l, dictFind (g.argdeps vid) p.1 ≠ Option.none) →
      (∀ p ∈ l, dictFind (g.argdeps vid) p.1 = Option.some Option.none → KU p.1) →
      ASInv KU st →
      ∃ st2, argScanKwds g vid l st = .ok st2 ∧ ASInv KU st2 ∧
        (↑(st2.inpT.map Prod.snd) : Multiset PyType) =
          ↑(st.inpT.map Prod.snd) +
          ↑(l.filterMap (fun p =>
            if dictFind (g.argdeps vid) p.1 = Option.some Option.none
            then Option.some p.2 else Option.none)) := by
  intro l
  induction l with
  | nil =>
    intro st _ _ hinv
    refine ⟨st, rfl, hinv, ?_⟩
    rw [List.filterMap_nil, Multiset.coe_nil, add_zero]
  | cons p rest ih =>
    intro st hfound hKU hinv
    obtain ⟨kwd, ty⟩ := p
    show ∃ st2, argScanKwds g vid ((kwd, ty) :: rest) st = .ok st2 ∧ _
    rw [argScanKwds]
    cases hdf : dictFind (g.argdeps vid) kwd with
    | none =>
      exact absurd hdf (hfound (kwd, ty) (List.mem_cons_self _ _))
    | some b =>
      cases b with
      | some dep =>
        obtain ⟨st2, he, hi2, hv2⟩ := ih st
          (fun q hq => hfound q (List.mem_cons_of_mem _ hq))
          (fun q hq => hKU q (List.mem_cons_of_mem _ hq)) hinv
        refine ⟨st2, he, hi2, ?_⟩
        rw [hv2, List.filterMap_cons]
        rw [if_neg (show ¬ dictFind (g.argdeps vid) ((kwd, ty) : String × PyType).1 =
          Option.some Option.none by
            show ¬ dictFind (g.argdeps vid) kwd = Option.some Option.none
            rw [hdf]
            intro hc
            exact Option.noConfusion (Option.some.inj hc))]
      | none =>
        have hku : KU kwd := hKU (kwd, ty) (List.mem_cons_self _ _) hdf
        have hfreshname : (kwd ++ natStr (cntVal st kwd)) ∉ st.inpT.map Prod.fst := by
          intro hc
          obtain ⟨k, n, hk1, hk2, hk3⟩ := hinv.keys _ hc
          have hkk : k = kwd := hinj k kwd hk1 hku n (cntVal st kwd) hk3.symm
          rw [hkk] at hk3
          have := nameOf_inj_counter kwd _ _ hk3
          rw [hkk] at hk2
          omega
        have hstep : ∀ st' : ArgSt,
            st'.inpT = dictInsert st.inpT (kwd ++ natStr (cntVal st kwd)) ty →
            (∀ k, cntVal st' k = if k = kwd then cntVal st k + 1 else cntVal st k) →
            ∃ st2, argScanKwds g vid rest st' = .ok st2 ∧ ASInv KU st2 ∧
              (↑(st2.inpT.map Prod.snd) : Multiset PyType) =
                ↑(st.inpT.map Prod.snd) +
                ↑(((kwd, ty) :: rest).filterMap (fun p =>
                  if dictFind (g.argdeps vid) p.1 = Option.some Option.none
                  then Option.some p.2 else Option.none)) := by
          intro st' hip hcnt
          have hins : st'.inpT = st.inpT ++ [(kwd ++ natStr (cntVal st kwd), ty)] := by
            rw [hip]
            exact dictInsert_fresh _ _ _ hfreshname
          have hinv2 : ASInv KU st' := by
            refine ⟨?_, ?_⟩
            · intro s hs
              rw [hins, List.map_append, List.mem_append] at hs
              rcases hs with h1 | h1
              · obtain ⟨k, n, hk1, hk2, hk3⟩ := hinv.keys s h1
                refine ⟨k, n, hk1, ?_, hk3⟩
                rw [hcnt k]
                by_cases hkk : k = kwd
                · rw [if_pos hkk]
                  omega
                · rw [if_neg hkk]
                  exact hk2
              · rw [List.map_cons, List.map_nil, List.mem_singleton] at h1
                refine ⟨kwd, cntVal st kwd, hku, ?_, h1⟩
                rw [hcnt kwd, if_pos rfl]
                omega
            · rw [hins, List.map_append, List.nodup_append]
              refine ⟨hinv.nodup, List.nodup_singleton _, ?_⟩
              intro s hsm
              rw [List.map_cons, List.map_nil, List.mem_singleton]
              intro hc
              rw [hc] at hsm
              exact hfreshname hsm
          obtain ⟨st2, he, hi2, hv2⟩ := ih st'
            (fun q hq => hfound q (List.mem_cons_of_mem _ hq))
            (fun q hq => hKU q (List.mem_cons_of_mem _ hq)) hinv2
          refine ⟨st2, he, hi2, ?_⟩
          rw [hv2]
          rw [List.filterMap_cons, if_pos (show dictFind (g.argdeps vid)
            ((kwd, ty) : String × PyType).1 = Option.some Option.none from hdf)]
          rw [hins, List.map_append, List.map_cons, List.map_nil]
          have e1 : (↑(st.inpT.map Prod.snd ++ [ty]) : Multiset PyType) =
              ↑(st.inpT.map Prod.snd) + ↑([ty] : List PyType) := by
            rw [← Multiset.coe_add]
          rw [e1, add_assoc]
          congr 1
        cases hctr : st.counters kwd with
        | none =>
          have hc0 : cntVal st kwd = 0 := by
            rw [cntVal, hctr]
          refine hstep _ (by rw [hc0]) ?_
          intro k
          rw [cntVal]
          show (match (if k = kwd then Option.some 0 else st.counters k) with
            | Option.none => 0
            | Option.some n => n + 1) = _
          by_cases hkk : k = kwd
          · rw [if_pos hkk, if_pos hkk, hkk, hc0]
          · rw [if_neg hkk, if_neg hkk]
            rfl
        | some n =>
          have hc0 : cntVal st kwd = n + 1 := by
            rw [cntVal, hctr]
          refine hstep _ (by rw [hc0]) ?_
          intro k
          rw [cntVal]
          show (match (if k = kwd then Option.some (n + 1) else st.counters k) with
            | Option.none => 0
            | Option.some m => m + 1) = _
          by_cases hkk : k = kwd
          · rw [if_pos hkk, if_pos hkk, hkk, hc0]
          · rw [if_neg hkk, if_neg hkk]
            rfl

/-- The vertex loop of `_get_arguments` succeeds on a well-keyed graph and
accumulates exactly the unbound input types of every vertex. -/
theorem argScanVerts_char {KU : String → Prop} (hinj : NameInj KU) (g : FuncGraph) :
    ∀ (l : List Vertex) (st : ArgSt),
      (∀ v ∈ l, ∀ p ∈ v.inpType, dictFind (g.argdeps v.vid) p.1 ≠ Option.none) →
      (∀ v ∈ l, ∀ p ∈ v.inpType,
        dictFind (g.argdeps v.vid) p.1 = Option.some Option.none → KU p.1) →
      ASInv KU st →
      ∃ st2, argScanVerts g l st = .ok st2 ∧ ASInv KU st2 ∧
        (↑(st2.inpT.map Prod.snd) : Multiset PyType) =
          ↑(st.inpT.map Prod.snd) +
          ↑(l.flatMap (fun v => v.inpType.filterMap (fun p =>
            if dictFind (g.argdeps v.vid) p.1 = Option.some Option.none
            then Option.some p.2 else Option.none))) := by
  intro l
  induction l with
  | nil =>
    intro st _ _ hinv
    refine ⟨st, rfl, hinv, ?_⟩
    rw [List.flatMap_nil, Multiset.coe_nil, add_zero]
  | cons v rest ih =>
    intro st hfound hKU hinv
    obtain ⟨st1, he1, hi1, hv1⟩ := argScanKwds_char hinj g v.vid v.inpType st
      (hfound v (List.mem_cons_self _ _)) (hKU v (List.mem_cons_self _ _)) hinv
    obtain ⟨st2, he2, hi2, hv2⟩ := ih st1
      (fun u hu => hfound u (List.mem_cons_of_mem _ hu))
      (fun u hu => hKU u (List.mem_cons_of_mem _ hu)) hi1
    refine ⟨st2, ?_, hi2, ?_⟩
    · show argScanVerts g (v :: rest) st = .ok st2
      rw [argScanVerts, he1]
      exact he2
    · rw [hv2, hv1, List.flatMap_cons, add_assoc]
      congr 1

theorem count_flatMap {α β : Type} [DecidableEq β] (f : α → List β) (b : β) :
    ∀ l : List α, ((l.flatMap f).count b) = (l.map (fun a => (f a).count b)).sum := by
  intro l
  induction l with
  | nil => rfl
  | cons a rest ih =>
    rw [List.flatMap_cons, List.count_append, List.map_cons, List.sum_cons, ih]

/-- The typed unbound-keyword contribution of a vertex counts, at each type,
exactly the entries of its unbound-pair contribution. -/
theorem typed_count_eq_unbEntry (g : FuncGraph) (v : Vertex) (t : PyType) :
    (v.inpType.filterMap (fun p =>
      if dictFind (g.argdeps v.vid) p.1 = Option.some Option.none
      then Option.some p.2 else Option.none)).count t = (unbEntry g t v).length := by
  rw [unbEntry]
  induction v.inpType with
  | nil => rfl
  | cons p rest ih =>
    rw [List.filterMap_cons, List.filterMap_cons]
    by_cases hdf : dictFind (g.argdeps v.vid) p.1 = Option.some Option.none
    · rw [if_pos hdf]
      by_cases hpt : p.2 = t
      · rw [if_pos ⟨hpt, hdf⟩, List.count_cons, List.length_cons, ih]
        simp [hpt]
      · rw [if_neg (fun hc => hpt hc.1), List.count_cons, ih]
        simp [hpt]
    · rw [if_neg hdf, if_neg (fun hc => hdf hc.2), ih]

theorem realMs_card_add_sent (q : List QEntry) :
    Multiset.card (realMs q) + sentCount q = q.length := by
  show (q.filterMap (fun e => e.2)).length + (q.filter (fun e => e.2.isNone)).length =
    q.length
  induction q with
  | nil => rfl
  | cons e rest ih =>
    rw [List.filterMap_cons, List.filter_cons]
    cases he : e.2 with
    | none =>
      show (List.filterMap (fun e => e.2) rest).length +
        (e :: List.filter (fun e => e.2.isNone) rest).length = rest.length + 1
      rw [List.length_cons]
      omega
    | some x =>
      show (x :: List.filterMap (fun e => e.2) rest).length +
        (List.filter (fun e => e.2.isNone) rest).length = rest.length + 1
      rw [List.length_cons]
      omega

/-- The available-values multiset of the key-based greedy reorder. -/
def avKV (l : List (String × PyType)) (used : Finset String) : Multiset PyType :=
  ↑((l.filter (fun p => p.1 ∉ used)).map Prod.snd)

theorem avKV_step (l : List (String × PyType)) (used : Finset String)
    (q : String × PyType) (hq : q ∈ l) (hnd : (l.map Prod.fst).Nodup)
    (hu : q.1 ∉ used) :
    avKV l used = q.2 ::ₘ avKV l (insert q.1 used) := by
  obtain ⟨l1, l2, hsplit⟩ := List.append_of_mem hq
  have hnd2 := hnd
  rw [hsplit, List.map_append, List.map_cons] at hnd2
  have hnd3 := List.nodup_middle.mp hnd2
  have hkn : q.1 ∉ l1.map Prod.fst ++ l2.map Prod.fst := (List.nodup_cons.mp hnd3).1
  have hne : ∀ p ∈ l1 ++ l2, p.1 ≠ q.1 := by
    intro p hp hc
    refine hkn ?_
    rcases List.mem_append.mp hp with h1 | h1
    · exact List.mem_append_left _ (List.mem_map.mpr ⟨p, h1, hc⟩)
    · exact List.mem_append_right _ (List.mem_map.mpr ⟨p, h1, hc⟩)
  have hfe : ∀ l' : List (String × PyType), (∀ p ∈ l', p.1 ≠ q.1) →
      l'.filter (fun p => p.1 ∉ insert q.1 used) = l'.filter (fun p => p.1 ∉ used) := by
    intro l' hl'
    refine List.filter_congr ?_
    intro p hp
    have : (p.1 ∈ insert q.1 used) ↔ (p.1 ∈ used) := by
      rw [Finset.mem_insert]
      constructor
      · intro hc
        rcases hc with h1 | h1
        · exact absurd h1 (hl' p hp)
        · exact h1
      · exact Or.inr
    rw [decide_eq_decide.mpr (not_congr this)]
  rw [avKV, avKV, hsplit]
  rw [List.filter_append, List.filter_append, List.filter_cons, List.filter_cons]
  rw [if_pos (by rw [decide_eq_true_eq]; exact hu),
    if_neg (by rw [decide_eq_true_eq]; intro hc; exact hc (Finset.mem_insert_self _ _))]
  rw [hfe l1 (fun p hp => hne p (List.mem_append_left _ hp)),
    hfe l2 (fun p hp => hne p (List.mem_append_right _ hp))]
  rw [List.map_append, List.map_append, List.map_cons]
  have hperm : ((l1.filter (fun p => p.1 ∉ used)).map Prod.snd ++
      q.2 :: (l2.filter (fun p => p.1 ∉ used)).map Prod.snd).Perm
      (q.2 :: ((l1.filter (fun p => p.1 ∉ used)).map Prod.snd ++
        (l2.filter (fun p => p.1 ∉ used)).map Prod.snd)) := List.perm_middle
  rw [Multiset.coe_eq_coe.mpr hperm]
  rfl

/-- The key-based greedy reorder of `_get_arguments`: when the requested
sequence is a permutation of the available values, the reordered values match
it position by position. -/
theorem greedyKV_types : ∀ (ord : List PyType) (l : List (String × PyType))
    (used : Finset String),
    (l.map Prod.fst).Nodup →
    avKV l used = ↑ord →
    (greedyKV l ord used).map Prod.snd = ord := by
  intro ord
  induction ord with
  | nil => intro l used _ _; rfl
  | cons typ rest ih =>
    intro l used hnd hms
    have htyp : typ ∈ avKV l used := by
      rw [hms]
      exact Multiset.mem_coe.mpr (List.mem_cons_self _ _)
    rw [avKV, Multiset.mem_coe, List.mem_map] at htyp
    obtain ⟨p, hpf, hpe⟩ := htyp
    have hpl := List.mem_of_mem_filter hpf
    have hpu : p.1 ∉ used := by
      have := (List.mem_filter.mp hpf).2
      rw [decide_eq_true_eq] at this
      exact this
    have hfind : (pickFirstKV typ l used).isSome := by
      rw [pickFirstKV, List.find?_isSome]
      exact ⟨p, hpl, by
        rw [Bool.and_eq_true, decide_eq_true_eq, decide_eq_true_eq]
        exact ⟨hpe, hpu⟩⟩
    cases hq : pickFirstKV typ l used with
    | none =>
      rw [hq] at hfind
      exact Bool.noConfusion hfind
    | some q =>
      obtain ⟨qk, qv⟩ := q
      have hql : (qk, qv) ∈ l := List.mem_of_find?_eq_some hq
      have hqp := List.find?_some hq
      rw [Bool.and_eq_true, decide_eq_true_eq, decide_eq_true_eq] at hqp
      show (greedyKV l (typ :: rest) used).map Prod.snd = typ :: rest
      rw [greedyKV, hq]
      rw [List.map_cons]
      have hstep := avKV_step l used (qk, qv) hql hnd hqp.2
      rw [hms] at hstep
      have hrest : avKV l (insert qk used) = ↑rest := by
        have h2 : ((qk, qv) : String × PyType).2 ::ₘ avKV l (insert qk used) =
            typ ::ₘ (↑rest : Multiset PyType) := by
          rw [← hstep]
          rfl
        rw [hqp.1] at h2
        exact (Multiset.cons_inj_right _).mp h2
      rw [ih l (insert qk used) hnd hrest, hqp.1]

theorem length_flatMap_sum {α β : Type} (f : α → List β) :
    ∀ l : List α, (l.flatMap f).length = (l.map (fun a => (f a).length)).sum := by
  intro l
  induction l with
  | nil => rfl
  | cons a rest ih =>
    rw [List.flatMap_cons, List.length_append, List.map_cons, List.sum_cons, ih]

/-- At a successful exit state the tagged graph's `get_inp_type` succeeds and
its value sequence is exactly the requested input sequence. -/
theorem getInpType_exit {KU : String → Prop} {O : List PyType} (st : CompSt)
    (I : List PyType)
    (h : SynthInv KU O st) (hinj : NameInj KU)
    (hsent : ∀ t, sentCount (st.queues t) = 0)
    (hfr : st.frontier = (↑I : Multiset PyType)) :
    (({ st.graph with inputOrder := Option.some I, outputOrder := Option.some O } :
      FuncGraph).getInpType).map (List.map Prod.snd) = Except.ok I := by
  set g' : FuncGraph :=
    { st.graph with inputOrder := Option.some I, outputOrder := Option.some O } with hg'
  have hfound : ∀ v ∈ g'.verts, ∀ p ∈ v.inpType,
      dictFind (g'.argdeps v.vid) p.1 ≠ Option.none := by
    intro v hv p hp
    refine dictFind_isSome_of_key _ _ ?_
    rw [h.gwf.argKeys v hv]
    exact List.mem_map.mpr ⟨p, hp, rfl⟩
  have hKUv : ∀ v ∈ g'.verts, ∀ p ∈ v.inpType,
      dictFind (g'.argdeps v.vid) p.1 = Option.some Option.none → KU p.1 := by
    intro v hv p hp hdf
    cases hk : v.kind with
    | func => exact h.gwf.kwdUniv v hv hk p hp
    | const =>
      exfalso
      have := h.gwf.constNoInp v hv hk
      rw [this] at hp
      exact absurd hp (List.not_mem_nil p)
    | out =>
      exfalso
      have hkm : p.1 ∈ (g'.argdeps v.vid).map Prod.fst := by
        rw [h.gwf.argKeys v hv]
        exact List.mem_map.mpr ⟨p, hp, rfl⟩
      obtain ⟨y, hy, hmem⟩ := dictFind_mem_key _ _ hkm
      rw [hy] at hdf
      have hyn : y = Option.none := Option.some.inj hdf
      rw [hyn] at hmem
      exact h.gwf.outBound v hv hk (p.1, Option.none) hmem rfl
    | sink =>
      exfalso
      have hkm : p.1 ∈ (g'.argdeps v.vid).map Prod.fst := by
        rw [h.gwf.argKeys v hv]
        exact List.mem_map.mpr ⟨p, hp, rfl⟩
      obtain ⟨y, hy, hmem⟩ := dictFind_mem_key _ _ hkm
      rw [hy] at hdf
      have hyn : y = Option.none := Option.some.inj hdf
      rw [hyn] at hmem
      exact h.gwf.sinkBound v hv hk (p.1, Option.none) hmem rfl
  have hinv0 : ASInv KU ⟨fun _ => Option.none, [], []⟩ := by
    refine ⟨?_, List.nodup_nil⟩
    intro s hs
    exact absurd hs (List.not_mem_nil s)
  obtain ⟨stf, hscan, hasinv, hvals⟩ :=
    argScanVerts_char hinj g' g'.verts ⟨fun _ => Option.none, [], []⟩ hfound hKUv hinv0
  have hvals2 : (↑(stf.inpT.map Prod.snd) : Multiset PyType) =
      ↑(g'.verts.flatMap (fun v => v.inpType.filterMap (fun p =>
        if dictFind (g'.argdeps v.vid) p.1 = Option.some Option.none
        then Option.some p.2 else Option.none))) := by
    rw [hvals]
    show (↑([] : List PyType) : Multiset PyType) + _ = _
    rw [Multiset.coe_nil, zero_add]
  have hmsI : (↑(stf.inpT.map Prod.snd) : Multiset PyType) = (↑I : Multiset PyType) := by
    rw [hvals2]
    refine Multiset.ext.mpr ?_
    intro t
    rw [Multiset.coe_count, Multiset.coe_count]
    rw [count_flatMap]
    have hcongr : g'.verts.map (fun v => (v.inpType.filterMap (fun p =>
        if dictFind (g'.argdeps v.vid) p.1 = Option.some Option.none
        then Option.some p.2 else Option.none)).count t) =
        g'.verts.map (fun v => (unbEntry g' t v).length) := by
      refine List.map_congr_left ?_
      intro v _
      exact typed_count_eq_unbEntry g' v t
    rw [hcongr]
    have hlen : (g'.verts.map (fun v => (unbEntry g' t v).length)).sum =
        (g'.verts.flatMap (unbEntry g' t)).length := (length_flatMap_sum _ _).symm
    rw [hlen]
    have hcard : (g'.verts.flatMap (unbEntry g' t)).length =
        Multiset.card (unboundMs g' t) := by
      rw [unboundMs, unboundMsx_eq_flat]
      have hfl : g'.verts.filter (fun v => !(Option.some v.vid ==
          (Option.none : Option Nat))) = g'.verts :=
        List.filter_eq_self.mpr (fun u _ => rfl)
      rw [hfl]
      rfl
    rw [hcard]
    have hums : unboundMs g' t = unboundMs st.graph t := rfl
    rw [hums, ← h.qmatch t]
    have hc2 := realMs_card_add_sent (st.queues t)
    have hc3 := hsent t
    have hc4 := h.fcount t
    rw [hfr, Multiset.coe_count] at hc4
    omega
  have hio : g'.inputOrder = Option.some I := rfl
  simp only [FuncGraph.getInpType, FuncGraph.getArguments, hscan, hio, hmsI, if_pos]
  show Except.ok ((greedyKV stf.inpT I ∅).map Prod.snd) = Except.ok I
  rw [greedyKV_types I stf.inpT ∅ hasinv.nodup (by
    rw [avKV, List.filter_eq_self.mpr (fun p _ => by
      rw [decide_eq_true_eq]
      exact Finset.not_mem_empty _)]
    exact hmsI)]

/-- A one-input one-output library function (integer negation). -/
def negSpec : FuncSpec :=
  { name := "int_neg",
    inp := [("x", PyType.int)],
    out := [PyType.int],
    impl := fun kw => (kw "x").map (fun v => [v]) }

/-- An oracle that always samples `negSpec` and always draws `break`. -/
def oracleNeg : Nat → FuncSpec × List Bool := fun _ => (negSpec, [true, true, true])

/-- The graph `_compose_func` builds for requested inputs `(int,)` and an empty
requested output tuple under `oracleNeg`: the function vertex's output goes to
a sink, and its input becomes the lone frontier entry matching `I`. -/
def gNeg : FuncGraph :=
  { ((FuncGraph.empty.add (specVertex 0 negSpec)).add
      (mkSinkVertex 1 PyType.int)).feed 0 0 1 SINK_KWD with
    inputOrder := Option.some [PyType.int],
    outputOrder := Option.some ([] : List PyType) }

/-- The graph `_compose_func` builds for requested inputs `(int,)` and outputs
`(int,)` under `oracleNeg`: the function vertex feeds a fresh output marker. -/
def gRun2 : FuncGraph :=
  { ((FuncGraph.empty.add (specVertex 0 negSpec)).add
      (mkOutVertex 1 PyType.int)).feed 0 0 1 OUT_KWD with
    inputOrder := Option.some [PyType.int],
    outputOrder := Option.some [PyType.int] }

/-- C3 (counterexample).  A successful `_compose_func` attempt for requested
output tuple `O = ()` returns a graph whose `get_out_type` raises
`NoOutputError` instead of returning `O`: with no outputs requested, every
slot is sunk, and output discovery finds no open non-sink slot.  The claim's
`get_out_type = O` therefore fails for empty `O`. -/
theorem claim_C3_counterexample :
    composeFunc genStd 2 [PyType.int] [] oracleNeg 2 =
      Option.some (Option.some gNeg) ∧
    gNeg.getOutType = Except.error GErr.noOutput ∧
    gNeg.inputOrder = Option.some [PyType.int] ∧
    gNeg.outputOrder = Option.some ([] : List PyType) := ⟨rfl, rfl, rfl, rfl⟩

/-- C3 (amended).  Whenever a `_compose_func` attempt returns a graph for a
nonempty requested output sequence `O` and input sequence `I` — under a
library whose candidate keyword lists are duplicate-free and whose generated
argument names cannot collide across keywords — the graph is tagged with `I`
and `O`, its `get_out_type` equals `O` exactly, and the value sequence of its
`get_inp_type` equals `I` exactly.  For `O = ()` the tagging still holds but
`get_out_type` raises `NoOutputError` instead. -/
theorem claim_C3_amended (gen : PyType → Option PyVal) (maxDepth : Nat)
    (I O : List PyType) (oracle : Nat → FuncSpec × List Bool) (budget : Nat)
    (g : FuncGraph)
    (hO : O ≠ [])
    (hknodup : ∀ n, (((oracle n).1.inp.map Prod.fst)).Nodup)
    (hinj : NameInj (fun k => ∃ n, k ∈ ((oracle n).1.inp.map Prod.fst)))
    (hrun : composeFunc gen maxDepth I O oracle budget =
      Option.some (Option.some g)) :
    g.inputOrder = Option.some I ∧ g.outputOrder = Option.some O ∧
    g.getOutType = Except.ok O ∧
    (g.getInpType).map (List.map Prod.snd) = Except.ok I := by
  obtain ⟨st', hsyn, hfr, hhit, hge⟩ :=
    @composeRun_exit (fun k => ∃ n, k ∈ ((oracle n).1.inp.map Prod.fst)) gen maxDepth I O
      oracle hknodup (fun n p hp => ⟨n, List.mem_map.mpr ⟨p, hp, rfl⟩⟩) budget
      Option.none (initSt O) (synthInv_init _ O) g hrun
  have hsent0 : ∀ t, sentCount (st'.queues t) = 0 := by
    have h1 := hsyn.hitCnt
    have h2 : sentTotal st' = 0 := by omega
    intro t
    have h3 : sentTotal st' = Finset.univ.sum (fun t => sentCount (st'.queues t)) := rfl
    rw [h3] at h2
    exact (Finset.sum_eq_zero_iff.mp h2) t (Finset.mem_univ t)
  subst hge
  exact ⟨rfl, rfl, getOutType_exit st' (Option.some I) hsyn hsent0 hO,
    getInpType_exit st' I hsyn hinj hsent0 hfr⟩

/-- C3 (witness).  A concrete successful run with `I = (int,)`, `O = (int,)`
under the `oracleNeg` library satisfies the amended claim's hypotheses and
conclusions. -/
theorem claim_C3_witness :
    gRun2.inputOrder = Option.some [PyType.int] ∧
    gRun2.outputOrder = Option.some [PyType.int] ∧
    gRun2.getOutType = Except.ok [PyType.int] ∧
    (gRun2.getInpType).map (List.map Prod.snd) = Except.ok [PyType.int] :=
  claim_C3_amended genStd 1 [PyType.int] [PyType.int] oracleNeg 2 gRun2
    (by decide)
    (fun _ => List.nodup_singleton "x")
    (fun k1 k2 h1 h2 n1 n2 _ => by
      obtain ⟨_, hm1⟩ := h1
      obtain ⟨_, hm2⟩ := h2
      have e1 : k1 = "x" := by
        have : k1 ∈ ["x"] := hm1
        rw [List.mem_singleton] at this
        exact this
      have e2 : k2 = "x" := by
        have : k2 ∈ ["x"] := hm2
        rw [List.mem_singleton] at this
        exact this
      rw [e1, e2])
    (by rfl)

end MetaComp